import Mathlib

/-! Unicode-safe POSIX wrappers (posixPosix.c)

A shallow embedding of `lib/misc/posixPosix.c` (open-vm-tools) and the
properties of it that are checked against the specification.

Conventions of the embedding

* A C string is the list of its bytes before the terminating NUL (`Bytes`).
  `strlen` and `cstr` stop at the first NUL, so every byte list is a valid
  argument.
* A `char *` is an `Option`: `none` is `NULL`.
* The heap is explicit (`Heap`): every block ever allocated keeps its address,
  and every call of `free` on a non-null pointer is logged.
* The universal-text codec (`Unicode_Alloc`, `Unicode_GetAllocBytes`) and the
  native primitives are parameters of the wrappers.
* `goto exit` is an early return carrying the state reached so far.
-/

namespace PosixPosix

/-! ## Bytes, C strings, errno values -/

abbrev Bytes := List Nat

/-- Linux value of `ENOMEM`. -/
def ENOMEM : Int := 12

/-- Linux value of `ERANGE`. -/
def ERANGE : Int := 34

/-- The C string stored at the start of `s`: the bytes before the first NUL. -/
def cstr (s : Bytes) : Bytes := s.takeWhile (fun b => b != 0)

/-- C `strlen`. -/
def strlen (s : Bytes) : Nat := (cstr s).length

/-- C `memcpy(buf + p, src, len)` where `src` is a NUL-terminated string held
outside `buf`: the first `len` bytes of `src` followed by its terminator are
written at offset `p`. -/
def memcpy (buf : Bytes) (p : Nat) (src : Bytes) (len : Nat) : Bytes :=
  buf.take p ++ (src ++ [0]).take len ++ buf.drop (p + len)

/-! ## Explicit heap with allocation tracking -/

/-- The heap: `blocks[a]` is the content of the block at address `a` (addresses
are never reused); `freed` logs every address handed to `free`, most recent
first. -/
structure Heap where
  blocks : List Bytes
  freed : List Nat
deriving DecidableEq, Repr

/-- Allocate a block holding `s`; returns its address. -/
def Heap.malloc (h : Heap) (s : Bytes) : Nat × Heap :=
  (h.blocks.length, { blocks := h.blocks ++ [s], freed := h.freed })

/-- C `free`: `free(NULL)` does nothing, otherwise the address is logged. -/
def free (h : Heap) (v : Option Nat) : Heap :=
  match v with
  | none => h
  | some a => { blocks := h.blocks, freed := a :: h.freed }

/-- The string held by the block a pointer refers to (`none` for `NULL`). -/
def Heap.str (h : Heap) (v : Option Nat) : Option Bytes :=
  v.map (fun a => h.blocks.getD a [])

/-- Addresses that are allocated and were never freed. -/
def Heap.live (h : Heap) : List Nat :=
  (List.range h.blocks.length).filter (fun a => decide (a ∉ h.freed))

/-- The empty heap of a fresh process. -/
def Heap.empty : Heap := { blocks := [], freed := [] }

/-- Number of times an address has been released. -/
def Heap.freeCount (h : Heap) (a : Nat) : Nat := h.freed.count a

/-- Model of `Unicode_Alloc(s, STRING_ENCODING_DEFAULT)`: the codec `conv` decodes the
native string; on success the universal-text copy is a new heap block, on
failure the result is `NULL` and the heap is unchanged. -/
def Unicode_Alloc (conv : Bytes → Option Bytes) (h : Heap) (s : Bytes) :
    Option Nat × Heap :=
  match conv s with
  | none => (none, h)
  | some u => let r := h.malloc u; (some r.1, r.2)

/-- Model of `Unicode_GetAllocBytes(s, STRING_ENCODING_DEFAULT)`: the codec `enc`
encodes universal text to native bytes in a new heap block, or yields `NULL`. -/
def Unicode_GetAllocBytes (enc : Bytes → Option Bytes) (h : Heap) (s : Bytes) :
    Option Nat × Heap :=
  match enc s with
  | none => (none, h)
  | some u => let r := h.malloc u; (some r.1, r.2)

/-! ## Account records -/

/-- A `char *` held in a record filled by a reentrant native lookup: it points
into the caller's buffer at an offset, or at storage outside the buffer whose
string is `s`. -/
inductive CharPtr where
  | inBuf (off : Nat)
  | other (s : Bytes)
deriving DecidableEq, Repr

/-- The C string a pointer refers to, given the buffer contents. -/
def deref (buf : Bytes) (q : CharPtr) : Bytes :=
  match q with
  | .inBuf off => cstr (buf.drop off)
  | .other s => cstr s

/-- C `struct passwd`; `P` is what a non-null string field points to. -/
structure Passwd (P : Type) where
  pw_name : Option P
  pw_passwd : Option P
  pw_uid : Nat
  pw_gid : Nat
  pw_gecos : Option P
  pw_dir : Option P
  pw_shell : Option P
deriving DecidableEq, Repr

/-! ## GetpwInternal_r (reentrant adapter) -/

/-- The guard `fld && (x = Unicode_Alloc(fld, ...)) == NULL`.
`none`: the guard fired (`goto exit`, nothing was allocated);
`some (x, h)`: the new value of the local `x` and the heap. -/
def allocGuard (conv : Bytes → Option Bytes) (src : Option Bytes) (h : Heap) :
    Option (Option Nat × Heap) :=
  match src with
  | none => some (none, h)
  | some s =>
    match Unicode_Alloc conv h s with
    | (none, _) => none
    | (some a, h1) => some (some a, h1)

/-- Local variables `pwname`, `passwd`, `gecos`, `dir`, `shell`. -/
structure Locals where
  pwname : Option Nat
  passwd : Option Nat
  gecos : Option Nat
  dir : Option Nat
  shell : Option Nat
deriving DecidableEq, Repr

/-- First half of `GetpwInternal_r` ("Convert strings to UTF-8"). The Boolean
is `false` when a guard jumped to `exit` (with `ret = ENOMEM`). -/
def convertStrings (conv : Bytes → Option Bytes) (pw : Passwd CharPtr) (buf : Bytes)
    (h0 : Heap) : Bool × Locals × Heap :=
  match allocGuard conv (pw.pw_name.map (deref buf)) h0 with
  | none => (false, ⟨none, none, none, none, none⟩, h0)
  | some (pwname, h1) =>
  match allocGuard conv (pw.pw_passwd.map (deref buf)) h1 with
  | none => (false, ⟨pwname, none, none, none, none⟩, h1)
  | some (passwd, h2) =>
  match allocGuard conv (pw.pw_gecos.map (deref buf)) h2 with
  | none => (false, ⟨pwname, passwd, none, none, none⟩, h2)
  | some (gecos, h3) =>
  match allocGuard conv (pw.pw_dir.map (deref buf)) h3 with
  | none => (false, ⟨pwname, passwd, gecos, none, none⟩, h3)
  | some (dir, h4) =>
  match allocGuard conv (pw.pw_shell.map (deref buf)) h4 with
  | none => (false, ⟨pwname, passwd, gecos, dir, none⟩, h4)
  | some (shell, h5) => (true, ⟨pwname, passwd, gecos, dir, shell⟩, h5)

/-- One packing block
`if (s) { len = strlen(s) + 1; if (p + len > buf + size) goto exit;
          fld = memcpy(p, s, len); p += len; }`.
`s` is the string of the local (`none` when the local is `NULL`), `fld` the
current field pointer. `none`: `goto exit`; otherwise the new field pointer,
buffer and cursor. Pointers into the buffer are offsets from `buf`, so the
test `p + len > buf + size` compares `p + len` with `size` as natural numbers.
This is the pointer comparison of the code when `buf + size` is a pointer
into (or one past) the caller's buffer, that is when the buffer holds at least
`size` bytes; for a `size` larger than the buffer `buf + size` is not a valid
pointer (it can wrap around the address space) and the model does not apply.
The theorems on the packing step assume `size ≤ buf.length`. -/
def packField (size : Nat) (s : Option Bytes) (fld : Option CharPtr) (buf : Bytes)
    (p : Nat) : Option (Option CharPtr × Bytes × Nat) :=
  match s with
  | none => some (fld, buf, p)
  | some u =>
    let len := strlen u + 1
    if p + len > size then none
    else some (some (CharPtr.inBuf p), memcpy buf p u len, p + len)

/-- Second half of `GetpwInternal_r` ("Put UTF-8 strings into the structure"),
from `ret = ERANGE; p = buf;` to the label `exit`. Returns `ret`, the record
and the buffer. -/
def packStrings (size : Nat) (h : Heap) (l : Locals) (pw : Passwd CharPtr)
    (buf : Bytes) : Int × Passwd CharPtr × Bytes :=
  match packField size (h.str l.pwname) pw.pw_name buf 0 with
  | none => (ERANGE, pw, buf)
  | some (f1, buf1, p1) =>
  let pw1 := { pw with pw_name := f1 }
  match packField size (h.str l.passwd) pw1.pw_passwd buf1 p1 with
  | none => (ERANGE, pw1, buf1)
  | some (f2, buf2, p2) =>
  let pw2 := { pw1 with pw_passwd := f2 }
  match packField size (h.str l.gecos) pw2.pw_gecos buf2 p2 with
  | none => (ERANGE, pw2, buf2)
  | some (f3, buf3, p3) =>
  let pw3 := { pw2 with pw_gecos := f3 }
  match packField size (h.str l.dir) pw3.pw_dir buf3 p3 with
  | none => (ERANGE, pw3, buf3)
  | some (f4, buf4, p4) =>
  let pw4 := { pw3 with pw_dir := f4 }
  match packField size (h.str l.shell) pw4.pw_shell buf4 p4 with
  | none => (ERANGE, pw4, buf4)
  | some (f5, buf5, _) => (0, { pw4 with pw_shell := f5 }, buf5)

/-- The label `exit` of `GetpwInternal_r`:
`free(passwd); free(dir); free(pwname); free(gecos); free(shell);`. -/
def freeLocals (h : Heap) (l : Locals) : Heap :=
  free (free (free (free (free h l.passwd) l.dir) l.pwname) l.gecos) l.shell

/-- What a reentrant lookup leaves behind: the status, the record `*ppw`
(`none` when `*ppw` is `NULL`), the caller's buffer and the heap. -/
structure Result_r where
  ret : Int
  ppw : Option (Passwd CharPtr)
  buf : Bytes
  heap : Heap
deriving DecidableEq, Repr

/-- Model of `GetpwInternal_r(pw, buf, size, ppw)`. `ppw` is the record `*ppw` points
to (`none` for a null `*ppw`). The function starts with `pw = *ppw` and reads
`pw->pw_name`; with a null `*ppw` that read is a null-pointer dereference,
for which the model returns `none`. -/
def GetpwInternal_r (conv : Bytes → Option Bytes) (ppw : Option (Passwd CharPtr))
    (buf : Bytes) (size : Nat) (heap : Heap) : Option Result_r :=
  match ppw with
  | none => none
  | some pw =>
    let c := convertStrings conv pw buf heap
    let r := if c.1 then packStrings size c.2.2 c.2.1 pw buf else (ENOMEM, pw, buf)
    some ⟨r.1, some r.2.1, r.2.2, freeLocals c.2.2 c.2.1⟩

/-- Outcome of the native `getpwnam_r` / `getpwuid_r`: status, buffer as the
native call filled it, and the record `*ppw` points to (or `none`). -/
structure NativeLookup where
  ret : Int
  buf : Bytes
  ppw : Option (Passwd CharPtr)
deriving DecidableEq, Repr

/-- Model of `Posix_Getpwnam_r(name, pw, buf, size, ppw)`; the native `getpwnam_r`
receives the encoded name (`none` when the encoding failed), the buffer and
its size. -/
def Posix_Getpwnam_r (enc conv : Bytes → Option Bytes)
    (getpwnam_r : Option Bytes → Bytes → Nat → NativeLookup)
    (name : Bytes) (buf : Bytes) (size : Nat) (heap : Heap) : Option Result_r :=
  let t := Unicode_GetAllocBytes enc heap name
  let n := getpwnam_r (t.2.str t.1) buf size
  let h := free t.2 t.1
  if n.ret ≠ 0 then some ⟨n.ret, n.ppw, n.buf, h⟩
  else GetpwInternal_r conv n.ppw n.buf size h

/-- Model of `Posix_Getpwuid_r(uid, pw, buf, size, ppw)`. -/
def Posix_Getpwuid_r (conv : Bytes → Option Bytes)
    (getpwuid_r : Nat → Bytes → Nat → NativeLookup)
    (uid : Nat) (buf : Bytes) (size : Nat) (heap : Heap) : Option Result_r :=
  let n := getpwuid_r uid buf size
  if n.ret ≠ 0 then some ⟨n.ret, n.ppw, n.buf, heap⟩
  else GetpwInternal_r conv n.ppw n.buf size heap

/-! ## Statement vocabulary for the reentrant adapter -/

/-- Universal-text conversion of a field of the record (`none` when the field
is absent or its conversion fails). -/
def convField (conv : Bytes → Option Bytes) (buf : Bytes) (fld : Option CharPtr) :
    Option Bytes :=
  (fld.map (deref buf)).bind conv

/-- Every present string field converts successfully. -/
def AllConvert (conv : Bytes → Option Bytes) (pw : Passwd CharPtr) (buf : Bytes) : Prop :=
  ∀ q, some q ∈ [pw.pw_name, pw.pw_passwd, pw.pw_gecos, pw.pw_dir, pw.pw_shell] →
    (conv (deref buf q)).isSome = true

/-- Bytes a converted field needs in the buffer: length plus terminator, and
nothing for an absent field. -/
def fieldLen (c : Option Bytes) : Nat :=
  match c with
  | none => 0
  | some u => strlen u + 1

/-- Sum over the present fields of (converted length + 1). -/
def packedSize (conv : Bytes → Option Bytes) (pw : Passwd CharPtr) (buf : Bytes) : Nat :=
  fieldLen (convField conv buf pw.pw_name) + fieldLen (convField conv buf pw.pw_passwd)
    + fieldLen (convField conv buf pw.pw_gecos) + fieldLen (convField conv buf pw.pw_dir)
    + fieldLen (convField conv buf pw.pw_shell)

/-- The heap `h2` extends `h1`: more blocks, same release log. -/
def Heap.Ext (h1 h2 : Heap) : Prop :=
  (∃ extra, h2.blocks = h1.blocks ++ extra) ∧ h2.freed = h1.freed

/-- A pointer is null or an allocated address. -/
def Heap.Valid (h : Heap) (v : Option Nat) : Prop :=
  ∀ a, v = some a → a < h.blocks.length

/-- The string fields of an account record in the order in which
`GetpwInternal_r` converts and packs them. -/
def strFields {P : Type} (pw : Passwd P) : List (Option P) :=
  [pw.pw_name, pw.pw_passwd, pw.pw_gecos, pw.pw_dir, pw.pw_shell]

/-- Offset of the `i`-th string when the strings `cs` are packed back to back:
the sum of (length + 1) of the present strings before it. -/
def offsetOf (cs : List (Option Bytes)) (i : Nat) : Nat :=
  ((cs.take i).map fieldLen).sum

/-- The field has been packed at offset `off`: an absent string leaves the
pointer `fld0` as it was; a present string `u` makes the pointer `buf + off`,
and the bytes found there are `u` followed by its NUL terminator. -/
def PackedAt (c : Option Bytes) (off : Nat) (fld0 fld1 : Option CharPtr) (buf1 : Bytes) :
    Prop :=
  match c with
  | none => fld1 = fld0
  | some u => fld1 = some (CharPtr.inBuf off)
      ∧ (buf1.drop off).take (strlen u + 1) = cstr u ++ [0]

/-- The packing blocks of the reentrant adapters as one loop over the pairs
(string of the local, current field pointer). Returns the number of blocks
completed before `goto exit` (all of them on success), the field pointers and
the buffer. Used to reason about `packStrings`. -/
def packList (size : Nat) :
    List (Option Bytes × Option CharPtr) → Bytes → Nat → Nat × List (Option CharPtr) × Bytes
  | [], buf, _ => (0, [], buf)
  | (s, fld) :: rest, buf, p =>
    match packField size s fld buf p with
    | none => (0, fld :: rest.map Prod.snd, buf)
    | some (f, b, p1) =>
      let r := packList size rest b p1
      (r.1 + 1, f :: r.2.1, r.2.2)

/-- The five packing blocks of `GetpwInternal_r` as input of `packList`. -/
def packInput (h : Heap) (l : Locals) (pw : Passwd CharPtr) :
    List (Option Bytes × Option CharPtr) :=
  [(h.str l.pwname, pw.pw_name), (h.str l.passwd, pw.pw_passwd),
   (h.str l.gecos, pw.pw_gecos), (h.str l.dir, pw.pw_dir), (h.str l.shell, pw.pw_shell)]

/-- C2 as the specification states it, for one call: if the call aborts with
`ERANGE`, every string field that points into the buffer points at the start
of a NUL-terminated copy of the field's own value (its native string, or its
universal-text conversion). -/
def NoDanglingAfterAbort (conv : Bytes → Option Bytes) (pw : Passwd CharPtr) (buf : Bytes)
    (size : Nat) (heap : Heap) : Prop :=
  ∀ r pw1, GetpwInternal_r conv (some pw) buf size heap = some r → r.ret = ERANGE →
    r.ppw = some pw1 →
    ∀ (i : Nat) (fld0 fld1 : Option CharPtr),
      (strFields pw)[i]? = some fld0 → (strFields pw1)[i]? = some fld1 →
      ∀ off, fld1 = some (CharPtr.inBuf off) →
        ∃ q, fld0 = some q ∧
          (deref r.buf (CharPtr.inBuf off) = deref buf q
            ∨ some (deref r.buf (CharPtr.inBuf off)) = conv (deref buf q))

/-- A native reentrant lookup that finds no entry: status 0, buffer untouched,
`*ppw` set to `NULL`. -/
def lookupNotFound (buf : Bytes) : NativeLookup :=
  { ret := 0, buf := buf, ppw := none }

/-! ## GetpwInternal, Posix_Getmntent (non-reentrant adapters) -/

/-- The static records handed out by the non-reentrant adapters: `&spw` of
`GetpwInternal` and `&sm` of `Posix_Getmntent`. -/
inductive StaticRef where
  | spw
  | sm
deriving DecidableEq, Repr

/-- Process state seen by `GetpwInternal`: the static `spw` (its string fields
are heap pointers), the heap and `errno`. -/
structure PwStatic where
  spw : Passwd Nat
  heap : Heap
  errno : Int
deriving DecidableEq, Repr

/-- The state of a fresh process: `static struct passwd spw = {0}`. -/
def PwStatic.init : PwStatic :=
  { spw := { pw_name := none, pw_passwd := none, pw_uid := 0, pw_gid := 0, pw_gecos := none,
             pw_dir := none, pw_shell := none },
    heap := Heap.empty, errno := 0 }

/-- Model of `GetpwInternal(pw)`; `pw` is the native record (`none` for a null `pw`),
its string fields given by their content. Returns `&spw` or `NULL`. -/
def GetpwInternal (conv : Bytes → Option Bytes) (pw : Option (Passwd Bytes))
    (st : PwStatic) : Option StaticRef × PwStatic :=
  match pw with
  | none => (none, st)
  | some pw =>
    let hf := free (free (free (free (free st.heap st.spw.pw_passwd) st.spw.pw_dir)
      st.spw.pw_name) st.spw.pw_gecos) st.spw.pw_shell
    let s0 : Passwd Nat :=
      { pw_name := none, pw_passwd := none, pw_uid := pw.pw_uid, pw_gid := pw.pw_gid,
        pw_gecos := none, pw_dir := none, pw_shell := none }
    match allocGuard conv pw.pw_passwd hf with
    | none => (none, { spw := s0, heap := hf, errno := ENOMEM })
    | some (v1, h1) =>
    let s1 := { s0 with pw_passwd := v1 }
    match allocGuard conv pw.pw_dir h1 with
    | none => (none, { spw := s1, heap := h1, errno := ENOMEM })
    | some (v2, h2) =>
    let s2 := { s1 with pw_dir := v2 }
    match allocGuard conv pw.pw_name h2 with
    | none => (none, { spw := s2, heap := h2, errno := ENOMEM })
    | some (v3, h3) =>
    let s3 := { s2 with pw_name := v3 }
    match allocGuard conv pw.pw_gecos h3 with
    | none => (none, { spw := s3, heap := h3, errno := ENOMEM })
    | some (v4, h4) =>
    let s4 := { s3 with pw_gecos := v4 }
    match allocGuard conv pw.pw_shell h4 with
    | none => (none, { spw := s4, heap := h4, errno := ENOMEM })
    | some (v5, h5) =>
      (some StaticRef.spw, { spw := { s4 with pw_shell := v5 }, heap := h5, errno := st.errno })

/-- Model of `Posix_Getpwnam(name)`; the native `getpwnam` receives the encoded name
(or `NULL`). -/
def Posix_Getpwnam (enc conv : Bytes → Option Bytes)
    (getpwnam : Option Bytes → Option (Passwd Bytes)) (name : Bytes) (st : PwStatic) :
    Option StaticRef × PwStatic :=
  let tmpname := Unicode_GetAllocBytes enc st.heap name
  let pw := getpwnam (tmpname.2.str tmpname.1)
  GetpwInternal conv pw { spw := st.spw, heap := free tmpname.2 tmpname.1, errno := st.errno }

/-- Model of `Posix_Getpwuid(uid)`. -/
def Posix_Getpwuid (conv : Bytes → Option Bytes) (getpwuid : Nat → Option (Passwd Bytes))
    (uid : Nat) (st : PwStatic) : Option StaticRef × PwStatic :=
  GetpwInternal conv (getpwuid uid) st

/-- C `struct mntent`; `P` is what a non-null string field points to. -/
structure Mntent (P : Type) where
  mnt_fsname : Option P
  mnt_dir : Option P
  mnt_type : Option P
  mnt_opts : Option P
  mnt_freq : Int
  mnt_passno : Int
deriving DecidableEq, Repr

/-- Process state seen by `Posix_Getmntent`: the static `sm`, the heap and
`errno`. -/
structure MntStatic where
  sm : Mntent Nat
  heap : Heap
  errno : Int
deriving DecidableEq, Repr

/-- Model of `Posix_Getmntent(fp)`; `m` is what the native `getmntent(fp)` returned
(`none` for `NULL`). Returns `&sm` or `NULL`. -/
def Posix_Getmntent (conv : Bytes → Option Bytes) (m : Option (Mntent Bytes))
    (st : MntStatic) : Option StaticRef × MntStatic :=
  match m with
  | none => (none, st)
  | some m =>
    let hf := free (free (free (free st.heap st.sm.mnt_fsname) st.sm.mnt_dir) st.sm.mnt_type)
      st.sm.mnt_opts
    let s0 : Mntent Nat :=
      { mnt_fsname := none, mnt_dir := none, mnt_type := none, mnt_opts := none,
        mnt_freq := m.mnt_freq, mnt_passno := m.mnt_passno }
    match allocGuard conv m.mnt_fsname hf with
    | none => (none, { sm := s0, heap := hf, errno := ENOMEM })
    | some (v1, h1) =>
    let s1 := { s0 with mnt_fsname := v1 }
    match allocGuard conv m.mnt_dir h1 with
    | none => (none, { sm := s1, heap := h1, errno := ENOMEM })
    | some (v2, h2) =>
    let s2 := { s1 with mnt_dir := v2 }
    match allocGuard conv m.mnt_type h2 with
    | none => (none, { sm := s2, heap := h2, errno := ENOMEM })
    | some (v3, h3) =>
    let s3 := { s2 with mnt_type := v3 }
    match allocGuard conv m.mnt_opts h3 with
    | none => (none, { sm := s3, heap := h3, errno := ENOMEM })
    | some (v4, h4) =>
      (some StaticRef.sm, { sm := { s3 with mnt_opts := v4 }, heap := h4, errno := st.errno })

/-- The string fields of an account record in the order in which
`GetpwInternal` releases and fills them: passwd, dir, name, gecos, shell. -/
def allocOrder {P : Type} (pw : Passwd P) : List (Option P) :=
  [pw.pw_passwd, pw.pw_dir, pw.pw_name, pw.pw_gecos, pw.pw_shell]

/-- The string fields of a mount record in the order in which
`Posix_Getmntent` releases and fills them: fsname, dir, type, opts. -/
def mntOrder {P : Type} (m : Mntent P) : List (Option P) :=
  [m.mnt_fsname, m.mnt_dir, m.mnt_type, m.mnt_opts]

/-- The heap blocks a list of pointers refers to (the non-null ones). -/
def ptrsOf (fs : List (Option Nat)) : List Nat := fs.filterMap id

/-- The guard `fld && (x = Unicode_Alloc(fld, ...)) == NULL` fires: the field
is present and its universal-text copy cannot be allocated. -/
def guardFails (conv : Bytes → Option Bytes) (src : Option Bytes) : Prop :=
  ∃ s, src = some s ∧ conv s = none

/-- The allocation guards of the non-reentrant adapters as one loop over the
native fields. Returns the number of guards passed before `goto exit` (all of
them on success), the pointers stored in the static record (null from the
failing field on) and the heap. Used to reason about `GetpwInternal` and
`Posix_Getmntent`. -/
def allocList (conv : Bytes → Option Bytes) :
    List (Option Bytes) → Heap → Nat × List (Option Nat) × Heap
  | [], h => (0, [], h)
  | src :: rest, h =>
    match allocGuard conv src h with
    | none => (0, none :: rest.map (fun _ => none), h)
    | some (v, h1) =>
      let r := allocList conv rest h1
      (r.1 + 1, v :: r.2.1, r.2.2)

/-- The allocation-tracking invariant: the pointers `ptrs` are pairwise
distinct, no address has been released twice, only allocated addresses have
been released, and the live blocks (allocated, never released) are exactly
the ones in `ptrs`. -/
def Owned (h : Heap) (ptrs : List Nat) : Prop :=
  ptrs.Nodup ∧ h.freed.Nodup ∧ (∀ a ∈ h.freed, a < h.blocks.length)
    ∧ ∀ a, a ∈ ptrs ↔ (a < h.blocks.length ∧ a ∉ h.freed)

/-- A call of one of the two non-reentrant account lookups. -/
inductive PwCall where
  | byName (name : Bytes)
  | byUid (uid : Nat)
deriving DecidableEq, Repr

/-- Run one lookup. -/
def PwCall.run (enc conv : Bytes → Option Bytes)
    (getpwnam : Option Bytes → Option (Passwd Bytes)) (getpwuid : Nat → Option (Passwd Bytes))
    (c : PwCall) (st : PwStatic) : Option StaticRef × PwStatic :=
  match c with
  | .byName name => Posix_Getpwnam enc conv getpwnam name st
  | .byUid uid => Posix_Getpwuid conv getpwuid uid st

/-- Run a sequence of lookups, first to last, from a state. -/
def runPwCalls (enc conv : Bytes → Option Bytes)
    (getpwnam : Option Bytes → Option (Passwd Bytes)) (getpwuid : Nat → Option (Passwd Bytes))
    (cs : List PwCall) (st : PwStatic) : PwStatic :=
  cs.foldl (fun s c => (c.run enc conv getpwnam getpwuid s).2) st

/-- The native record a lookup works on: what `getpwnam` answers for the
encoded name, or `getpwuid` for the id. -/
def PwCall.native (enc : Bytes → Option Bytes)
    (getpwnam : Option Bytes → Option (Passwd Bytes)) (getpwuid : Nat → Option (Passwd Bytes))
    (c : PwCall) : Option (Passwd Bytes) :=
  match c with
  | .byName name => getpwnam (enc name)
  | .byUid uid => getpwuid uid

/-! ## Encoding gateway: wrappers of native primitives -/

/-- Linux value of `O_WRONLY`. -/
def O_WRONLY : Nat := 1

/-- Linux value of `O_CREAT`. -/
def O_CREAT : Nat := 64

/-- Linux value of `O_TRUNC`. -/
def O_TRUNC : Nat := 512

/-- A call of a native primitive with the arguments it received. A path is a
native string or `NULL`; `statbuf` is the caller's pointer, passed through;
the vector of `execv` is `NULL` or the entries of the array, the closing
`NULL` entry included. -/
inductive Syscall where
  | sysOpen (path : Option Bytes) (flags : Nat) (mode : Nat)
  | sysStat (path : Option Bytes) (statbuf : Nat)
  | sysUnlink (path : Option Bytes)
  | sysRename (fromPath toPath : Option Bytes)
  | sysExecv (path : Option Bytes) (argv : Option (List (Option Bytes)))
  | sysLink (path1 path2 : Option Bytes)
  | sysSymlink (path1 path2 : Option Bytes)
  | sysReadlink (path : Option Bytes) (bufsiz : Nat)
deriving DecidableEq, Repr

/-- What a native primitive answers: its return value and the value it sets
`errno` to (`none` when it leaves `errno` alone). -/
structure Reply where
  ret : Int
  errno : Option Int
deriving DecidableEq, Repr

/-- The operating system: the answer to a call, given the calls made before
(most recent first). -/
abbrev OS := List Syscall → Syscall → Reply

/-- Process state seen by the wrappers: heap, `errno`, and the native calls
made so far (most recent first). -/
structure Proc where
  heap : Heap
  errno : Int
  log : List Syscall
deriving DecidableEq, Repr

/-- Invoke a native primitive: the call is logged and `errno` updated. -/
def invoke (os : OS) (c : Syscall) (st : Proc) : Int × Proc :=
  ((os st.log c).ret,
   { heap := st.heap, errno := ((os st.log c).errno).getD st.errno, log := c :: st.log })

/-- Model of `Posix_Open(pathName, flags, ...)`; `va` holds the variadic arguments as
`int`s. Reading a variadic argument that was not passed is undefined, the
model returns `none` there. The `int` read is converted to `mode_t`
(32 bits, unsigned). -/
def Posix_Open (enc : Bytes → Option Bytes) (os : OS) (pathName : Bytes) (flags : Nat)
    (va : List Int) (st : Proc) : Option (Int × Proc) :=
  let path := Unicode_GetAllocBytes enc st.heap pathName
  let mode : Option Nat :=
    if flags &&& O_CREAT ≠ 0 then va.head?.map (fun a => (a % 2 ^ 32).toNat) else some 0
  mode.map fun m =>
    let r := invoke os (.sysOpen (path.2.str path.1) flags m)
      { heap := path.2, errno := st.errno, log := st.log }
    (r.1, { heap := free r.2.heap path.1, errno := r.2.errno, log := r.2.log })

/-- Model of `Posix_Creat(pathName, mode)`: the `mode_t` travels through the variadic
list and is read back as an `int`. -/
def Posix_Creat (enc : Bytes → Option Bytes) (os : OS) (pathName : Bytes) (mode : Nat)
    (st : Proc) : Option (Int × Proc) :=
  Posix_Open enc os pathName (O_CREAT ||| O_WRONLY ||| O_TRUNC)
    [if mode % 2 ^ 32 < 2 ^ 31 then (mode % 2 ^ 32 : Int) else (mode % 2 ^ 32 : Int) - 2 ^ 32] st

/-- Model of `Posix_Rename(fromPathName, toPathName)`: `toPath` is converted first. -/
def Posix_Rename (enc : Bytes → Option Bytes) (os : OS) (fromPathName toPathName : Bytes)
    (st : Proc) : Int × Proc :=
  let toPath := Unicode_GetAllocBytes enc st.heap toPathName
  let fromPath := Unicode_GetAllocBytes enc toPath.2 fromPathName
  let r := invoke os (.sysRename (fromPath.2.str fromPath.1) (fromPath.2.str toPath.1))
    { heap := fromPath.2, errno := st.errno, log := st.log }
  (r.1, { heap := free (free r.2.heap toPath.1) fromPath.1, errno := r.2.errno,
          log := r.2.log })

/-- An operating system that accepts every call (returns 0, leaves `errno`). -/
def osAccepts : OS := fun _ _ => { ret := 0, errno := none }

/-- An operating system that rejects a null path with `EFAULT` (14) and
accepts every other call. -/
def osChecksNull : OS := fun _ c =>
  match c with
  | .sysOpen none _ _ => { ret := -1, errno := some 14 }
  | .sysStat none _ => { ret := -1, errno := some 14 }
  | .sysUnlink none => { ret := -1, errno := some 14 }
  | .sysRename none _ => { ret := -1, errno := some 14 }
  | .sysRename _ none => { ret := -1, errno := some 14 }
  | .sysExecv none _ => { ret := -1, errno := some 14 }
  | _ => { ret := 0, errno := none }

/-- A fresh process. -/
def Proc.init : Proc := { heap := Heap.empty, errno := 0, log := [] }

/-! ## Posix_Execl -/

/-- The counting loop `while (va_arg(vl, char *)) { count++; }` over the
variadic arguments `vl`; it stops at the first `NULL` (or at the end of what
was passed). -/
def countArgs : List (Option Bytes) → Nat → Nat
  | some _ :: rest, count => countArgs rest (count + 1)
  | _, count => count

/-- Model of `Unicode_GetAllocBytes` on a pointer that may be `NULL` (yields `NULL`). -/
def Unicode_GetAllocBytesOpt (enc : Bytes → Option Bytes) (h : Heap) (s : Option Bytes) :
    Option Nat × Heap :=
  match s with
  | none => (none, h)
  | some u => Unicode_GetAllocBytes enc h u

/-- The filling loop `for (i = 1; i < count; i++) { argv[i] =
Unicode_GetAllocBytes(va_arg(vl, char *), ...); }`, with `n = count - i`
iterations left. -/
def fillArgv (enc : Bytes → Option Bytes) :
    Nat → Nat → List (Option Bytes) → List (Option Nat) → Heap → List (Option Nat) × Heap
  | 0, _, _, argv, h => (argv, h)
  | n + 1, i, vl, argv, h =>
    let a := Unicode_GetAllocBytesOpt enc h vl.head?.join
    fillArgv enc n (i + 1) vl.tail (argv.set i a.1) a.2

/-- The loop `for (i = 0; i < count; i++) { free(argv[i]); }`. -/
def freeArgv (h : Heap) (argv : List (Option Nat)) (count : Nat) : Heap :=
  (argv.take count).foldl free h

/-- Model of `Posix_Execl(pathName, arg0, ...)`; `va` holds the variadic arguments after
`arg0`, `argvOk` tells whether `malloc` of the vector succeeds. The vector is
a heap block of its own (tracked with empty content) whose entries are kept
in a list; entries not yet written are shown as `NULL`. -/
def Posix_Execl (enc : Bytes → Option Bytes) (os : OS) (argvOk : Bool) (pathName : Bytes)
    (arg0 : Option Bytes) (va : List (Option Bytes)) (st : Proc) : Int × Proc :=
  let path := Unicode_GetAllocBytes enc st.heap pathName
  let count := match arg0 with
    | some _ => countArgs va 1
    | none => 0
  if argvOk then
    let blk := path.2.malloc []
    let argv0 : List (Option Nat) := List.replicate (count + 1) none
    let filled :=
      if count > 0 then
        let a0 := Unicode_GetAllocBytesOpt enc blk.2 arg0
        fillArgv enc (count - 1) 1 va (argv0.set 0 a0.1) a0.2
      else (argv0, blk.2)
    let argv := filled.1.set count none
    let r := invoke os (.sysExecv (filled.2.str path.1) (some (argv.map filled.2.str)))
      { heap := filled.2, errno := st.errno, log := st.log }
    (r.1, { heap := free (free (freeArgv r.2.heap argv count) (some blk.1)) path.1,
            errno := r.2.errno, log := r.2.log })
  else
    (-1, { heap := free path.2 path.1, errno := ENOMEM, log := st.log })

/-- The call `Posix_Execl(path, a0, ..., a(n-1), NULL)` for the argument list
`args`: the first argument (or `NULL` when there is none) is `arg0`, the
others and the closing `NULL` are the variadic part. -/
def execlOf (enc : Bytes → Option Bytes) (os : OS) (argvOk : Bool) (pathName : Bytes)
    (args : List Bytes) (st : Proc) : Int × Proc :=
  match args with
  | [] => Posix_Execl enc os argvOk pathName none [] st
  | a0 :: rest => Posix_Execl enc os argvOk pathName (some a0) (rest.map some ++ [none]) st

/-! ## Posix_Getenv, Posix_Setenv -/

/-- The table `posixHashTable`: universal-text name ↦ heap address of the
universal-text value (`clientData`), at most one entry per key. -/
abbrev HashTable := List (Bytes × Nat)

/-- Modelled from the spec: `HashTable_AllocOnce` of hashTable.c is not among
the sources. §4.3 and §6: the table is created exactly once, the first time
any lookup occurs, and persists afterwards. `ptr` is the static
`posixEnvPtr` (`none` while it is still `NULL`). The entry-disposal callback
`PosixEnvFree` given at creation is, by §6, never invoked in this module. -/
def HashTable_AllocOnce (ptr : Option HashTable) : HashTable :=
  match ptr with
  | none => []
  | some ht => ht

/-- Model of `PosixEnvFree(v)`: `Unicode_Free((Unicode) v)`, the entry-disposal callback
given to the table. -/
def PosixEnvFree (h : Heap) (v : Nat) : Heap := free h (some v)

/-- Modelled from the spec: `HashTable_ReplaceOrInsert` of hashTable.c is not
among the sources, so what the call does with a key that already has an entry
cannot be read from the code. The specification describes the container so:
an entry is "inserted at most once per distinct name per process lifetime"
and entries "are never evicted or updated once inserted" (§3); the value is
stored "if this is the first time this name is seen" (§4.3); the
entry-disposal callback is "unused in this module since entries are never
removed" (§6). Accordingly the call inserts the pair when the key has no
entry, and leaves the table as it is, disposing of nothing, when the key has
one. -/
def HashTable_ReplaceOrInsert (ht : HashTable) (key : Bytes) (v : Nat) : HashTable :=
  match ht.lookup key with
  | some _ => ht
  | none => (key, v) :: ht

/-- The native environment primitives over an environment of type `E`; the
name and value they receive are native strings or `NULL`. -/
structure NativeEnv (E : Type) where
  getenv : E → Option Bytes → Option Bytes
  setenv : E → Option Bytes → Option Bytes → Int → Int × E

/-- Process state seen by `Posix_Getenv` and `Posix_Setenv`: the native
environment, the number of native `getenv` queries issued so far
(instrumentation), the static `posixEnvPtr` and the heap. -/
structure EnvState (E : Type) where
  environ : E
  getenvCalls : Nat
  posixEnvPtr : Option HashTable
  heap : Heap

/-- Model of `Posix_Getenv(name)`: returns the universal-text value (a heap address) or
`NULL`, and the new process state. -/
def Posix_Getenv {E : Type} (N : NativeEnv E) (enc conv : Bytes → Option Bytes)
    (name : Bytes) (st : EnvState E) : Option Nat × EnvState E :=
  let posixHashTable := HashTable_AllocOnce st.posixEnvPtr
  let rawName := Unicode_GetAllocBytes enc st.heap name
  let rawData := N.getenv st.environ (rawName.2.str rawName.1)
  let h1 := free rawName.2 rawName.1
  match rawData with
  | none =>
    (none, { environ := st.environ, getenvCalls := st.getenvCalls + 1,
             posixEnvPtr := some posixHashTable, heap := h1 })
  | some d =>
    let newValue := Unicode_Alloc conv h1 d
    match newValue.1 with
    | none =>
      (none, { environ := st.environ, getenvCalls := st.getenvCalls + 1,
               posixEnvPtr := some posixHashTable, heap := newValue.2 })
    | some v =>
      (some v, { environ := st.environ, getenvCalls := st.getenvCalls + 1,
                 posixEnvPtr := some (HashTable_ReplaceOrInsert posixHashTable name v),
                 heap := newValue.2 })

/-- Model of `Posix_Setenv(name, value, overWrite)`. -/
def Posix_Setenv {E : Type} (N : NativeEnv E) (enc : Bytes → Option Bytes)
    (name value : Bytes) (overWrite : Int) (st : EnvState E) : Int × EnvState E :=
  let rawData := Unicode_GetAllocBytes enc st.heap value
  let rawName := Unicode_GetAllocBytes enc rawData.2 name
  let res := N.setenv st.environ (rawName.2.str rawName.1) (rawName.2.str rawData.1) overWrite
  let h := free (free rawName.2 rawData.1) rawName.1
  (res.1, { environ := res.2, getenvCalls := st.getenvCalls,
            posixEnvPtr := st.posixEnvPtr, heap := h })

/-- The universal-text value a lookup returned, read from the heap. -/
def getenvValue {E : Type} (r : Option Nat × EnvState E) : Option Bytes :=
  r.2.heap.str r.1

/-- The table entry of a name in a state (`none`: no table yet, or no entry). -/
def cacheEntry {E : Type} (st : EnvState E) (name : Bytes) : Option Nat :=
  (HashTable_AllocOnce st.posixEnvPtr).lookup name

/-- A native environment held as an association list: `getenv(NULL)` and
`setenv` with a null argument fail, `setenv` keeps an existing value unless
`overwrite` is nonzero. -/
def listEnv : NativeEnv (List (Bytes × Bytes)) where
  getenv := fun env n => n.bind (fun k => env.lookup k)
  setenv := fun env n v ow =>
    match n, v with
    | some k, some d =>
      if ow = 0 ∧ (env.lookup k).isSome then (0, env)
      else (0, (k, d) :: env.filter (fun e => e.1 != k))
    | _, _ => (-1, env)

/-- C4 as the specification states it, for one state and name: after a
successful lookup, a second lookup of the same name returns the same value and
the count of native queries does not increase. -/
def SecondLookupCached {E : Type} (N : NativeEnv E) (enc conv : Bytes → Option Bytes)
    (name : Bytes) (st : EnvState E) : Prop :=
  (Posix_Getenv N enc conv name st).1 ≠ none →
    getenvValue (Posix_Getenv N enc conv name (Posix_Getenv N enc conv name st).2)
        = getenvValue (Posix_Getenv N enc conv name st)
      ∧ (Posix_Getenv N enc conv name (Posix_Getenv N enc conv name st).2).2.getenvCalls
        = (Posix_Getenv N enc conv name st).2.getenvCalls

/-- C5 as the specification states it: after a successful lookup, if the
native environment is replaced by `env1` behind the module's back, the next
lookup of the name still returns the first value. -/
def StaleAfterChange {E : Type} (N : NativeEnv E) (enc conv : Bytes → Option Bytes)
    (name : Bytes) (st : EnvState E) (env1 : E) : Prop :=
  (Posix_Getenv N enc conv name st).1 ≠ none →
    getenvValue (Posix_Getenv N enc conv name
        { (Posix_Getenv N enc conv name st).2 with environ := env1 })
      = getenvValue (Posix_Getenv N enc conv name st)

/-- An operation of the module on the environment. -/
inductive EnvOp where
  | getenv (name : Bytes)
  | setenv (name value : Bytes) (overWrite : Int)
deriving DecidableEq, Repr

/-- Run one operation, dropping its return value. -/
def EnvOp.run {E : Type} (N : NativeEnv E) (enc conv : Bytes → Option Bytes)
    (op : EnvOp) (st : EnvState E) : EnvState E :=
  match op with
  | .getenv name => (Posix_Getenv N enc conv name st).2
  | .setenv name value ow => (Posix_Setenv N enc name value ow st).2

/-- Run a sequence of operations, first to last. -/
def runEnvOps {E : Type} (N : NativeEnv E) (enc conv : Bytes → Option Bytes)
    (ops : List EnvOp) (st : EnvState E) : EnvState E :=
  ops.foldl (fun s op => op.run N enc conv s) st

/-- The heap `h2` is reached from `h1` by allocations and by releases of
blocks allocated after `h1`: the blocks of `h1` are still there with their
content, and every address released since then is a new one. -/
def Heap.Grows (h1 h2 : Heap) : Prop :=
  (∃ extra, h2.blocks = h1.blocks ++ extra)
    ∧ ∀ a ∈ h2.freed, a ∈ h1.freed ∨ h1.blocks.length ≤ a

/-- Invariant of the environment table: at most one entry per name, every
entry refers to an allocated block that has not been released, and only
allocated addresses have been released. -/
def TableOwned {E : Type} (st : EnvState E) : Prop :=
  ((HashTable_AllocOnce st.posixEnvPtr).map Prod.fst).Nodup
    ∧ (∀ k v, cacheEntry st k = some v → v < st.heap.blocks.length ∧ v ∉ st.heap.freed)
    ∧ ∀ a ∈ st.heap.freed, a < st.heap.blocks.length

/-- A fresh process whose native environment is `env`. -/
def EnvState.init {E : Type} (env : E) : EnvState E :=
  { environ := env, getenvCalls := 0, posixEnvPtr := none, heap := Heap.empty }

/-- The name `PATH`. -/
def namePATH : Bytes := [80, 65, 84, 72]

/-- The native environment `PATH=/usr/bin:/bin`. -/
def envExample : List (Bytes × Bytes) :=
  [(namePATH, [47, 117, 115, 114, 47, 98, 105, 110, 58, 47, 98, 105, 110])]

/-- The native environment `PATH=/opt`. -/
def envChanged : List (Bytes × Bytes) := [(namePATH, [47, 111, 112, 116])]

/-! ## Example inputs -/

/-- A record as glibc leaves it: every string field points into the buffer. -/
def pwExample : Passwd CharPtr :=
  { pw_name := some (.inBuf 0), pw_passwd := some (.inBuf 2), pw_uid := 0, pw_gid := 0,
    pw_gecos := some (.inBuf 4), pw_dir := some (.inBuf 6), pw_shell := some (.inBuf 8) }

/-- A 12-byte buffer holding five one-byte native strings (byte 233 is Latin-1
e-acute) and two spare bytes. -/
def bufExample : Bytes := [233, 0, 120, 0, 121, 0, 47, 0, 122, 0, 0, 0]

/-- A codec that decodes Latin-1 to UTF-8: bytes from 128 up become two bytes. -/
def latin1ToUtf8 (s : Bytes) : Option Bytes :=
  some (s.flatMap (fun b => if b < 128 then [b] else [192 + b / 64, 128 + b % 64]))

/-- A codec that converts every string except "bad", for which it fails. -/
def convExceptBad (s : Bytes) : Option Bytes :=
  if s = [98, 97, 100] then none else some s

/-- A native account record whose name is "bad". -/
def pwBadName : Passwd Bytes :=
  { pw_name := some [98, 97, 100], pw_passwd := some [120], pw_uid := 1000, pw_gid := 100,
    pw_gecos := none, pw_dir := some [47], pw_shell := some [115, 104] }

/-- A native account record that converts. -/
def pwRoot : Passwd Bytes :=
  { pw_name := some [114, 111, 111, 116], pw_passwd := some [120], pw_uid := 0, pw_gid := 0,
    pw_gecos := some [114], pw_dir := some [47], pw_shell := none }

/-- A native mount record whose type is "bad". -/
def mntBadType : Mntent Bytes :=
  { mnt_fsname := some [100, 101, 118], mnt_dir := some [47], mnt_type := some [98, 97, 100],
    mnt_opts := some [114, 119], mnt_freq := 0, mnt_passno := 1 }

/-- The state of a fresh process: `static struct mntent sm = {0}`. -/
def MntStatic.init : MntStatic :=
  { sm := { mnt_fsname := none, mnt_dir := none, mnt_type := none, mnt_opts := none,
            mnt_freq := 0, mnt_passno := 0 },
    heap := Heap.empty, errno := 0 }

/-- A native account database with the two users "root" and "bad". -/
def getpwnamExample (name : Option Bytes) : Option (Passwd Bytes) :=
  if name = some [114, 111, 111, 116] then some pwRoot
  else if name = some [98, 97, 100] then some pwBadName
  else none

/-- The same database by numeric id. -/
def getpwuidExample (uid : Nat) : Option (Passwd Bytes) :=
  if uid = 0 then some pwRoot else if uid = 1000 then some pwBadName else none

/-- The locals of `GetpwInternal_r` in the order in which they are assigned:
pwname, passwd, gecos, dir, shell. -/
def Locals.toList (l : Locals) : List (Option Nat) :=
  [l.pwname, l.passwd, l.gecos, l.dir, l.shell]

/-- The native strings `GetpwInternal_r` converts, in the order of the
conversions (`none` for a null field). -/
def nativeStrings (pw : Passwd CharPtr) (buf : Bytes) : List (Option Bytes) :=
  (strFields pw).map (Option.map (deref buf))

/-- A buffer as `pwExample` expects it whose last string, the shell, is
"bad". -/
def bufBadShell : Bytes := [233, 0, 120, 0, 121, 0, 47, 0, 98, 97, 100, 0]

/-! ## More gateway wrappers: Posix_Link, Posix_Symlink, Posix_Execv, Posix_ReadLink -/

/-- Model of `Posix_Link(pathName1, pathName2)`: `path1` is converted first. -/
def Posix_Link (enc : Bytes → Option Bytes) (os : OS) (pathName1 pathName2 : Bytes)
    (st : Proc) : Int × Proc :=
  let path1 := Unicode_GetAllocBytes enc st.heap pathName1
  let path2 := Unicode_GetAllocBytes enc path1.2 pathName2
  let r := invoke os (.sysLink (path2.2.str path1.1) (path2.2.str path2.1))
    { heap := path2.2, errno := st.errno, log := st.log }
  (r.1, { heap := free (free r.2.heap path1.1) path2.1, errno := r.2.errno, log := r.2.log })

/-- Model of `Posix_Symlink(pathName1, pathName2)`: `path1` is converted first. -/
def Posix_Symlink (enc : Bytes → Option Bytes) (os : OS) (pathName1 pathName2 : Bytes)
    (st : Proc) : Int × Proc :=
  let path1 := Unicode_GetAllocBytes enc st.heap pathName1
  let path2 := Unicode_GetAllocBytes enc path1.2 pathName2
  let r := invoke os (.sysSymlink (path2.2.str path1.1) (path2.2.str path2.1))
    { heap := path2.2, errno := st.errno, log := st.log }
  (r.1, { heap := free (free r.2.heap path1.1) path2.1, errno := r.2.errno, log := r.2.log })

/-- What a caller observes of a call: the return value, `errno` and the
native calls made. -/
def observe (r : Int × Proc) : Int × Int × List Syscall := (r.1, r.2.errno, r.2.log)

/-- The specification's reference for a wrapper: the native primitive invoked
directly, once, with the given native call. -/
def nativeDirect (os : OS) (c : Syscall) (st : Proc) : Int × Int × List Syscall :=
  observe (invoke os c st)

/-- The `int` that `va_arg(a, int)` reads from a variadic slot holding the
`mode_t` value `mode` (32 bits): the same bit pattern, read as signed. -/
def intOfMode (mode : Nat) : Int :=
  if mode % 2 ^ 32 < 2 ^ 31 then (mode % 2 ^ 32 : Int) else (mode % 2 ^ 32 : Int) - 2 ^ 32

/-- The filling loop of `Posix_Execv`: `for (i = 0; i < count; i++) { argv[i] =
Unicode_GetAllocBytes(argVal[i], ...); }`, with `n = count - i` iterations
left. -/
def fillArray (enc : Bytes → Option Bytes) (argVal : List (Option Bytes)) :
    Nat → Nat → List (Option Nat) → Heap → List (Option Nat) × Heap
  | 0, _, argv, h => (argv, h)
  | n + 1, i, argv, h =>
    let a := Unicode_GetAllocBytesOpt enc h argVal[i]?.join
    fillArray enc argVal n (i + 1) (argv.set i a.1) a.2

/-- Model of `Posix_Execv(pathName, argVal)`; `argVal` is `none` for a null
array, otherwise the entries of the array up to and including its closing
`NULL`. The counting loop `while (argVal[count]) { count++; }` walks the array
as `countArgs` walks a variadic list. `argvOk` tells whether `malloc` of the
vector succeeds. -/
def Posix_Execv (enc : Bytes → Option Bytes) (os : OS) (argvOk : Bool) (pathName : Bytes)
    (argVal : Option (List (Option Bytes))) (st : Proc) : Int × Proc :=
  let path := Unicode_GetAllocBytes enc st.heap pathName
  match argVal with
  | none =>
    let r := invoke os (.sysExecv (path.2.str path.1) none)
      { heap := path.2, errno := st.errno, log := st.log }
    (r.1, { heap := free r.2.heap path.1, errno := r.2.errno, log := r.2.log })
  | some av =>
    let count := countArgs av 0
    if argvOk then
      let blk := path.2.malloc []
      let argv0 : List (Option Nat) := List.replicate (count + 1) none
      let filled := fillArray enc av count 0 argv0 blk.2
      let argv := filled.1.set count none
      let r := invoke os (.sysExecv (filled.2.str path.1) (some (argv.map filled.2.str)))
        { heap := filled.2, errno := st.errno, log := st.log }
      (r.1, { heap := free (free (freeArgv r.2.heap argv count) (some blk.1)) path.1,
              errno := r.2.errno, log := r.2.log })
    else
      (-1, { heap := free path.2 path.1, errno := ENOMEM, log := st.log })

/-- Linux value of `PATH_MAX` (`limits.h`): the size of the on-stack arrays
`link` and `rpath`. -/
def PATH_MAX : Nat := 4096

/-- The ways a call can stop without returning: a failed always-on assertion,
or an access outside an array. -/
inductive Fault where
  | panic
  | outOfBounds
deriving DecidableEq, Repr

/-- Modelled from the spec: the macro `ASSERT_NOT_IMPLEMENTED` (vm_assert.h) is
not among the sources. §5 and §7 let an operation end only by running to
completion or by one terminal error; a failed assertion is taken as such a
terminal stop: the call does not continue past it. -/
def ASSERT_NOT_IMPLEMENTED (cond : Bool) : Except Fault Unit :=
  if cond then .ok () else .error Fault.panic

/-- Model of `Posix_ReadLink(pathName)`. The native `readlink` is called with
the array `link` and `sizeof link = PATH_MAX`; `written` is the content of
`link` when it returns (the bytes it wrote, then whatever the stack held).
The write `link[bytes] = 0` is checked against the bounds of the array: the
model stops with `outOfBounds` if the index is not in `0 .. PATH_MAX - 1`.
Returns the universal-text result (a heap address) or `NULL`. -/
def Posix_ReadLink (enc conv : Bytes → Option Bytes) (os : OS) (written : Bytes)
    (pathName : Bytes) (st : Proc) : Except Fault (Option Nat × Proc) :=
  let path := Unicode_GetAllocBytes enc st.heap pathName
  let r := invoke os (.sysReadlink (path.2.str path.1) PATH_MAX)
    { heap := path.2, errno := st.errno, log := st.log }
  let bytes := r.1
  match ASSERT_NOT_IMPLEMENTED (decide (bytes < (PATH_MAX : Int))) with
  | .error f => .error f
  | .ok _ =>
    let h1 := free r.2.heap path.1
    if bytes ≠ -1 then
      if 0 ≤ bytes ∧ bytes < (PATH_MAX : Int) then
        let link := written.take bytes.toNat ++ 0 :: written.drop (bytes.toNat + 1)
        let result := Unicode_Alloc conv h1 (cstr link)
        .ok (result.1, { heap := result.2, errno := r.2.errno, log := r.2.log })
      else .error Fault.outOfBounds
    else .ok (none, { heap := h1, errno := r.2.errno, log := r.2.log })

/-- An operating system whose `readlink` returns `n` (and sets `errno` to
`ENOENT` = 2 when `n` is -1); every other call is accepted. -/
def osReadlink (n : Int) : OS := fun _ c =>
  match c with
  | .sysReadlink _ _ => { ret := n, errno := if n = -1 then some 2 else none }
  | _ => { ret := 0, errno := none }

/-! ## Posix_Getmntent_r (reentrant mount-entry adapter) -/

/-- Conversion of a value to C `int` (32 bits, two's complement). -/
def toInt32 (x : Int) : Int := (x + 2 ^ 31) % 2 ^ 32 - 2 ^ 31

/-- How a packing block of `Posix_Getmntent_r` can stop: `goto exit` with
`ret = ERANGE`, or a `memcpy` whose length, a negative `int` converted to
`size_t`, runs far outside every object. -/
inductive PackStop where
  | gotoExit
  | memFault
deriving DecidableEq, Repr

/-- One of the first three packing blocks of `Posix_Getmntent_r`
`if (s) { int len = strlen(s) + 1; if (p + len > buf + size) goto exit;
          fld = memcpy(p, s, len); p += len; }`
where `len` is an `int` and `size` is the `int` parameter. -/
def packFieldInt (size : Int) (s : Option Bytes) (fld : Option CharPtr) (buf : Bytes)
    (p : Nat) : Except PackStop (Option CharPtr × Bytes × Nat) :=
  match s with
  | none => .ok (fld, buf, p)
  | some u =>
    let len : Int := toInt32 ((strlen u : Int) + 1)
    if (p : Int) + len > size then .error PackStop.gotoExit
    else if len < 0 then .error PackStop.memFault
    else .ok (some (CharPtr.inBuf p), memcpy buf p u len.toNat, p + len.toNat)

/-- The fourth packing block of `Posix_Getmntent_r` (for `opts`), whose `len`
is a `size_t`. -/
def packFieldSize (size : Int) (s : Option Bytes) (fld : Option CharPtr) (buf : Bytes)
    (p : Nat) : Except PackStop (Option CharPtr × Bytes × Nat) :=
  match s with
  | none => .ok (fld, buf, p)
  | some u =>
    let len : Nat := strlen u + 1
    if ((p + len : Nat) : Int) > size then .error PackStop.gotoExit
    else .ok (some (CharPtr.inBuf p), memcpy buf p u len, p + len)

/-- Local variables `fsname`, `dir`, `type`, `opts` of `Posix_Getmntent_r`. -/
structure MntLocals where
  fsname : Option Nat
  dir : Option Nat
  type : Option Nat
  opts : Option Nat
deriving DecidableEq, Repr

/-- First half of `Posix_Getmntent_r` ("Convert strings to UTF-8"). The
Boolean is `false` when a guard jumped to `exit` (with `ret = ENOMEM`). -/
def convertMntStrings (conv : Bytes → Option Bytes) (m : Mntent CharPtr) (buf : Bytes)
    (h0 : Heap) : Bool × MntLocals × Heap :=
  match allocGuard conv (m.mnt_fsname.map (deref buf)) h0 with
  | none => (false, ⟨none, none, none, none⟩, h0)
  | some (fsname, h1) =>
  match allocGuard conv (m.mnt_dir.map (deref buf)) h1 with
  | none => (false, ⟨fsname, none, none, none⟩, h1)
  | some (dir, h2) =>
  match allocGuard conv (m.mnt_type.map (deref buf)) h2 with
  | none => (false, ⟨fsname, dir, none, none⟩, h2)
  | some (type, h3) =>
  match allocGuard conv (m.mnt_opts.map (deref buf)) h3 with
  | none => (false, ⟨fsname, dir, type, none⟩, h3)
  | some (opts, h4) => (true, ⟨fsname, dir, type, opts⟩, h4)

/-- Second half of `Posix_Getmntent_r` ("Put UTF-8 strings into the
structure"), from `ret = ERANGE; p = buf;` to the label `exit`. Returns `ret`,
the record and the buffer, or `none` when a `memcpy` faults. -/
def packMntStrings (size : Int) (h : Heap) (l : MntLocals) (m : Mntent CharPtr)
    (buf : Bytes) : Option (Int × Mntent CharPtr × Bytes) :=
  match packFieldInt size (h.str l.fsname) m.mnt_fsname buf 0 with
  | .error PackStop.memFault => none
  | .error PackStop.gotoExit => some (ERANGE, m, buf)
  | .ok (f1, buf1, p1) =>
  let m1 := { m with mnt_fsname := f1 }
  match packFieldInt size (h.str l.dir) m1.mnt_dir buf1 p1 with
  | .error PackStop.memFault => none
  | .error PackStop.gotoExit => some (ERANGE, m1, buf1)
  | .ok (f2, buf2, p2) =>
  let m2 := { m1 with mnt_dir := f2 }
  match packFieldInt size (h.str l.type) m2.mnt_type buf2 p2 with
  | .error PackStop.memFault => none
  | .error PackStop.gotoExit => some (ERANGE, m2, buf2)
  | .ok (f3, buf3, p3) =>
  let m3 := { m2 with mnt_type := f3 }
  match packFieldSize size (h.str l.opts) m3.mnt_opts buf3 p3 with
  | .error PackStop.memFault => none
  | .error PackStop.gotoExit => some (ERANGE, m3, buf3)
  | .ok (f4, buf4, _) => some (0, { m3 with mnt_opts := f4 }, buf4)

/-- What `Posix_Getmntent_r` leaves behind: the returned pointer (`none` for
`NULL`, otherwise the record `m` it points to), the caller's record and
buffer, the heap and `errno`. -/
structure MntResult_r where
  ret : Option (Mntent CharPtr)
  m : Mntent CharPtr
  buf : Bytes
  heap : Heap
  errno : Int
deriving DecidableEq, Repr

/-- Model of `Posix_Getmntent_r(fp, m, buf, size)`. `found` tells whether the
native `getmntent_r` returned non-null; `m` and `buf` are the caller's record
and buffer as the native call left them. The result is `none` when a `memcpy`
faults. -/
def Posix_Getmntent_r (conv : Bytes → Option Bytes) (found : Bool) (m : Mntent CharPtr)
    (buf : Bytes) (size : Int) (heap : Heap) (errno : Int) : Option MntResult_r :=
  if found then
    let c := convertMntStrings conv m buf heap
    let packed := if c.1 then packMntStrings size c.2.2 c.2.1 m buf else some (ENOMEM, m, buf)
    packed.map fun r =>
      let h := free (free (free (free c.2.2 c.2.1.fsname) c.2.1.dir) c.2.1.type) c.2.1.opts
      if r.1 ≠ 0 then { ret := none, m := r.2.1, buf := r.2.2, heap := h, errno := r.1 }
      else { ret := some r.2.1, m := r.2.1, buf := r.2.2, heap := h, errno := errno }
  else
    some { ret := none, m := m, buf := buf, heap := heap, errno := errno }

/-- A native string of 2^30 bytes, each the Latin-1 e-acute (233); its UTF-8
form has 2^31 bytes and needs 2^31 + 1 with the terminator, more than the
largest `int`. -/
def bigName : Bytes := List.replicate 1073741824 233

/-- A buffer of 2^30 + 1 bytes holding `bigName` and its terminator. -/
def bufBig : Bytes := bigName ++ [0]

/-- A mount record whose `mnt_fsname` points at the start of the buffer; it has
no other string. -/
def mntBig : Mntent CharPtr :=
  { mnt_fsname := some (CharPtr.inBuf 0), mnt_dir := none, mnt_type := none,
    mnt_opts := none, mnt_freq := 0, mnt_passno := 0 }

/-- An account record whose `pw_name` points at the start of the buffer; it has
no other string. -/
def pwBig : Passwd CharPtr :=
  { pw_name := some (CharPtr.inBuf 0), pw_passwd := none, pw_uid := 0, pw_gid := 0,
    pw_gecos := none, pw_dir := none, pw_shell := none }

/-- The account record that carries the four strings of a mount record in
the same order (`pw_name`, `pw_passwd`, `pw_gecos`, `pw_dir`) and has no
shell: the record on which `GetpwInternal_r` is compared with
`Posix_Getmntent_r`. -/
def mntAsPasswd (m : Mntent CharPtr) : Passwd CharPtr :=
  { pw_name := m.mnt_fsname, pw_passwd := m.mnt_dir, pw_uid := 0, pw_gid := 0,
    pw_gecos := m.mnt_type, pw_dir := m.mnt_opts, pw_shell := none }

/-! # Theorems -/

/-! ## Lemmas: C strings and buffers -/

theorem cstr_append_zero (u rest : Bytes) : cstr (cstr u ++ 0 :: rest) = cstr u := by
  induction u with
  | nil => simp [cstr]
  | cons b t ih =>
    by_cases hb : b = 0
    · subst hb; simp [cstr]
    · simp only [cstr] at ih ⊢
      simp [List.takeWhile_cons, hb, ih]

theorem take_strlen_succ (u : Bytes) : (u ++ [0]).take (strlen u + 1) = cstr u ++ [0] := by
  induction u with
  | nil => simp [cstr, strlen]
  | cons b t ih =>
    by_cases hb : b = 0
    · subst hb; simp [cstr, strlen]
    · simp only [cstr, strlen] at ih ⊢
      simp [List.takeWhile_cons, hb, ih]

theorem window_take {α : Type} (l : List α) (q off n : Nat) (hle : off + n ≤ q) :
    ((l.take q).drop off).take n = (l.drop off).take n := by
  apply List.ext_getElem?
  intro j
  simp only [List.getElem?_take, List.getElem?_drop]
  split
  · rw [if_pos (by omega)]
  · rfl

theorem window_eq_of_take_eq {α : Type} {b b1 : List α} {q off n : Nat}
    (h : b1.take q = b.take q) (hle : off + n ≤ q) :
    (b1.drop off).take n = (b.drop off).take n := by
  rw [← window_take b1 q off n hle, ← window_take b q off n hle, h]

theorem take_eq_of_take_eq {α : Type} {b b1 : List α} {q p : Nat}
    (h : b1.take q = b.take q) (hle : p ≤ q) : b1.take p = b.take p := by
  have h1 : (b1.take q).take p = (b.take q).take p := by rw [h]
  rwa [List.take_take, List.take_take, Nat.min_eq_left hle] at h1

theorem memcpy_length (buf : Bytes) (p : Nat) (u : Bytes)
    (h : p + (strlen u + 1) ≤ buf.length) :
    (memcpy buf p u (strlen u + 1)).length = buf.length := by
  rw [memcpy, take_strlen_succ]
  simp only [List.length_append, List.length_take, List.length_drop, List.length_cons,
    List.length_nil, strlen] at h ⊢
  omega

theorem memcpy_take (buf : Bytes) (p : Nat) (u : Bytes) (h : p ≤ buf.length) :
    (memcpy buf p u (strlen u + 1)).take p = buf.take p := by
  rw [memcpy, List.append_assoc, List.take_append_of_le_length (by simp; omega)]
  simp

theorem memcpy_window (buf : Bytes) (p : Nat) (u : Bytes) (h : p ≤ buf.length) :
    ((memcpy buf p u (strlen u + 1)).drop p).take (strlen u + 1) = cstr u ++ [0] := by
  have hl : (buf.take p).length = p := by simp; omega
  rw [memcpy, List.append_assoc, List.drop_left' hl, take_strlen_succ]
  rw [List.take_append_of_le_length (by simp [strlen])]
  simp [strlen]

/-! ## Lemmas: heap -/

theorem Heap.Ext.refl (h : Heap) : h.Ext h := ⟨⟨[], by simp⟩, rfl⟩

theorem Heap.Ext.trans {h1 h2 h3 : Heap} (a : h1.Ext h2) (b : h2.Ext h3) : h1.Ext h3 := by
  obtain ⟨⟨e1, he1⟩, hf1⟩ := a
  obtain ⟨⟨e2, he2⟩, hf2⟩ := b
  exact ⟨⟨e1 ++ e2, by rw [he2, he1, List.append_assoc]⟩, by rw [hf2, hf1]⟩

theorem Heap.Ext.valid {h1 h2 : Heap} (e : h1.Ext h2) {v : Option Nat} (hv : h1.Valid v) :
    h2.Valid v := by
  obtain ⟨⟨e1, he1⟩, _⟩ := e
  intro a ha
  have := hv a ha
  rw [he1, List.length_append]; omega

theorem Heap.Ext.str {h1 h2 : Heap} (e : h1.Ext h2) {v : Option Nat} (hv : h1.Valid v) :
    h2.str v = h1.str v := by
  obtain ⟨⟨e1, he1⟩, _⟩ := e
  cases v with
  | none => rfl
  | some a =>
    have := hv a rfl
    simp only [Heap.str, Option.map_some', he1]
    rw [List.getD_append _ _ _ _ this]

theorem Heap.valid_none (h : Heap) : h.Valid none := by
  intro a ha; cases ha

theorem allocGuard_some {conv : Bytes → Option Bytes} {src : Option Bytes} {h h1 : Heap}
    {v : Option Nat} (e : allocGuard conv src h = some (v, h1)) :
    h.Ext h1 ∧ h1.Valid v ∧ h1.str v = src.bind conv
      ∧ (∀ a, v = some a → a = h.blocks.length ∧ h1.blocks.length = a + 1)
      ∧ (v = none → h1 = h) := by
  unfold allocGuard at e
  cases src with
  | none =>
    simp only [Option.some.injEq, Prod.mk.injEq] at e
    obtain ⟨rfl, rfl⟩ := e
    exact ⟨Heap.Ext.refl _, Heap.valid_none _, rfl, by simp, fun _ => rfl⟩
  | some s =>
    simp only [Unicode_Alloc] at e
    cases hc : conv s with
    | none => simp [hc] at e
    | some u =>
      simp only [hc, Heap.malloc, Option.some.injEq, Prod.mk.injEq] at e
      obtain ⟨rfl, rfl⟩ := e
      refine ⟨⟨⟨[u], rfl⟩, rfl⟩, ?_, ?_, ?_, by simp⟩
      · intro a ha; cases ha; simp
      · simp [Heap.str, hc]
      · intro a ha; cases ha; simp

theorem allocGuard_none {conv : Bytes → Option Bytes} {src : Option Bytes} {h : Heap}
    (e : allocGuard conv src h = none) : ∃ s, src = some s ∧ conv s = none := by
  unfold allocGuard at e
  cases src with
  | none => simp at e
  | some s =>
    simp only [Unicode_Alloc] at e
    cases hc : conv s with
    | none => exact ⟨s, rfl, hc⟩
    | some u => simp [hc] at e

/-! ## Lemmas: GetpwInternal_r -/

theorem convertStrings_true {conv : Bytes → Option Bytes} {pw : Passwd CharPtr}
    {buf : Bytes} {h0 h : Heap} {l : Locals}
    (e : convertStrings conv pw buf h0 = (true, l, h)) :
    h0.Ext h
      ∧ h.str l.pwname = convField conv buf pw.pw_name
      ∧ h.str l.passwd = convField conv buf pw.pw_passwd
      ∧ h.str l.gecos = convField conv buf pw.pw_gecos
      ∧ h.str l.dir = convField conv buf pw.pw_dir
      ∧ h.str l.shell = convField conv buf pw.pw_shell := by
  unfold convertStrings at e
  split at e
  · simp at e
  rename_i v1 h1 e1
  split at e
  · simp at e
  rename_i v2 h2 e2
  split at e
  · simp at e
  rename_i v3 h3 e3
  split at e
  · simp at e
  rename_i v4 h4 e4
  split at e
  · simp at e
  rename_i v5 h5 e5
  simp only [Prod.mk.injEq, true_and] at e
  obtain ⟨rfl, rfl⟩ := e
  obtain ⟨x1, y1, s1, -, -⟩ := allocGuard_some e1
  obtain ⟨x2, y2, s2, -, -⟩ := allocGuard_some e2
  obtain ⟨x3, y3, s3, -, -⟩ := allocGuard_some e3
  obtain ⟨x4, y4, s4, -, -⟩ := allocGuard_some e4
  obtain ⟨x5, y5, s5, -, -⟩ := allocGuard_some e5
  refine ⟨x1.trans (x2.trans (x3.trans (x4.trans x5))), ?_, ?_, ?_, ?_, ?_⟩
  · rw [(x2.trans (x3.trans (x4.trans x5))).str y1]; exact s1
  · rw [(x3.trans (x4.trans x5)).str y2]; exact s2
  · rw [(x4.trans x5).str y3]; exact s3
  · rw [x5.str y4]; exact s4
  · exact s5

theorem convertStrings_allConvert {conv : Bytes → Option Bytes} {pw : Passwd CharPtr}
    {buf : Bytes} (hc : AllConvert conv pw buf) (h0 : Heap) :
    (convertStrings conv pw buf h0).1 = true := by
  have key : ∀ (fld : Option CharPtr) (h : Heap),
      fld ∈ [pw.pw_name, pw.pw_passwd, pw.pw_gecos, pw.pw_dir, pw.pw_shell] →
      allocGuard conv (fld.map (deref buf)) h ≠ none := by
    intro fld h hm e
    obtain ⟨s, hs, hn⟩ := allocGuard_none e
    cases fld with
    | none => simp at hs
    | some q =>
      simp only [Option.map_some', Option.some.injEq] at hs
      have := hc q hm
      rw [hs, hn] at this
      simp at this
  unfold convertStrings
  split
  · rename_i e; exact absurd e (key _ _ (by simp))
  split
  · rename_i e; exact absurd e (key _ _ (by simp))
  split
  · rename_i e; exact absurd e (key _ _ (by simp))
  split
  · rename_i e; exact absurd e (key _ _ (by simp))
  split
  · rename_i e; exact absurd e (key _ _ (by simp))
  rfl

theorem packField_some {size : Nat} {s : Option Bytes} {fld f : Option CharPtr}
    {buf b : Bytes} {p p1 : Nat} (e : packField size s fld buf p = some (f, b, p1)) :
    p1 = p + fieldLen s ∧ (p ≤ size → p1 ≤ size) := by
  unfold packField at e
  cases s with
  | none =>
    simp only [Option.some.injEq, Prod.mk.injEq] at e
    obtain ⟨-, -, rfl⟩ := e
    simp [fieldLen]
  | some u =>
    simp only at e
    split at e
    · simp at e
    · rename_i hle
      simp only [Option.some.injEq, Prod.mk.injEq] at e
      obtain ⟨-, -, rfl⟩ := e
      simp only [fieldLen]
      exact ⟨trivial, fun _ => by omega⟩

theorem packField_none {size : Nat} {s : Option Bytes} {fld : Option CharPtr}
    {buf : Bytes} {p : Nat} (e : packField size s fld buf p = none) :
    size < p + fieldLen s := by
  unfold packField at e
  cases s with
  | none => simp at e
  | some u =>
    simp only at e
    split at e
    · simp only [fieldLen]; omega
    · simp at e

theorem packField_buf {size : Nat} {s : Option Bytes} {fld f : Option CharPtr}
    {buf b : Bytes} {p p1 : Nat} (e : packField size s fld buf p = some (f, b, p1))
    (hs : size ≤ buf.length) :
    b.length = buf.length ∧ b.take p = buf.take p ∧ PackedAt s p fld f b := by
  unfold packField at e
  cases s with
  | none =>
    simp only [Option.some.injEq, Prod.mk.injEq] at e
    obtain ⟨rfl, rfl, -⟩ := e
    exact ⟨rfl, rfl, rfl⟩
  | some u =>
    simp only at e
    split at e
    · simp at e
    · rename_i hle
      simp only [Option.some.injEq, Prod.mk.injEq] at e
      obtain ⟨rfl, rfl, -⟩ := e
      exact ⟨memcpy_length _ _ _ (by omega), memcpy_take _ _ _ (by omega),
        rfl, memcpy_window _ _ _ (by omega)⟩

theorem offsetOf_zero (cs : List (Option Bytes)) : offsetOf cs 0 = 0 := by
  simp [offsetOf]

theorem offsetOf_cons_succ (c : Option Bytes) (cs : List (Option Bytes)) (i : Nat) :
    offsetOf (c :: cs) (i + 1) = fieldLen c + offsetOf cs i := by
  simp [offsetOf]

theorem packList_spec (size : Nat) :
    ∀ (xs : List (Option Bytes × Option CharPtr)) (buf : Bytes) (p : Nat),
      size ≤ buf.length → p ≤ size →
      (packList size xs buf p).2.2.length = buf.length
      ∧ (packList size xs buf p).2.2.take p = buf.take p
      ∧ (packList size xs buf p).1 ≤ xs.length
      ∧ ((packList size xs buf p).1 < xs.length →
          size < p + offsetOf (xs.map Prod.fst) ((packList size xs buf p).1 + 1))
      ∧ p + offsetOf (xs.map Prod.fst) (packList size xs buf p).1 ≤ size
      ∧ ∀ i s fld, xs[i]? = some (s, fld) →
          ∃ f1, (packList size xs buf p).2.1[i]? = some f1 ∧
            (if i < (packList size xs buf p).1
              then PackedAt s (p + offsetOf (xs.map Prod.fst) i) fld f1
                    (packList size xs buf p).2.2
              else f1 = fld) := by
  intro xs
  induction xs with
  | nil =>
    intro buf p _ hp
    simp [packList, offsetOf]
    exact hp
  | cons x rest ih =>
    obtain ⟨s, fld⟩ := x
    intro buf p hs hp
    cases e : packField size s fld buf p with
    | none =>
      have hn := packField_none e
      simp only [packList, e, List.map_cons, offsetOf_zero, List.length_cons]
      refine ⟨trivial, trivial, by omega, fun _ => ?_, by omega, ?_⟩
      · rw [offsetOf_cons_succ, offsetOf_zero]; omega
      · intro i s1 fld1 hi
        refine ⟨fld1, ?_, by simp⟩
        cases i with
        | zero => simp at hi ⊢; exact hi.2
        | succ j =>
          simp only [List.getElem?_cons_succ, List.getElem?_map] at hi ⊢
          rw [hi]; rfl
    | some r =>
      obtain ⟨f, b, p1⟩ := r
      obtain ⟨hp1, hp1s⟩ := packField_some e
      obtain ⟨hbl, hbt, hpk⟩ := packField_buf e hs
      obtain ⟨i1, i2, i3, i4, i5, i6⟩ := ih b p1 (by omega) (hp1s hp)
      simp only [packList, e, List.map_cons, List.length_cons]
      refine ⟨by omega, ?_, by omega, fun hlt => ?_, ?_, ?_⟩
      · rw [take_eq_of_take_eq i2 (by omega), hbt]
      · rw [offsetOf_cons_succ]
        have := i4 (by omega)
        omega
      · rw [offsetOf_cons_succ]; omega
      · intro i s1 fld1 hi
        cases i with
        | zero =>
          simp only [List.getElem?_cons_zero, Option.some.injEq, Prod.mk.injEq] at hi
          obtain ⟨rfl, rfl⟩ := hi
          refine ⟨f, by simp, ?_⟩
          rw [if_pos (by omega), offsetOf_zero]
          cases s with
          | none => exact hpk
          | some u =>
            obtain ⟨hf, hw⟩ := hpk
            refine ⟨hf, ?_⟩
            simp only [fieldLen] at hp1
            rw [Nat.add_zero, window_eq_of_take_eq i2 (by omega)]
            exact hw
        | succ j =>
          simp only [List.getElem?_cons_succ] at hi ⊢
          obtain ⟨f1, hf1, hif⟩ := i6 j s1 fld1 hi
          refine ⟨f1, hf1, ?_⟩
          rw [offsetOf_cons_succ]
          by_cases hj : j < (packList size rest b p1).1
          · rw [if_pos hj] at hif
            rw [if_pos (by omega)]
            have : p + (fieldLen s + offsetOf (List.map Prod.fst rest) j)
                = p1 + offsetOf (List.map Prod.fst rest) j := by omega
            rw [this]; exact hif
          · rw [if_neg hj] at hif
            rw [if_neg (by omega)]; exact hif

theorem packStrings_eq_packList (size : Nat) (h : Heap) (l : Locals) (pw : Passwd CharPtr)
    (buf : Bytes) :
    (packStrings size h l pw buf).1
        = (if (packList size (packInput h l pw) buf 0).1 = 5 then 0 else ERANGE)
      ∧ strFields (packStrings size h l pw buf).2.1 = (packList size (packInput h l pw) buf 0).2.1
      ∧ (packStrings size h l pw buf).2.2 = (packList size (packInput h l pw) buf 0).2.2
      ∧ (packStrings size h l pw buf).2.1.pw_uid = pw.pw_uid
      ∧ (packStrings size h l pw buf).2.1.pw_gid = pw.pw_gid := by
  unfold packStrings packInput
  cases e1 : packField size (h.str l.pwname) pw.pw_name buf 0 with
  | none => simp [packList, e1, strFields]
  | some r1 =>
  obtain ⟨f1, b1, p1⟩ := r1
  cases e2 : packField size (h.str l.passwd) pw.pw_passwd b1 p1 with
  | none => simp [packList, e1, e2, strFields]
  | some r2 =>
  obtain ⟨f2, b2, p2⟩ := r2
  cases e3 : packField size (h.str l.gecos) pw.pw_gecos b2 p2 with
  | none => simp [packList, e1, e2, e3, strFields]
  | some r3 =>
  obtain ⟨f3, b3, p3⟩ := r3
  cases e4 : packField size (h.str l.dir) pw.pw_dir b3 p3 with
  | none => simp [packList, e1, e2, e3, e4, strFields]
  | some r4 =>
  obtain ⟨f4, b4, p4⟩ := r4
  cases e5 : packField size (h.str l.shell) pw.pw_shell b4 p4 with
  | none => simp [packList, e1, e2, e3, e4, e5, strFields]
  | some r5 =>
  obtain ⟨f5, b5, p5⟩ := r5
  simp [packList, e1, e2, e3, e4, e5, strFields]

theorem packStrings_ret (size : Nat) (h : Heap) (l : Locals) (pw : Passwd CharPtr)
    (buf : Bytes) :
    (packStrings size h l pw buf).1 =
      if fieldLen (h.str l.pwname) + fieldLen (h.str l.passwd) + fieldLen (h.str l.gecos)
          + fieldLen (h.str l.dir) + fieldLen (h.str l.shell) ≤ size then 0 else ERANGE := by
  unfold packStrings
  split
  · rename_i e; have := packField_none e
    rw [if_neg (by omega)]
  rename_i f1 b1 p1 e1
  obtain ⟨q1, r1⟩ := packField_some e1
  simp only
  split
  · rename_i e; have := packField_none e
    rw [if_neg (by omega)]
  rename_i f2 b2 p2 e2
  obtain ⟨q2, r2⟩ := packField_some e2
  split
  · rename_i e; have := packField_none e
    rw [if_neg (by omega)]
  rename_i f3 b3 p3 e3
  obtain ⟨q3, r3⟩ := packField_some e3
  split
  · rename_i e; have := packField_none e
    rw [if_neg (by omega)]
  rename_i f4 b4 p4 e4
  obtain ⟨q4, r4⟩ := packField_some e4
  split
  · rename_i e; have := packField_none e
    rw [if_neg (by omega)]
  rename_i f5 b5 p5 e5
  obtain ⟨q5, r5⟩ := packField_some e5
  rw [if_pos (by omega)]

theorem GetpwInternal_r_ret (conv : Bytes → Option Bytes) (pw : Passwd CharPtr)
    (buf : Bytes) (size : Nat) (heap : Heap) (hc : AllConvert conv pw buf) :
    (GetpwInternal_r conv (some pw) buf size heap).map Result_r.ret
      = some (if packedSize conv pw buf ≤ size then 0 else ERANGE) := by
  have h1 := convertStrings_allConvert hc heap
  rcases hcs : convertStrings conv pw buf heap with ⟨ok, l, h⟩
  rw [hcs] at h1
  simp only at h1
  subst h1
  obtain ⟨-, s1, s2, s3, s4, s5⟩ := convertStrings_true hcs
  simp only [GetpwInternal_r, hcs, Option.map_some', if_true, packStrings_ret,
    s1, s2, s3, s4, s5, packedSize]

/-! ## C1 -/

/-- C1: for an account record whose present string fields all convert and a
caller's buffer that holds at least `size` bytes, the reentrant packing step
`GetpwInternal_r` returns 0 exactly when `size` is at least the sum over the
present fields of (converted length + 1), and `ERANGE` otherwise; in
particular it returns 0 when the size equals that sum and `ERANGE` when the
size is one byte less. -/
theorem GetpwInternal_r_buffer_sizing (conv : Bytes → Option Bytes) (pw : Passwd CharPtr)
    (buf : Bytes) (size : Nat) (heap : Heap) (hc : AllConvert conv pw buf)
    (_hs : size ≤ buf.length) :
    (GetpwInternal_r conv (some pw) buf size heap).map Result_r.ret
        = some (if packedSize conv pw buf ≤ size then 0 else ERANGE)
    ∧ (size = packedSize conv pw buf →
        (GetpwInternal_r conv (some pw) buf size heap).map Result_r.ret = some 0)
    ∧ (size + 1 = packedSize conv pw buf →
        (GetpwInternal_r conv (some pw) buf size heap).map Result_r.ret = some ERANGE) := by
  refine ⟨GetpwInternal_r_ret conv pw buf size heap hc, ?_, ?_⟩
  · intro he
    rw [GetpwInternal_r_ret conv pw buf _ heap hc, if_pos (by omega)]
  · intro he
    rw [GetpwInternal_r_ret conv pw buf _ heap hc, if_neg (by omega)]

/-- Witness of C1: the example record, in a buffer of 12 bytes, needs 11
bytes: size 11 gives 0 and size 10 gives `ERANGE`. -/
theorem GetpwInternal_r_buffer_sizing_witness :
    AllConvert latin1ToUtf8 pwExample bufExample
    ∧ bufExample.length = 12
    ∧ packedSize latin1ToUtf8 pwExample bufExample = 11
    ∧ (GetpwInternal_r latin1ToUtf8 (some pwExample) bufExample 11 Heap.empty).map Result_r.ret
        = some 0
    ∧ (GetpwInternal_r latin1ToUtf8 (some pwExample) bufExample 10 Heap.empty).map Result_r.ret
        = some ERANGE :=
  ⟨fun _ _ => rfl, by decide, by decide,
   (GetpwInternal_r_buffer_sizing latin1ToUtf8 pwExample bufExample 11 Heap.empty
      (fun _ _ => rfl) (by decide)).2.1 (by decide),
   (GetpwInternal_r_buffer_sizing latin1ToUtf8 pwExample bufExample 10 Heap.empty
      (fun _ _ => rfl) (by decide)).2.2 (by decide)⟩

/-! ## C2 -/

theorem packInput_eq {conv : Bytes → Option Bytes} {pw : Passwd CharPtr}
    {buf : Bytes} {h0 h : Heap} {l : Locals}
    (e : convertStrings conv pw buf h0 = (true, l, h)) :
    packInput h l pw = (strFields pw).map (fun fld => (convField conv buf fld, fld)) := by
  obtain ⟨-, s1, s2, s3, s4, s5⟩ := convertStrings_true e
  simp [packInput, strFields, s1, s2, s3, s4, s5]

/-- C2 (counterexample): with a buffer size of 10 bytes, five native strings
in the buffer and a Latin-1 to UTF-8 codec, packing aborts with `ERANGE` after four fields; the
fifth field `pw_shell` still points at offset 8, where the terminator of the
packed `pw_dir` now stands, so it reads the empty string and not "z". -/
theorem GetpwInternal_r_abort_dangling :
    ¬ NoDanglingAfterAbort latin1ToUtf8 pwExample bufExample 10 Heap.empty := by
  intro h
  have h1 := h ⟨ERANGE,
      some { pw_name := some (.inBuf 0), pw_passwd := some (.inBuf 3), pw_uid := 0, pw_gid := 0,
             pw_gecos := some (.inBuf 5), pw_dir := some (.inBuf 7),
             pw_shell := some (.inBuf 8) },
      [195, 169, 0, 120, 0, 121, 0, 47, 0, 0, 0, 0],
      { blocks := [[195, 169], [120], [121], [47], [122]], freed := [4, 2, 0, 3, 1] }⟩
    _ (by decide) rfl rfl 4 _ _ rfl rfl 8 rfl
  revert h1
  decide

theorem ENOMEM_ne_ERANGE : ENOMEM ≠ ERANGE := by decide

/-- C2 (amended): when `GetpwInternal_r` aborts with `ERANGE` (the buffer holding
at least `size` bytes), there is a first field `k` (in the order name, passwd,
gecos, dir, shell) that did not fit; every present field before it has been
rewritten to point into the buffer at the start of a complete NUL-terminated
copy of its converted value, and field `k` and the later ones still hold the
pointers the native lookup left (what those point at is not constrained). -/
theorem GetpwInternal_r_abort_fields (conv : Bytes → Option Bytes) (pw : Passwd CharPtr)
    (buf : Bytes) (size : Nat) (heap : Heap) (hs : size ≤ buf.length)
    (he : (GetpwInternal_r conv (some pw) buf size heap).map Result_r.ret = some ERANGE) :
    ∃ r pw1, GetpwInternal_r conv (some pw) buf size heap = some r ∧ r.ppw = some pw1 ∧
      ∃ k, k < 5 ∧
        size < offsetOf ((strFields pw).map (convField conv buf)) (k + 1) ∧
        ∀ (i : Nat) (fld0 : Option CharPtr), (strFields pw)[i]? = some fld0 →
          ∃ fld1, (strFields pw1)[i]? = some fld1 ∧
            (if i < k
              then PackedAt (convField conv buf fld0)
                    (offsetOf ((strFields pw).map (convField conv buf)) i) fld0 fld1 r.buf
              else fld1 = fld0) := by
  rcases hcs : convertStrings conv pw buf heap with ⟨ok, l, h⟩
  simp only [GetpwInternal_r, hcs, Option.map_some', Option.some.injEq] at he
  cases ok with
  | false => simp only [Bool.false_eq_true, if_false] at he; exact absurd he ENOMEM_ne_ERANGE
  | true =>
    simp only [if_true] at he
    obtain ⟨q1, q2, q3, -, -⟩ := packStrings_eq_packList size h l pw buf
    have hin := packInput_eq hcs
    obtain ⟨-, -, i3, i4, -, i6⟩ := packList_spec size (packInput h l pw) buf 0 hs (Nat.zero_le _)
    have hmap : (packInput h l pw).map Prod.fst = (strFields pw).map (convField conv buf) := by
      rw [hin, List.map_map]; rfl
    have hlen : (packInput h l pw).length = 5 := rfl
    rw [hmap] at i4 i6
    rw [hlen] at i3 i4
    have hk : (packList size (packInput h l pw) buf 0).1 < 5 := by
      rcases Nat.lt_or_ge (packList size (packInput h l pw) buf 0).1 5 with h5 | h5
      · exact h5
      · have h5 : (packList size (packInput h l pw) buf 0).1 = 5 := by omega
        rw [q1, if_pos h5] at he
        exact absurd he (by decide)
    refine ⟨⟨(packStrings size h l pw buf).1, some (packStrings size h l pw buf).2.1,
        (packStrings size h l pw buf).2.2, freeLocals h l⟩, (packStrings size h l pw buf).2.1,
      by simp only [GetpwInternal_r, hcs, if_true], rfl, _, hk, ?_, ?_⟩
    · have := i4 hk; omega
    · intro i fld0 hi
      have hx : (packInput h l pw)[i]? = some (convField conv buf fld0, fld0) := by
        rw [hin, List.getElem?_map, hi]; rfl
      obtain ⟨f1, hf1, hif⟩ := i6 i _ _ hx
      refine ⟨f1, by rw [q2]; exact hf1, ?_⟩
      simp only [Nat.zero_add] at hif
      rw [q3]
      exact hif

/-- Witness of C2 (amended): the example call aborts with `ERANGE`. -/
theorem GetpwInternal_r_abort_fields_witness :
    (10 ≤ bufExample.length
      ∧ (GetpwInternal_r latin1ToUtf8 (some pwExample) bufExample 10 Heap.empty).map
          Result_r.ret = some ERANGE)
    ∧ ∃ r pw1, GetpwInternal_r latin1ToUtf8 (some pwExample) bufExample 10 Heap.empty = some r
        ∧ r.ppw = some pw1 ∧
      ∃ k, k < 5 ∧
        10 < offsetOf ((strFields pwExample).map (convField latin1ToUtf8 bufExample)) (k + 1) ∧
        ∀ (i : Nat) (fld0 : Option CharPtr), (strFields pwExample)[i]? = some fld0 →
          ∃ fld1, (strFields pw1)[i]? = some fld1 ∧
            (if i < k
              then PackedAt (convField latin1ToUtf8 bufExample fld0)
                    (offsetOf ((strFields pwExample).map (convField latin1ToUtf8 bufExample)) i)
                    fld0 fld1 r.buf
              else fld1 = fld0) :=
  ⟨⟨by decide, by decide⟩,
   GetpwInternal_r_abort_fields latin1ToUtf8 pwExample bufExample 10 Heap.empty
     (by decide) (by decide)⟩

/-! ## C3 -/

/-- C3 (failing input): when the native reentrant lookup reports not-found
(status 0, `*ppw` null), `Posix_Getpwnam_r` and `Posix_Getpwuid_r` go on to
`GetpwInternal_r`, whose first field read `pw->pw_name` goes through the null
`*ppw`: the call faults instead of returning 0. -/
theorem Posix_Getpw_r_not_found_faults (enc conv : Bytes → Option Bytes) (name : Bytes)
    (uid : Nat) (buf : Bytes) (size : Nat) (heap : Heap) :
    Posix_Getpwnam_r enc conv (fun _ b _ => lookupNotFound b) name buf size heap = none
    ∧ Posix_Getpwuid_r conv (fun _ b _ => lookupNotFound b) uid buf size heap = none := by
  constructor
  · simp [Posix_Getpwnam_r, lookupNotFound, GetpwInternal_r]
  · simp [Posix_Getpwuid_r, lookupNotFound, GetpwInternal_r]

/-! ## Lemmas: Posix_Getenv -/

theorem Heap.str_congr {h1 h2 : Heap} (e : h1.blocks = h2.blocks) (v : Option Nat) :
    h1.str v = h2.str v := by
  simp [Heap.str, e]

theorem free_blocks (h : Heap) (v : Option Nat) : (free h v).blocks = h.blocks := by
  cases v <;> rfl

theorem Unicode_GetAllocBytes_str (enc : Bytes → Option Bytes) (h : Heap) (s : Bytes) :
    (Unicode_GetAllocBytes enc h s).2.str (Unicode_GetAllocBytes enc h s).1 = enc s := by
  unfold Unicode_GetAllocBytes
  cases enc s with
  | none => rfl
  | some u => simp [Heap.str, Heap.malloc]

theorem Unicode_Alloc_str (conv : Bytes → Option Bytes) (h : Heap) (s : Bytes) :
    (Unicode_Alloc conv h s).2.str (Unicode_Alloc conv h s).1 = conv s := by
  unfold Unicode_Alloc
  cases conv s with
  | none => rfl
  | some u => simp [Heap.str, Heap.malloc]

theorem HashTable_ReplaceOrInsert_lookup (ht : HashTable) (key k : Bytes) (v : Nat) :
    (HashTable_ReplaceOrInsert ht key v).lookup k
      = if k = key then some ((ht.lookup key).getD v) else ht.lookup k := by
  unfold HashTable_ReplaceOrInsert
  cases e : ht.lookup key with
  | none =>
    by_cases hk : k = key
    · subst hk; simp [List.lookup_cons]
    · have hk2 : (k == key) = false := by simpa using hk
      simp [List.lookup_cons, hk2, hk]
  | some old =>
    by_cases hk : k = key
    · subst hk; simp [e]
    · simp [hk]

/-- The universal-text value a lookup returns is the conversion of the current
native value of the name. -/
theorem Posix_Getenv_value {E : Type} (N : NativeEnv E) (enc conv : Bytes → Option Bytes)
    (name : Bytes) (st : EnvState E) :
    getenvValue (Posix_Getenv N enc conv name st)
      = (N.getenv st.environ (enc name)).bind conv := by
  unfold getenvValue Posix_Getenv
  simp only [Unicode_GetAllocBytes_str]
  cases N.getenv st.environ (enc name) with
  | none => rfl
  | some d =>
    simp only [Option.some_bind]
    cases hv : (Unicode_Alloc conv (free (Unicode_GetAllocBytes enc st.heap name).2
        (Unicode_GetAllocBytes enc st.heap name).1) d).1 with
    | none =>
      have := Unicode_Alloc_str conv (free (Unicode_GetAllocBytes enc st.heap name).2
        (Unicode_GetAllocBytes enc st.heap name).1) d
      rw [hv] at this
      simp only [Heap.str, Option.map_none'] at this ⊢
      exact this
    | some v =>
      have := Unicode_Alloc_str conv (free (Unicode_GetAllocBytes enc st.heap name).2
        (Unicode_GetAllocBytes enc st.heap name).1) d
      rw [hv] at this
      simp only
      exact this

theorem Posix_Getenv_calls {E : Type} (N : NativeEnv E) (enc conv : Bytes → Option Bytes)
    (name : Bytes) (st : EnvState E) :
    (Posix_Getenv N enc conv name st).2.getenvCalls = st.getenvCalls + 1
      ∧ (Posix_Getenv N enc conv name st).2.environ = st.environ := by
  unfold Posix_Getenv
  simp only
  split
  · exact ⟨rfl, rfl⟩
  · split <;> exact ⟨rfl, rfl⟩

/-- Effect of a lookup on the table: a successful lookup of a name without
an entry makes the returned value its entry; every entry that exists is left
as it is, and a failed lookup leaves the table alone. -/
theorem Posix_Getenv_cache {E : Type} (N : NativeEnv E) (enc conv : Bytes → Option Bytes)
    (name : Bytes) (st : EnvState E) (k : Bytes) :
    cacheEntry (Posix_Getenv N enc conv name st).2 k
      = match (Posix_Getenv N enc conv name st).1 with
        | some v => if k = name then some ((cacheEntry st name).getD v) else cacheEntry st k
        | none => cacheEntry st k := by
  unfold Posix_Getenv
  simp only
  split
  · rfl
  · split
    · rfl
    · simp only [cacheEntry]
      rw [show ∀ t : HashTable, HashTable_AllocOnce (some t) = t from fun _ => rfl,
        HashTable_ReplaceOrInsert_lookup]

/-! ## C4 -/

/-- C4 (counterexample): with `PATH=/usr/bin:/bin`, a second
`Posix_Getenv("PATH")` after a successful first one queries the native
environment again: the count of native queries goes from 1 to 2. -/
theorem Posix_Getenv_second_lookup_requeries :
    ¬ SecondLookupCached listEnv some some namePATH (EnvState.init envExample) := by
  intro h
  have h1 := (h (by decide)).2
  revert h1
  decide

/-- C4 (amended): every `Posix_Getenv(name)` invokes the native `getenv`
exactly once (the query count goes up by one on every lookup, also on the
second and later ones), and a later lookup made in any state in which the
native value of the name is the same returns the same universal-text value. -/
theorem Posix_Getenv_same_value_one_query {E : Type} (N : NativeEnv E)
    (enc conv : Bytes → Option Bytes) (name : Bytes) (st later : EnvState E)
    (hsame : N.getenv later.environ (enc name) = N.getenv st.environ (enc name)) :
    getenvValue (Posix_Getenv N enc conv name later)
        = getenvValue (Posix_Getenv N enc conv name st)
      ∧ (Posix_Getenv N enc conv name st).2.getenvCalls = st.getenvCalls + 1
      ∧ (Posix_Getenv N enc conv name later).2.getenvCalls = later.getenvCalls + 1 := by
  refine ⟨?_, (Posix_Getenv_calls N enc conv name st).1,
    (Posix_Getenv_calls N enc conv name later).1⟩
  rw [Posix_Getenv_value, Posix_Getenv_value, hsame]

/-- Witness of C4 (amended): the second lookup of `PATH` in the example. -/
theorem Posix_Getenv_same_value_one_query_witness :
    getenvValue (Posix_Getenv listEnv some some namePATH
        (Posix_Getenv listEnv some some namePATH (EnvState.init envExample)).2)
        = getenvValue (Posix_Getenv listEnv some some namePATH (EnvState.init envExample))
      ∧ (Posix_Getenv listEnv some some namePATH (EnvState.init envExample)).2.getenvCalls
        = (EnvState.init envExample).getenvCalls + 1
      ∧ (Posix_Getenv listEnv some some namePATH
          (Posix_Getenv listEnv some some namePATH (EnvState.init envExample)).2).2.getenvCalls
        = (Posix_Getenv listEnv some some namePATH (EnvState.init envExample)).2.getenvCalls + 1 :=
  Posix_Getenv_same_value_one_query listEnv some some namePATH (EnvState.init envExample)
    (Posix_Getenv listEnv some some namePATH (EnvState.init envExample)).2 rfl

/-! ## C5 -/

/-- C5 (counterexample): after a successful lookup of `PATH=/usr/bin:/bin`, the
native environment is changed to `PATH=/opt`; the next lookup returns "/opt",
not the first value. -/
theorem Posix_Getenv_not_stale :
    ¬ StaleAfterChange listEnv some some namePATH (EnvState.init envExample) envChanged := by
  intro h
  have h1 := h (by decide)
  revert h1
  decide

/-- C5 (amended): after a lookup of a name, if the native environment is changed
directly to `env1`, the next `Posix_Getenv(name)` queries the native
environment again and returns the universal-text conversion of the value the
name has in `env1` (null when the name is unset there or the value does not
convert); the value of the first lookup plays no part. -/
theorem Posix_Getenv_reflects_change {E : Type} (N : NativeEnv E)
    (enc conv : Bytes → Option Bytes) (name : Bytes) (st : EnvState E) (env1 : E) :
    getenvValue (Posix_Getenv N enc conv name
        { (Posix_Getenv N enc conv name st).2 with environ := env1 })
      = (N.getenv env1 (enc name)).bind conv
    ∧ (Posix_Getenv N enc conv name
        { (Posix_Getenv N enc conv name st).2 with environ := env1 }).2.getenvCalls
      = st.getenvCalls + 2 :=
  ⟨Posix_Getenv_value N enc conv name _, by
    rw [(Posix_Getenv_calls N enc conv name _).1]
    simp only [(Posix_Getenv_calls N enc conv name st).1]⟩

/-- Witness of C5 (amended): in the example the second lookup returns "/opt". -/
theorem Posix_Getenv_reflects_change_witness :
    getenvValue (Posix_Getenv listEnv some some namePATH
        { (Posix_Getenv listEnv some some namePATH (EnvState.init envExample)).2 with
          environ := envChanged })
      = some [47, 111, 112, 116] :=
  (Posix_Getenv_reflects_change listEnv some some namePATH (EnvState.init envExample)
    envChanged).1

/-! ## C6 -/

theorem lookup_none_not_mem (ht : HashTable) (k : Bytes) (e : ht.lookup k = none) :
    k ∉ ht.map Prod.fst := by
  induction ht with
  | nil => simp
  | cons x rest ih =>
    obtain ⟨a, b⟩ := x
    by_cases hk : k = a
    · subst hk; simp [List.lookup_cons] at e
    · have hk2 : (k == a) = false := by simpa using hk
      simp only [List.lookup_cons, hk2] at e
      simp only [List.map_cons, List.mem_cons, not_or]
      exact ⟨hk, ih e⟩

theorem HashTable_ReplaceOrInsert_keys (ht : HashTable) (key : Bytes) (v : Nat)
    (hnd : (ht.map Prod.fst).Nodup) :
    ((HashTable_ReplaceOrInsert ht key v).map Prod.fst).Nodup := by
  unfold HashTable_ReplaceOrInsert
  cases e : ht.lookup key with
  | none =>
    simp only [List.map_cons, List.nodup_cons]
    exact ⟨lookup_none_not_mem ht key e, hnd⟩
  | some old => exact hnd

theorem grows_refl (h : Heap) : h.Grows h :=
  ⟨⟨[], by simp⟩, fun _ ha => Or.inl ha⟩

theorem grows_trans {h1 h2 h3 : Heap} (a : h1.Grows h2) (b : h2.Grows h3) :
    h1.Grows h3 := by
  obtain ⟨⟨x, hx⟩, fa⟩ := a
  obtain ⟨⟨y, hy⟩, fb⟩ := b
  refine ⟨⟨x ++ y, by rw [hy, hx, List.append_assoc]⟩, fun c hc => ?_⟩
  rcases fb c hc with h | h
  · exact fa c h
  · right
    rw [hx, List.length_append] at h
    omega

theorem grows_length_le {h1 h2 : Heap} (g : h1.Grows h2) :
    h1.blocks.length ≤ h2.blocks.length := by
  obtain ⟨⟨x, hx⟩, -⟩ := g
  rw [hx, List.length_append]
  omega

theorem grows_str {h1 h2 : Heap} (g : h1.Grows h2) {v : Nat}
    (hv : v < h1.blocks.length) : h2.str (some v) = h1.str (some v) := by
  obtain ⟨⟨x, hx⟩, -⟩ := g
  simp only [Heap.str, Option.map_some', hx, Option.some.injEq, List.getD_eq_getElem?_getD]
  rw [List.getElem?_append_left hv]

theorem Unicode_GetAllocBytes_grows (enc : Bytes → Option Bytes) (h : Heap) (s : Bytes) :
    h.Grows (free (Unicode_GetAllocBytes enc h s).2 (Unicode_GetAllocBytes enc h s).1)
      ∧ ∀ a ∈ (free (Unicode_GetAllocBytes enc h s).2 (Unicode_GetAllocBytes enc h s).1).freed,
          a ∈ h.freed ∨
            a < (free (Unicode_GetAllocBytes enc h s).2
              (Unicode_GetAllocBytes enc h s).1).blocks.length := by
  unfold Unicode_GetAllocBytes
  cases enc s with
  | none => exact ⟨grows_refl h, fun a ha => Or.inl ha⟩
  | some u =>
    simp only [Heap.malloc, free]
    refine ⟨⟨⟨[u], rfl⟩, fun a ha => ?_⟩, fun a ha => ?_⟩
    · simp only [List.mem_cons] at ha
      rcases ha with rfl | ha
      · exact Or.inr (Nat.le_refl _)
      · exact Or.inl ha
    · simp only [List.mem_cons] at ha
      rcases ha with rfl | ha
      · right; simp
      · exact Or.inl ha

theorem Unicode_Alloc_grows (conv : Bytes → Option Bytes) (h : Heap) (s : Bytes) :
    h.Grows (Unicode_Alloc conv h s).2
      ∧ (Unicode_Alloc conv h s).2.freed = h.freed
      ∧ ∀ v, (Unicode_Alloc conv h s).1 = some v →
          v = h.blocks.length ∧ v < (Unicode_Alloc conv h s).2.blocks.length := by
  unfold Unicode_Alloc
  cases conv s with
  | none => exact ⟨grows_refl h, rfl, fun v hv => by cases hv⟩
  | some u =>
    simp only [Heap.malloc]
    refine ⟨⟨⟨[u], rfl⟩, fun a ha => Or.inl ha⟩, trivial, fun v hv => ?_⟩
    simp only [Option.some.injEq] at hv
    subst hv
    simp

/-- The invariant "released addresses are allocated ones" survives growth
when the new releases are of allocated addresses. -/
theorem freed_bound_of_grows {h1 h2 : Heap} (g : h1.Grows h2)
    (hb : ∀ a ∈ h1.freed, a < h1.blocks.length)
    (hn : ∀ a ∈ h2.freed, a ∈ h1.freed ∨ a < h2.blocks.length) :
    ∀ a ∈ h2.freed, a < h2.blocks.length := by
  intro a ha
  rcases hn a ha with h | h
  · exact Nat.lt_of_lt_of_le (hb a h) (grows_length_le g)
  · exact h

/-- A block allocated before and not released stays unreleased under growth. -/
theorem not_freed_of_grows {h1 h2 : Heap} (g : h1.Grows h2) {v : Nat}
    (hv : v < h1.blocks.length) (hf : v ∉ h1.freed) : v ∉ h2.freed := by
  intro hin
  rcases g.2 v hin with h | h
  · exact hf h
  · omega

/-- Heap effect of `Posix_Getenv`: the heap grows, only allocated addresses
are released, and a returned value is a block allocated by this call that has
not been released. -/
theorem Posix_Getenv_heap {E : Type} (N : NativeEnv E) (enc conv : Bytes → Option Bytes)
    (name : Bytes) (st : EnvState E) :
    st.heap.Grows (Posix_Getenv N enc conv name st).2.heap
      ∧ (∀ a ∈ (Posix_Getenv N enc conv name st).2.heap.freed,
          a ∈ st.heap.freed ∨ a < (Posix_Getenv N enc conv name st).2.heap.blocks.length)
      ∧ ∀ v, (Posix_Getenv N enc conv name st).1 = some v →
          st.heap.blocks.length ≤ v
          ∧ v < (Posix_Getenv N enc conv name st).2.heap.blocks.length
          ∧ ((∀ a ∈ st.heap.freed, a < st.heap.blocks.length) →
              v ∉ (Posix_Getenv N enc conv name st).2.heap.freed) := by
  obtain ⟨g1, f1⟩ := Unicode_GetAllocBytes_grows enc st.heap name
  unfold Posix_Getenv
  simp only
  generalize free (Unicode_GetAllocBytes enc st.heap name).2
    (Unicode_GetAllocBytes enc st.heap name).1 = h1 at g1 f1 ⊢
  cases N.getenv st.environ ((Unicode_GetAllocBytes enc st.heap name).2.str
      (Unicode_GetAllocBytes enc st.heap name).1) with
  | none => exact ⟨g1, f1, fun v hv => by cases hv⟩
  | some d =>
    obtain ⟨g2, f2, a2⟩ := Unicode_Alloc_grows conv h1 d
    simp only
    cases hv : (Unicode_Alloc conv h1 d).1 with
    | none =>
      simp only
      refine ⟨grows_trans g1 g2, fun a ha => ?_, fun v hv => by cases hv⟩
      rw [f2] at ha
      rcases f1 a ha with h | h
      · exact Or.inl h
      · exact Or.inr (Nat.lt_of_lt_of_le h (grows_length_le g2))
    | some v =>
      simp only
      obtain ⟨e1, e2⟩ := a2 v hv
      refine ⟨grows_trans g1 g2, fun a ha => ?_, fun w hw => ?_⟩
      · rw [f2] at ha
        rcases f1 a ha with h | h
        · exact Or.inl h
        · exact Or.inr (Nat.lt_of_lt_of_le h (grows_length_le g2))
      · simp only [Option.some.injEq] at hw
        subst hw
        refine ⟨by rw [e1]; exact grows_length_le g1, e2, fun hb hin => ?_⟩
        rw [f2] at hin
        rcases f1 v hin with h | h
        · have := hb v h
          have := grows_length_le g1
          omega
        · omega

/-- Heap effect of `Posix_Setenv`. -/
theorem Posix_Setenv_heap {E : Type} (N : NativeEnv E) (enc : Bytes → Option Bytes)
    (name value : Bytes) (ow : Int) (st : EnvState E) :
    st.heap.Grows (Posix_Setenv N enc name value ow st).2.heap
      ∧ (∀ a ∈ (Posix_Setenv N enc name value ow st).2.heap.freed,
          a ∈ st.heap.freed ∨ a < (Posix_Setenv N enc name value ow st).2.heap.blocks.length) := by
  unfold Posix_Setenv Unicode_GetAllocBytes
  cases enc value <;> cases enc name <;>
    simp only [Heap.malloc, free, Heap.Grows, List.mem_cons, List.length_append,
      List.length_cons, List.length_nil, List.append_assoc]
  · exact ⟨⟨⟨[], by simp⟩, fun a ha => Or.inl ha⟩, fun a ha => Or.inl ha⟩
  · refine ⟨⟨⟨_, rfl⟩, fun a ha => ?_⟩, fun a ha => ?_⟩
    · rcases ha with rfl | ha
      · exact Or.inr (Nat.le_refl _)
      · exact Or.inl ha
    · rcases ha with rfl | ha
      · right; omega
      · exact Or.inl ha
  · refine ⟨⟨⟨_, rfl⟩, fun a ha => ?_⟩, fun a ha => ?_⟩
    · rcases ha with rfl | ha
      · exact Or.inr (Nat.le_refl _)
      · exact Or.inl ha
    · rcases ha with rfl | ha
      · right; omega
      · exact Or.inl ha
  · refine ⟨⟨⟨_, rfl⟩, fun a ha => ?_⟩, fun a ha => ?_⟩
    · rcases ha with rfl | rfl | ha
      · right; omega
      · exact Or.inr (Nat.le_refl _)
      · exact Or.inl ha
    · rcases ha with rfl | rfl | ha
      · right; omega
      · right; omega
      · exact Or.inl ha

theorem Posix_Getenv_keys {E : Type} (N : NativeEnv E) (enc conv : Bytes → Option Bytes)
    (name : Bytes) (st : EnvState E)
    (hnd : ((HashTable_AllocOnce st.posixEnvPtr).map Prod.fst).Nodup) :
    ((HashTable_AllocOnce (Posix_Getenv N enc conv name st).2.posixEnvPtr).map
      Prod.fst).Nodup := by
  unfold Posix_Getenv
  simp only
  split
  · exact hnd
  · split
    · exact hnd
    · exact HashTable_ReplaceOrInsert_keys _ _ _ hnd

/-- A lookup leaves every existing entry as it is. -/
theorem Posix_Getenv_entry {E : Type} (N : NativeEnv E) (enc conv : Bytes → Option Bytes)
    (name : Bytes) (st : EnvState E) (k : Bytes) (v : Nat) (hk : cacheEntry st k = some v) :
    cacheEntry (Posix_Getenv N enc conv name st).2 k = some v := by
  rw [Posix_Getenv_cache]
  split
  · by_cases hkn : k = name
    · subst hkn
      rw [if_pos rfl, hk]; rfl
    · rw [if_neg hkn, hk]
  · exact hk

theorem TableOwned_init {E : Type} (env : E) : TableOwned (EnvState.init env) := by
  refine ⟨?_, ?_, ?_⟩
  · simp [EnvState.init, HashTable_AllocOnce]
  · intro k v h
    simp [cacheEntry, EnvState.init, HashTable_AllocOnce] at h
  · intro a ha
    simp [EnvState.init, Heap.empty] at ha

theorem Posix_Getenv_owned {E : Type} (N : NativeEnv E) (enc conv : Bytes → Option Bytes)
    (name : Bytes) (st : EnvState E) (o : TableOwned st) :
    TableOwned (Posix_Getenv N enc conv name st).2 := by
  obtain ⟨o1, o2, o3⟩ := o
  obtain ⟨g, f, a⟩ := Posix_Getenv_heap N enc conv name st
  refine ⟨Posix_Getenv_keys N enc conv name st o1, fun k v hkv => ?_,
    freed_bound_of_grows g o3 f⟩
  have old : ∀ k v, cacheEntry st k = some v →
      v < (Posix_Getenv N enc conv name st).2.heap.blocks.length
        ∧ v ∉ (Posix_Getenv N enc conv name st).2.heap.freed := fun k v h =>
    ⟨Nat.lt_of_lt_of_le (o2 k v h).1 (grows_length_le g),
     not_freed_of_grows g (o2 k v h).1 (o2 k v h).2⟩
  rw [Posix_Getenv_cache] at hkv
  cases hr : (Posix_Getenv N enc conv name st).1 with
  | none =>
    rw [hr] at hkv
    exact old k v hkv
  | some w =>
    rw [hr] at hkv
    simp only at hkv
    by_cases hkn : k = name
    · rw [if_pos hkn] at hkv
      cases hc : cacheEntry st name with
      | none =>
        rw [hc] at hkv
        simp only [Option.getD_none, Option.some.injEq] at hkv
        subst hkv
        obtain ⟨-, b2, b3⟩ := a w hr
        exact ⟨b2, b3 o3⟩
      | some v0 =>
        rw [hc] at hkv
        simp only [Option.getD_some, Option.some.injEq] at hkv
        subst hkv
        exact old name _ hc
    · rw [if_neg hkn] at hkv
      exact old k v hkv

theorem Posix_Setenv_owned {E : Type} (N : NativeEnv E) (enc : Bytes → Option Bytes)
    (name value : Bytes) (ow : Int) (st : EnvState E) (o : TableOwned st) :
    TableOwned (Posix_Setenv N enc name value ow st).2 := by
  obtain ⟨o1, o2, o3⟩ := o
  obtain ⟨g, f⟩ := Posix_Setenv_heap N enc name value ow st
  refine ⟨o1, fun k v hkv => ?_, freed_bound_of_grows g o3 f⟩
  have hkv0 : cacheEntry st k = some v := hkv
  exact ⟨Nat.lt_of_lt_of_le (o2 k v hkv0).1 (grows_length_le g),
    not_freed_of_grows g (o2 k v hkv0).1 (o2 k v hkv0).2⟩

theorem EnvOp.run_owned {E : Type} (N : NativeEnv E) (enc conv : Bytes → Option Bytes)
    (op : EnvOp) (st : EnvState E) (o : TableOwned st) :
    TableOwned (op.run N enc conv st) ∧ st.heap.Grows (op.run N enc conv st).heap
      ∧ ∀ k v, cacheEntry st k = some v → cacheEntry (op.run N enc conv st) k = some v := by
  cases op with
  | getenv name =>
    exact ⟨Posix_Getenv_owned N enc conv name st o, (Posix_Getenv_heap N enc conv name st).1,
      fun k v h => Posix_Getenv_entry N enc conv name st k v h⟩
  | setenv name value ow =>
    exact ⟨Posix_Setenv_owned N enc name value ow st o,
      (Posix_Setenv_heap N enc name value ow st).1, fun k v h => h⟩

theorem runEnvOps_owned {E : Type} (N : NativeEnv E) (enc conv : Bytes → Option Bytes)
    (ops : List EnvOp) :
    ∀ st : EnvState E, TableOwned st →
      TableOwned (runEnvOps N enc conv ops st)
        ∧ st.heap.Grows (runEnvOps N enc conv ops st).heap
        ∧ ∀ k v, cacheEntry st k = some v →
            cacheEntry (runEnvOps N enc conv ops st) k = some v := by
  induction ops with
  | nil => intro st o; exact ⟨o, grows_refl _, fun _ _ h => h⟩
  | cons op rest ih =>
    intro st o
    obtain ⟨o1, g1, e1⟩ := EnvOp.run_owned N enc conv op st o
    obtain ⟨o2, g2, e2⟩ := ih _ o1
    exact ⟨o2, grows_trans g1 g2, fun k v h => e2 k v (e1 k v h)⟩

/-- C6: in every state reached from a fresh process by calls of `Posix_Getenv`
and `Posix_Setenv`, an entry of the environment table stays what it is through
all later calls: after any further calls `ops` the table still maps the name
to the same value, that value has never been released and its content is
unchanged, and the table holds at most one entry per distinct name.
`Posix_Setenv` does not touch the table, and a `Posix_Getenv` puts a value in
the table only for a name that has no entry (then the entry is the value it
returns). -/
theorem env_table_write_once {E : Type} (N : NativeEnv E) (enc conv : Bytes → Option Bytes)
    (env : E) (ops0 ops : List EnvOp) (name : Bytes) (v : Nat)
    (hentry : cacheEntry (runEnvOps N enc conv ops0 (EnvState.init env)) name = some v) :
    cacheEntry (runEnvOps N enc conv ops (runEnvOps N enc conv ops0 (EnvState.init env))) name
        = some v
    ∧ (runEnvOps N enc conv ops
        (runEnvOps N enc conv ops0 (EnvState.init env))).heap.freeCount v = 0
    ∧ (runEnvOps N enc conv ops (runEnvOps N enc conv ops0 (EnvState.init env))).heap.str (some v)
        = (runEnvOps N enc conv ops0 (EnvState.init env)).heap.str (some v)
    ∧ ((HashTable_AllocOnce (runEnvOps N enc conv ops
        (runEnvOps N enc conv ops0 (EnvState.init env))).posixEnvPtr).map Prod.fst).Nodup
    ∧ (∀ n value ow,
        (Posix_Setenv N enc n value ow (runEnvOps N enc conv ops
          (runEnvOps N enc conv ops0 (EnvState.init env)))).2.posixEnvPtr
        = (runEnvOps N enc conv ops
          (runEnvOps N enc conv ops0 (EnvState.init env))).posixEnvPtr)
    ∧ (∀ k w,
        (Posix_Getenv N enc conv k (runEnvOps N enc conv ops
          (runEnvOps N enc conv ops0 (EnvState.init env)))).1 = some w →
        cacheEntry (Posix_Getenv N enc conv k (runEnvOps N enc conv ops
          (runEnvOps N enc conv ops0 (EnvState.init env)))).2 k
        = some ((cacheEntry (runEnvOps N enc conv ops
            (runEnvOps N enc conv ops0 (EnvState.init env))) k).getD w)) := by
  obtain ⟨o0, -, -⟩ := runEnvOps_owned N enc conv ops0 _ (TableOwned_init env)
  generalize runEnvOps N enc conv ops0 (EnvState.init env) = st at hentry o0 ⊢
  obtain ⟨o1, g1, e1⟩ := runEnvOps_owned N enc conv ops st o0
  have hv := e1 name v hentry
  refine ⟨hv, ?_, grows_str g1 (o0.2.1 name v hentry).1, o1.1, fun _ _ _ => rfl,
    fun k w hw => ?_⟩
  · unfold Heap.freeCount
    exact List.count_eq_zero.2 (o1.2.1 name v hv).2
  · rw [Posix_Getenv_cache, hw]
    simp

/-- Witness of C6: in the example the first lookup of `PATH` puts the value at
heap address 1 in the table; after a second lookup, a `Posix_Setenv` of `PATH`
and a third lookup the entry is still address 1 and has not been released. -/
theorem env_table_write_once_witness :
    cacheEntry (runEnvOps listEnv some some [EnvOp.getenv namePATH]
        (EnvState.init envExample)) namePATH = some 1
    ∧ cacheEntry (runEnvOps listEnv some some
        [EnvOp.getenv namePATH, EnvOp.setenv namePATH [47, 111, 112, 116] 1,
          EnvOp.getenv namePATH]
        (runEnvOps listEnv some some [EnvOp.getenv namePATH] (EnvState.init envExample)))
        namePATH = some 1
    ∧ (runEnvOps listEnv some some
        [EnvOp.getenv namePATH, EnvOp.setenv namePATH [47, 111, 112, 116] 1,
          EnvOp.getenv namePATH]
        (runEnvOps listEnv some some [EnvOp.getenv namePATH]
          (EnvState.init envExample))).heap.freeCount 1 = 0 :=
  have key := env_table_write_once listEnv some some envExample [EnvOp.getenv namePATH]
    [EnvOp.getenv namePATH, EnvOp.setenv namePATH [47, 111, 112, 116] 1, EnvOp.getenv namePATH]
    namePATH 1 (by decide)
  ⟨by decide, key.1, key.2.1⟩

/-! ## C7 -/

theorem Unicode_GetAllocBytes_ext (enc : Bytes → Option Bytes) (h : Heap) (s : Bytes) :
    h.Ext (Unicode_GetAllocBytes enc h s).2
      ∧ (Unicode_GetAllocBytes enc h s).2.Valid (Unicode_GetAllocBytes enc h s).1 := by
  unfold Unicode_GetAllocBytes
  cases enc s with
  | none => exact ⟨Heap.Ext.refl _, Heap.valid_none _⟩
  | some u =>
    refine ⟨⟨⟨[u], rfl⟩, rfl⟩, ?_⟩
    intro a ha
    simp only [Heap.malloc, Option.some.injEq] at ha
    subst ha
    simp [Heap.malloc]

theorem countArgs_spec (rest : List Bytes) (tail : List (Option Bytes)) (count : Nat) :
    countArgs (rest.map some ++ none :: tail) count = count + rest.length := by
  induction rest generalizing count with
  | nil => simp [countArgs]
  | cons a r ih =>
    simp only [List.map_cons, List.cons_append, countArgs, List.append_eq, ih,
      List.length_cons]
    omega

theorem take_succ_set {α : Type} (l : List α) (i : Nat) (a : α) (hi : i < l.length) :
    (l.set i a).take (i + 1) = l.take i ++ [a] := by
  rw [List.set_eq_take_append_cons_drop, if_pos hi]
  have hl : (l.take i).length = i := by simp; omega
  rw [List.take_append_eq_append_take, hl]
  simp

theorem fillArgv_spec (enc : Bytes → Option Bytes) :
    ∀ (rest : List Bytes) (tail : List (Option Bytes)) (i : Nat) (argv : List (Option Nat))
      (h : Heap), i + rest.length ≤ argv.length → (∀ q ∈ argv.take i, h.Valid q) →
      h.Ext (fillArgv enc rest.length i (rest.map some ++ tail) argv h).2
      ∧ (fillArgv enc rest.length i (rest.map some ++ tail) argv h).1.length = argv.length
      ∧ ((fillArgv enc rest.length i (rest.map some ++ tail) argv h).1.take
            (i + rest.length)).map
          (fillArgv enc rest.length i (rest.map some ++ tail) argv h).2.str
          = (argv.take i).map h.str ++ rest.map enc := by
  intro rest
  induction rest with
  | nil =>
    intro tail i argv h _ _
    simp [fillArgv, Heap.Ext.refl]
  | cons a r ih =>
    intro tail i argv h hlen hval
    simp only [List.length_cons] at hlen
    simp only [List.length_cons, List.map_cons, List.cons_append, fillArgv, List.head?_cons,
      Option.join, Option.some_bind, id, List.tail_cons, Unicode_GetAllocBytesOpt]
    obtain ⟨hx, hv⟩ := Unicode_GetAllocBytes_ext enc h a
    have hs := Unicode_GetAllocBytes_str enc h a
    have htake := take_succ_set argv i (Unicode_GetAllocBytes enc h a).1 (by omega)
    obtain ⟨i1, i2, i3⟩ := ih tail (i + 1) (argv.set i (Unicode_GetAllocBytes enc h a).1)
      (Unicode_GetAllocBytes enc h a).2 (by rw [List.length_set]; omega)
      (by
        intro q hq
        rw [htake, List.mem_append] at hq
        rcases hq with hq | hq
        · exact hx.valid (hval q hq)
        · simp only [List.mem_singleton] at hq
          subst hq; exact hv)
    refine ⟨hx.trans i1, by rw [i2, List.length_set], ?_⟩
    have e1 : i + (r.length + 1) = i + 1 + r.length := by omega
    rw [e1, i3, htake, List.map_append, List.map_cons, List.map_nil, hs, List.append_assoc]
    congr 1
    apply List.map_congr_left
    intro q hq
    exact hx.str (hval q hq)

theorem set_last_map {α β : Type} (l : List α) (n : Nat) (a : α) (f : α → β)
    (hl : l.length = n + 1) : (l.set n a).map f = (l.take n).map f ++ [f a] := by
  rw [List.set_eq_take_append_cons_drop, if_pos (by omega)]
  have : l.drop (n + 1) = [] := by
    apply List.drop_eq_nil_of_le; omega
  rw [this, List.map_append]
  rfl

theorem malloc_ext (h : Heap) (s : Bytes) : h.Ext (h.malloc s).2 :=
  ⟨⟨[s], rfl⟩, rfl⟩

/-- The vector and path `Posix_Execl` hands to `execv`. -/
theorem execlOf_log (enc : Bytes → Option Bytes) (os : OS) (pathName : Bytes)
    (args : List Bytes) (st : Proc) :
    (execlOf enc os true pathName args st).2.log
        = Syscall.sysExecv (enc pathName) (some (args.map enc ++ [none])) :: st.log
      ∧ (execlOf enc os true pathName args st).1
        = (os st.log (Syscall.sysExecv (enc pathName) (some (args.map enc ++ [none])))).ret := by
  obtain ⟨px, pv⟩ := Unicode_GetAllocBytes_ext enc st.heap pathName
  have ps := Unicode_GetAllocBytes_str enc st.heap pathName
  cases args with
  | nil =>
    have hp : ((Unicode_GetAllocBytes enc st.heap pathName).2.malloc []).2.str
        (Unicode_GetAllocBytes enc st.heap pathName).1 = enc pathName := by
      rw [(malloc_ext _ _).str pv]; exact ps
    simp only [execlOf, Posix_Execl, invoke, if_true, gt_iff_lt, Nat.lt_irrefl, if_false,
      List.replicate_succ, List.replicate_zero, List.set_cons_zero, List.map_cons,
      List.map_nil, hp, List.nil_append]
    exact ⟨rfl, rfl⟩
  | cons a0 rest =>
    have hc : countArgs (rest.map some ++ [none]) 1 = rest.length + 1 := by
      rw [countArgs_spec]; omega
    obtain ⟨ax, av⟩ := Unicode_GetAllocBytes_ext enc
      ((Unicode_GetAllocBytes enc st.heap pathName).2.malloc []).2 a0
    have as := Unicode_GetAllocBytes_str enc
      ((Unicode_GetAllocBytes enc st.heap pathName).2.malloc []).2 a0
    obtain ⟨f1, f2, f3⟩ := fillArgv_spec enc rest [none] 1
      ((List.replicate (rest.length + 1 + 1) (none : Option Nat)).set 0
        (Unicode_GetAllocBytes enc
          ((Unicode_GetAllocBytes enc st.heap pathName).2.malloc []).2 a0).1)
      (Unicode_GetAllocBytes enc
          ((Unicode_GetAllocBytes enc st.heap pathName).2.malloc []).2 a0).2
      (by rw [List.length_set, List.length_replicate]; omega)
      (by
        intro q hq
        simp [List.replicate_succ] at hq
        subst hq; exact av)
    have hp := ((malloc_ext _ _).trans (ax.trans f1)).str pv
    rw [ps] at hp
    simp only [List.replicate_succ, List.set_cons_zero, List.take_succ_cons, List.take_zero,
      List.map_cons, List.map_nil, as, List.singleton_append] at f3
    simp only [List.replicate_succ, List.set_cons_zero, List.length_set, List.length_cons,
      List.length_replicate] at f2
    simp only [execlOf, Posix_Execl, hc, Unicode_GetAllocBytesOpt, invoke, if_true,
      Nat.add_sub_cancel, gt_iff_lt, Nat.zero_lt_succ, List.replicate_succ, List.set_cons_zero]
    simp only [List.replicate_succ, List.set_cons_zero] at hp
    rw [hp, set_last_map _ _ _ _ (by rw [f2]), Nat.add_comm rest.length 1, f3]
    simp [Heap.str]

/-- C8: for every list of `n ≥ 0` universal-text arguments passed to
`Posix_Execl` with a closing null (no argument at all meaning `arg0` is null),
when the allocation of the vector succeeds the vector handed to the native
`execv` has exactly `n + 1` entries, entry `i < n` is the native conversion of
the `i`-th argument, and entry `n` is null. -/
theorem Posix_Execl_vector (enc : Bytes → Option Bytes) (os : OS) (pathName : Bytes)
    (args : List Bytes) (st : Proc) :
    ∃ vec : List (Option Bytes),
      (execlOf enc os true pathName args st).2.log
          = Syscall.sysExecv (enc pathName) (some vec) :: st.log
        ∧ vec.length = args.length + 1
        ∧ (∀ (i : Nat) (hi : i < args.length), vec[i]? = some (enc (args.get ⟨i, hi⟩)))
        ∧ vec[args.length]? = some none := by
  refine ⟨args.map enc ++ [none], (execlOf_log enc os pathName args st).1, by simp, ?_, ?_⟩
  · intro i hi
    rw [List.getElem?_append_left (by simpa using hi)]
    simp [List.getElem?_map, List.getElem?_eq_getElem hi]
  · rw [List.getElem?_append_right (by simp)]
    simp

/-! ## Lemmas: allocation tracking in the non-reentrant adapters -/

theorem ptrsOf_append (a b : List (Option Nat)) : ptrsOf (a ++ b) = ptrsOf a ++ ptrsOf b := by
  simp [ptrsOf, List.filterMap_append]

theorem ptrsOf_nones {α : Type} (l : List α) :
    ptrsOf (l.map (fun _ => (none : Option Nat))) = [] := by
  induction l with
  | nil => rfl
  | cons x r _ => simp [ptrsOf]

theorem Owned_free {h : Heap} {f : Option Nat} {fs : List (Option Nat)}
    (o : Owned h (ptrsOf (f :: fs))) : Owned (free h f) (ptrsOf fs) := by
  cases f with
  | none => exact o
  | some a =>
    have e : ptrsOf (some a :: fs) = a :: ptrsOf fs := by simp [ptrsOf]
    rw [e] at o
    obtain ⟨o1, o2, o3, o4⟩ := o
    rw [List.nodup_cons] at o1
    have ha := (o4 a).1 (List.mem_cons_self _ _)
    refine ⟨o1.2, ?_, ?_, ?_⟩
    · simp only [free, List.nodup_cons]; exact ⟨ha.2, o2⟩
    · intro b hb
      simp only [free, List.mem_cons] at hb ⊢
      rcases hb with rfl | hb
      · exact ha.1
      · exact o3 b hb
    · intro b
      simp only [free, List.mem_cons, not_or]
      constructor
      · intro hb
        have := (o4 b).1 (List.mem_cons_of_mem _ hb)
        refine ⟨this.1, ?_, this.2⟩
        rintro rfl
        exact o1.1 hb
      · rintro ⟨h1, h2, h3⟩
        rcases List.mem_cons.1 ((o4 b).2 ⟨h1, h3⟩) with hba | hb
        · exact absurd hba h2
        · exact hb

theorem Owned_frees : ∀ (fs : List (Option Nat)) (h : Heap), Owned h (ptrsOf fs) →
    Owned (fs.foldl free h) [] := by
  intro fs
  induction fs with
  | nil => intro h o; exact o
  | cons f r ih => intro h o; exact ih _ (Owned_free o)

theorem Owned_alloc {conv : Bytes → Option Bytes} {src : Option Bytes} {h h1 : Heap}
    {v : Option Nat} {ptrs : List Nat} (o : Owned h ptrs)
    (e : allocGuard conv src h = some (v, h1)) : Owned h1 (ptrs ++ ptrsOf [v]) := by
  obtain ⟨hx, -, -, hnew, hnone⟩ := allocGuard_some e
  cases v with
  | none =>
    rw [hnone rfl]
    simpa [ptrsOf] using o
  | some a =>
    obtain ⟨ha, hl⟩ := hnew a rfl
    obtain ⟨o1, o2, o3, o4⟩ := o
    have hfr := hx.2
    have e1 : ptrsOf [some a] = [a] := by simp [ptrsOf]
    rw [e1]
    refine ⟨?_, ?_, ?_, ?_⟩
    · rw [List.nodup_append]
      refine ⟨o1, List.nodup_singleton a, ?_⟩
      intro b hb hb2
      simp only [List.mem_singleton] at hb2
      have := ((o4 b).1 hb).1
      omega
    · rw [hfr]; exact o2
    · intro b hb
      rw [hfr] at hb
      have := o3 b hb
      omega
    · intro b
      rw [hfr, hl, List.mem_append, List.mem_singleton]
      constructor
      · rintro (hb | rfl)
        · have := (o4 b).1 hb
          exact ⟨by omega, this.2⟩
        · refine ⟨by omega, fun hin => ?_⟩
          have := o3 b hin
          omega
      · rintro ⟨hb1, hb2⟩
        by_cases hb : b = a
        · exact Or.inr hb
        · exact Or.inl ((o4 b).2 ⟨by omega, hb2⟩)

theorem allocList_owned (conv : Bytes → Option Bytes) :
    ∀ (srcs : List (Option Bytes)) (h : Heap) (fs : List (Option Nat)),
      Owned h (ptrsOf fs) →
      Owned (allocList conv srcs h).2.2 (ptrsOf (fs ++ (allocList conv srcs h).2.1)) := by
  intro srcs
  induction srcs with
  | nil => intro h fs o; simpa [allocList] using o
  | cons src rest ih =>
    intro h fs o
    cases e : allocGuard conv src h with
    | none =>
      simp only [allocList, e]
      rw [ptrsOf_append]
      have : ptrsOf (none :: rest.map (fun _ => (none : Option Nat))) = [] := by
        simp [ptrsOf]
      rw [this, List.append_nil]; exact o
    | some r =>
      obtain ⟨v, h1⟩ := r
      simp only [allocList, e]
      have o1 := Owned_alloc o e
      rw [← ptrsOf_append] at o1
      have := ih h1 (fs ++ [v]) o1
      rwa [List.append_assoc, List.singleton_append] at this

theorem guardFails_iff (conv : Bytes → Option Bytes) (src : Option Bytes) (h : Heap) :
    allocGuard conv src h = none ↔ guardFails conv src := by
  constructor
  · exact allocGuard_none
  · rintro ⟨s, rfl, hs⟩
    simp [allocGuard, Unicode_Alloc, hs]

theorem allocList_spec (conv : Bytes → Option Bytes) :
    ∀ (srcs : List (Option Bytes)) (h : Heap),
      h.Ext (allocList conv srcs h).2.2
      ∧ (allocList conv srcs h).1 ≤ srcs.length
      ∧ (allocList conv srcs h).2.1.length = srcs.length
      ∧ ((allocList conv srcs h).1 < srcs.length →
          ∃ src, srcs[(allocList conv srcs h).1]? = some src ∧ guardFails conv src)
      ∧ (∀ (i : Nat) (src : Option Bytes), i < (allocList conv srcs h).1 →
          srcs[i]? = some src →
          ¬ guardFails conv src ∧
          ∃ v, (allocList conv srcs h).2.1[i]? = some v
            ∧ (allocList conv srcs h).2.2.str v = src.bind conv
            ∧ (allocList conv srcs h).2.2.Valid v)
      ∧ (∀ i, (allocList conv srcs h).1 ≤ i → i < srcs.length →
          (allocList conv srcs h).2.1[i]? = some none)
      ∧ (∀ a ∈ ptrsOf (allocList conv srcs h).2.1, h.blocks.length ≤ a) := by
  intro srcs
  induction srcs with
  | nil =>
    intro h
    simp [allocList, Heap.Ext.refl, ptrsOf]
  | cons src rest ih =>
    intro h
    cases e : allocGuard conv src h with
    | none =>
      simp only [allocList, e, List.length_cons, List.length_map]
      refine ⟨Heap.Ext.refl _, by omega, trivial, fun _ => ?_, ?_, ?_, ?_⟩
      · exact ⟨src, by simp, (guardFails_iff conv src h).1 e⟩
      · intro i s hi; omega
      · intro i _ hi
        cases i with
        | zero => simp
        | succ j =>
          simp only [List.getElem?_cons_succ, List.getElem?_map]
          have hj : j < rest.length := by omega
          rw [List.getElem?_eq_getElem hj]; rfl
      · intro a ha
        have h0 : ptrsOf (none :: rest.map (fun _ => (none : Option Nat))) = [] := by
          simp [ptrsOf]
        rw [h0] at ha; cases ha
    | some r =>
      obtain ⟨v, h1⟩ := r
      obtain ⟨hx, hv, hs, hnew, -⟩ := allocGuard_some e
      obtain ⟨i1, i2, i3, i4, i5, i6, i7⟩ := ih h1
      have hne : ¬ guardFails conv src := by
        intro hg
        rw [(guardFails_iff conv src h).2 hg] at e
        cases e
      simp only [allocList, e, List.length_cons]
      refine ⟨hx.trans i1, by omega, by omega, fun hlt => ?_, ?_, ?_, ?_⟩
      · simp only [List.getElem?_cons_succ]
        exact i4 (by omega)
      · intro i s hi hsrc
        cases i with
        | zero =>
          simp only [List.getElem?_cons_zero, Option.some.injEq] at hsrc
          subst hsrc
          exact ⟨hne, v, by simp, by rw [i1.str hv]; exact hs, i1.valid hv⟩
        | succ j =>
          simp only [List.getElem?_cons_succ] at hsrc ⊢
          exact i5 j s (by omega) hsrc
      · intro i hi1 hi2
        cases i with
        | zero => omega
        | succ j =>
          simp only [List.getElem?_cons_succ]
          exact i6 j (by omega) (by omega)
      · intro a ha
        have hle : h.blocks.length ≤ h1.blocks.length := by
          obtain ⟨⟨ex, hex⟩, -⟩ := hx
          rw [hex, List.length_append]; omega
        have e2 : ptrsOf (v :: (allocList conv rest h1).2.1)
            = ptrsOf [v] ++ ptrsOf (allocList conv rest h1).2.1 := by
          rw [← ptrsOf_append]; rfl
        rw [e2, List.mem_append] at ha
        rcases ha with ha | ha
        · cases v with
          | none => simp [ptrsOf] at ha
          | some b =>
            simp only [ptrsOf, List.filterMap_cons, id, List.filterMap_nil,
              List.mem_singleton] at ha
            subst ha
            have := (hnew a rfl).1
            omega
        · have := i7 a ha
          omega

theorem GetpwInternal_eq_allocList (conv : Bytes → Option Bytes) (pw : Passwd Bytes)
    (st : PwStatic) :
    (GetpwInternal conv (some pw) st).1
        = (if (allocList conv (allocOrder pw) ((allocOrder st.spw).foldl free st.heap)).1 = 5
            then some StaticRef.spw else none)
      ∧ allocOrder (GetpwInternal conv (some pw) st).2.spw
        = (allocList conv (allocOrder pw) ((allocOrder st.spw).foldl free st.heap)).2.1
      ∧ (GetpwInternal conv (some pw) st).2.heap
        = (allocList conv (allocOrder pw) ((allocOrder st.spw).foldl free st.heap)).2.2
      ∧ (GetpwInternal conv (some pw) st).2.errno
        = (if (allocList conv (allocOrder pw) ((allocOrder st.spw).foldl free st.heap)).1 = 5
            then st.errno else ENOMEM)
      ∧ (GetpwInternal conv (some pw) st).2.spw.pw_uid = pw.pw_uid
      ∧ (GetpwInternal conv (some pw) st).2.spw.pw_gid = pw.pw_gid := by
  unfold GetpwInternal allocOrder
  simp only [List.foldl_cons, List.foldl_nil]
  cases e1 : allocGuard conv pw.pw_passwd (free (free (free (free (free st.heap
      st.spw.pw_passwd) st.spw.pw_dir) st.spw.pw_name) st.spw.pw_gecos) st.spw.pw_shell) with
  | none => simp [allocList, e1]
  | some r1 =>
  obtain ⟨v1, h1⟩ := r1
  cases e2 : allocGuard conv pw.pw_dir h1 with
  | none => simp [allocList, e1, e2]
  | some r2 =>
  obtain ⟨v2, h2⟩ := r2
  cases e3 : allocGuard conv pw.pw_name h2 with
  | none => simp [allocList, e1, e2, e3]
  | some r3 =>
  obtain ⟨v3, h3⟩ := r3
  cases e4 : allocGuard conv pw.pw_gecos h3 with
  | none => simp [allocList, e1, e2, e3, e4]
  | some r4 =>
  obtain ⟨v4, h4⟩ := r4
  cases e5 : allocGuard conv pw.pw_shell h4 with
  | none => simp [allocList, e1, e2, e3, e4, e5]
  | some r5 =>
  obtain ⟨v5, h5⟩ := r5
  simp [allocList, e1, e2, e3, e4, e5]

theorem Posix_Getmntent_eq_allocList (conv : Bytes → Option Bytes) (m : Mntent Bytes)
    (st : MntStatic) :
    (Posix_Getmntent conv (some m) st).1
        = (if (allocList conv (mntOrder m) ((mntOrder st.sm).foldl free st.heap)).1 = 4
            then some StaticRef.sm else none)
      ∧ mntOrder (Posix_Getmntent conv (some m) st).2.sm
        = (allocList conv (mntOrder m) ((mntOrder st.sm).foldl free st.heap)).2.1
      ∧ (Posix_Getmntent conv (some m) st).2.heap
        = (allocList conv (mntOrder m) ((mntOrder st.sm).foldl free st.heap)).2.2
      ∧ (Posix_Getmntent conv (some m) st).2.errno
        = (if (allocList conv (mntOrder m) ((mntOrder st.sm).foldl free st.heap)).1 = 4
            then st.errno else ENOMEM)
      ∧ (Posix_Getmntent conv (some m) st).2.sm.mnt_freq = m.mnt_freq
      ∧ (Posix_Getmntent conv (some m) st).2.sm.mnt_passno = m.mnt_passno := by
  unfold Posix_Getmntent mntOrder
  simp only [List.foldl_cons, List.foldl_nil]
  cases e1 : allocGuard conv m.mnt_fsname (free (free (free (free st.heap
      st.sm.mnt_fsname) st.sm.mnt_dir) st.sm.mnt_type) st.sm.mnt_opts) with
  | none => simp [allocList, e1]
  | some r1 =>
  obtain ⟨v1, h1⟩ := r1
  cases e2 : allocGuard conv m.mnt_dir h1 with
  | none => simp [allocList, e1, e2]
  | some r2 =>
  obtain ⟨v2, h2⟩ := r2
  cases e3 : allocGuard conv m.mnt_type h2 with
  | none => simp [allocList, e1, e2, e3]
  | some r3 =>
  obtain ⟨v3, h3⟩ := r3
  cases e4 : allocGuard conv m.mnt_opts h3 with
  | none => simp [allocList, e1, e2, e3, e4]
  | some r4 =>
  obtain ⟨v4, h4⟩ := r4
  simp [allocList, e1, e2, e3, e4]

theorem mem_live (h : Heap) (a : Nat) :
    a ∈ h.live ↔ (a < h.blocks.length ∧ a ∉ h.freed) := by
  simp [Heap.live]

theorem Owned_transient (enc : Bytes → Option Bytes) (h : Heap) (s : Bytes) (ptrs : List Nat)
    (o : Owned h ptrs) :
    Owned (free (Unicode_GetAllocBytes enc h s).2 (Unicode_GetAllocBytes enc h s).1) ptrs := by
  unfold Unicode_GetAllocBytes
  cases enc s with
  | none => exact o
  | some u =>
    obtain ⟨o1, o2, o3, o4⟩ := o
    simp only [Heap.malloc, free]
    refine ⟨o1, ?_, ?_, ?_⟩
    · rw [List.nodup_cons]
      exact ⟨fun hin => absurd (o3 _ hin) (Nat.lt_irrefl _), o2⟩
    · intro b hb
      simp only [List.mem_cons] at hb
      simp only [List.length_append, List.length_cons, List.length_nil]
      rcases hb with rfl | hb
      · omega
      · have := o3 b hb; omega
    · intro b
      simp only [List.length_append, List.length_cons, List.length_nil, List.mem_cons, not_or]
      constructor
      · intro hb
        have := (o4 b).1 hb
        exact ⟨by omega, by omega, this.2⟩
      · rintro ⟨h1, h2, h3⟩
        exact (o4 b).2 ⟨by omega, h3⟩

theorem GetpwInternal_owned (conv : Bytes → Option Bytes) (pw : Option (Passwd Bytes))
    (st : PwStatic) (o : Owned st.heap (ptrsOf (allocOrder st.spw))) :
    Owned (GetpwInternal conv pw st).2.heap
      (ptrsOf (allocOrder (GetpwInternal conv pw st).2.spw)) := by
  cases pw with
  | none => exact o
  | some pw =>
    obtain ⟨-, q2, q3, -, -, -⟩ := GetpwInternal_eq_allocList conv pw st
    rw [q2, q3]
    have := allocList_owned conv (allocOrder pw) _ [] (Owned_frees _ _ o)
    simpa using this

theorem PwCall.run_eq (enc conv : Bytes → Option Bytes)
    (getpwnam : Option Bytes → Option (Passwd Bytes)) (getpwuid : Nat → Option (Passwd Bytes))
    (c : PwCall) (st : PwStatic) :
    ∃ h, Owned st.heap (ptrsOf (allocOrder st.spw)) → Owned h (ptrsOf (allocOrder st.spw))
      ∧ (∀ a ∈ st.heap.freed, a ∈ h.freed)
      ∧ c.run enc conv getpwnam getpwuid st
        = GetpwInternal conv (c.native enc getpwnam getpwuid)
            { spw := st.spw, heap := h, errno := st.errno } := by
  cases c with
  | byName name =>
    refine ⟨free (Unicode_GetAllocBytes enc st.heap name).2
      (Unicode_GetAllocBytes enc st.heap name).1, fun o => ⟨Owned_transient enc _ _ _ o, ?_, ?_⟩⟩
    · intro a ha
      unfold Unicode_GetAllocBytes
      cases enc name with
      | none => exact ha
      | some u => simp [free, Heap.malloc, ha]
    · simp only [PwCall.run, Posix_Getpwnam, PwCall.native, Unicode_GetAllocBytes_str]
  | byUid uid =>
    exact ⟨st.heap, fun o => ⟨o, fun _ ha => ha, rfl⟩⟩

theorem runPwCalls_owned (enc conv : Bytes → Option Bytes)
    (getpwnam : Option Bytes → Option (Passwd Bytes)) (getpwuid : Nat → Option (Passwd Bytes))
    (cs : List PwCall) :
    ∀ st : PwStatic, Owned st.heap (ptrsOf (allocOrder st.spw)) →
      Owned (runPwCalls enc conv getpwnam getpwuid cs st).heap
        (ptrsOf (allocOrder (runPwCalls enc conv getpwnam getpwuid cs st).spw)) := by
  induction cs with
  | nil => intro st o; exact o
  | cons c rest ih =>
    intro st o
    apply ih
    obtain ⟨h, hh⟩ := PwCall.run_eq enc conv getpwnam getpwuid c st
    obtain ⟨o1, -, e⟩ := hh o
    show Owned (c.run enc conv getpwnam getpwuid st).2.heap
      (ptrsOf (allocOrder (c.run enc conv getpwnam getpwuid st).2.spw))
    rw [e]
    exact GetpwInternal_owned conv _ _ o1

theorem allocList_presence (conv : Bytes → Option Bytes) :
    ∀ (srcs : List (Option Bytes)) (h : Heap), (allocList conv srcs h).1 = srcs.length →
      (allocList conv srcs h).2.1.map Option.isSome = srcs.map Option.isSome := by
  intro srcs
  induction srcs with
  | nil => intro h _; rfl
  | cons src rest ih =>
    intro h hl
    cases e : allocGuard conv src h with
    | none => simp [allocList, e] at hl
    | some r =>
      obtain ⟨v, h1⟩ := r
      simp only [allocList, e, List.length_cons, Nat.add_right_cancel_iff] at hl
      simp only [allocList, e, List.map_cons, ih h1 hl, List.cons.injEq, and_true]
      unfold allocGuard at e
      cases src with
      | none =>
        simp only [Option.some.injEq, Prod.mk.injEq] at e
        obtain ⟨rfl, -⟩ := e
        rfl
      | some s =>
        simp only at e
        split at e
        · cases e
        · simp only [Option.some.injEq, Prod.mk.injEq] at e
          obtain ⟨rfl, -⟩ := e
          rfl

theorem foldl_free_freed : ∀ (fs : List (Option Nat)) (h : Heap),
    (∀ a ∈ h.freed, a ∈ (fs.foldl free h).freed)
      ∧ ∀ a ∈ ptrsOf fs, a ∈ (fs.foldl free h).freed := by
  intro fs
  induction fs with
  | nil => intro h; simp [ptrsOf]
  | cons f r ih =>
    intro h
    obtain ⟨i1, i2⟩ := ih (free h f)
    refine ⟨fun a ha => i1 a ?_, fun a ha => ?_⟩
    · cases f with
      | none => exact ha
      | some b => exact List.mem_cons_of_mem _ ha
    · cases f with
      | none => exact i2 a (by simpa [ptrsOf] using ha)
      | some b =>
        simp only [ptrsOf, List.filterMap_cons, id, List.mem_cons] at ha
        rcases ha with rfl | ha
        · exact i1 _ (List.mem_cons_self _ _)
        · exact i2 a ha

/-! ## C9 -/

/-- C9: take any sequence `cs` of `Posix_Getpwnam` / `Posix_Getpwuid` calls
from a fresh process and a further call `c` that is successful: the native
lookup finds a record `pw` and every present string of `pw` converts. Then
the call returns the static record `&spw`, whose string fields are non-null
exactly where `pw` has a string. Before and after the call the live heap
blocks are exactly the ones the string fields of `spw` point to, those
pointers are pairwise distinct, and no address has been released twice or
without having been allocated; and the call has released every string the
record held before it. -/
theorem GetpwInternal_scratch_reuse (enc conv : Bytes → Option Bytes)
    (getpwnam : Option Bytes → Option (Passwd Bytes)) (getpwuid : Nat → Option (Passwd Bytes))
    (cs : List PwCall) (c : PwCall) (pw : Passwd Bytes)
    (hfound : c.native enc getpwnam getpwuid = some pw)
    (hall : ∀ src ∈ allocOrder pw, ¬ guardFails conv src) :
    (c.run enc conv getpwnam getpwuid
        (runPwCalls enc conv getpwnam getpwuid cs PwStatic.init)).1 = some StaticRef.spw
    ∧ (allocOrder (c.run enc conv getpwnam getpwuid
          (runPwCalls enc conv getpwnam getpwuid cs PwStatic.init)).2.spw).map Option.isSome
        = (allocOrder pw).map Option.isSome
    ∧ Owned (c.run enc conv getpwnam getpwuid
          (runPwCalls enc conv getpwnam getpwuid cs PwStatic.init)).2.heap
        (ptrsOf (allocOrder (c.run enc conv getpwnam getpwuid
          (runPwCalls enc conv getpwnam getpwuid cs PwStatic.init)).2.spw))
    ∧ (∀ a, a ∈ (c.run enc conv getpwnam getpwuid
          (runPwCalls enc conv getpwnam getpwuid cs PwStatic.init)).2.heap.live
        ↔ a ∈ ptrsOf (allocOrder (c.run enc conv getpwnam getpwuid
          (runPwCalls enc conv getpwnam getpwuid cs PwStatic.init)).2.spw))
    ∧ (∀ a ∈ ptrsOf (allocOrder (runPwCalls enc conv getpwnam getpwuid cs PwStatic.init).spw),
        a ∈ (c.run enc conv getpwnam getpwuid
          (runPwCalls enc conv getpwnam getpwuid cs PwStatic.init)).2.heap.freed)
    ∧ Owned (runPwCalls enc conv getpwnam getpwuid cs PwStatic.init).heap
        (ptrsOf (allocOrder (runPwCalls enc conv getpwnam getpwuid cs PwStatic.init).spw))
    ∧ (∀ a, a ∈ (runPwCalls enc conv getpwnam getpwuid cs PwStatic.init).heap.live
        ↔ a ∈ ptrsOf
            (allocOrder (runPwCalls enc conv getpwnam getpwuid cs PwStatic.init).spw)) := by
  have o0 : Owned PwStatic.init.heap (ptrsOf (allocOrder PwStatic.init.spw)) := by
    refine ⟨List.nodup_nil, List.nodup_nil, ?_, ?_⟩ <;>
      simp [PwStatic.init, Heap.empty, allocOrder, ptrsOf]
  have o := runPwCalls_owned enc conv getpwnam getpwuid cs _ o0
  generalize runPwCalls enc conv getpwnam getpwuid cs PwStatic.init = st at o ⊢
  obtain ⟨h, hh⟩ := PwCall.run_eq enc conv getpwnam getpwuid c st
  obtain ⟨o1, hfr, e⟩ := hh o
  rw [e, hfound]
  obtain ⟨q1, q2, q3, -, -, -⟩ := GetpwInternal_eq_allocList conv pw
    { spw := st.spw, heap := h, errno := st.errno }
  obtain ⟨-, s2, -, s4, -, -, -⟩ :=
    allocList_spec conv (allocOrder pw) ((allocOrder st.spw).foldl free h)
  have hlen : (allocOrder pw).length = 5 := rfl
  have h5 : (allocList conv (allocOrder pw) ((allocOrder st.spw).foldl free h)).1 = 5 := by
    by_contra hc
    obtain ⟨src, hsrc, hg⟩ := s4 (by omega)
    exact hall src (List.getElem?_mem hsrc) hg
  have o2 := GetpwInternal_owned conv (some pw)
    { spw := st.spw, heap := h, errno := st.errno } o1
  refine ⟨by rw [q1, if_pos h5], ?_, o2, fun a => ?_, ?_, o, fun a => ?_⟩
  · rw [q2]; exact allocList_presence conv _ _ h5
  · rw [mem_live]; exact (o2.2.2.2 a).symm
  · intro a ha
    rw [q3, (allocList_spec conv (allocOrder pw) _).1.2]
    exact (foldl_free_freed _ h).2 a ha
  · rw [mem_live]; exact (o.2.2.2 a).symm

/-! ## C10 -/

theorem foldl_free_blocks : ∀ (fs : List (Option Nat)) (h : Heap),
    (fs.foldl free h).blocks = h.blocks := by
  intro fs
  induction fs with
  | nil => intro h; rfl
  | cons f r ih => intro h; rw [List.foldl_cons, ih, free_blocks]

theorem allocList_partial (conv : Bytes → Option Bytes) (srcs : List (Option Bytes))
    (h : Heap) (k : Nat)
    (hfail : ∃ src, srcs[k]? = some src ∧ guardFails conv src)
    (hok : ∀ (i : Nat) (src : Option Bytes), i < k → srcs[i]? = some src →
      ¬ guardFails conv src) :
    (allocList conv srcs h).1 = k ∧ k < srcs.length
      ∧ (∀ (i : Nat) (src : Option Bytes), i < k → srcs[i]? = some src →
          ∃ v, (allocList conv srcs h).2.1[i]? = some v
            ∧ (allocList conv srcs h).2.2.str v = src.bind conv)
      ∧ (∀ i, k ≤ i → i < srcs.length → (allocList conv srcs h).2.1[i]? = some none)
      ∧ (∀ a ∈ ptrsOf (allocList conv srcs h).2.1, h.blocks.length ≤ a)
      ∧ (allocList conv srcs h).2.2.freed = h.freed := by
  obtain ⟨s1, s2, -, s4, s5, s6, s7⟩ := allocList_spec conv srcs h
  obtain ⟨srck, hk, hgk⟩ := hfail
  have hklt : k < srcs.length := by
    by_contra hc
    rw [List.getElem?_eq_none (by omega)] at hk
    cases hk
  have hr : (allocList conv srcs h).1 = k := by
    rcases Nat.lt_trichotomy (allocList conv srcs h).1 k with hlt | heq | hgt
    · obtain ⟨src, hsrc, hg⟩ := s4 (by omega)
      exact absurd hg (hok _ src hlt hsrc)
    · exact heq
    · exact absurd hgk (s5 k srck hgt hk).1
  refine ⟨hr, hklt, ?_, ?_, s7, s1.2⟩
  · intro i src hi hsrc
    obtain ⟨-, v, hv, hs, -⟩ := s5 i src (by omega) hsrc
    exact ⟨v, hv, hs⟩
  · intro i hi1 hi2
    exact s6 i (by omega) hi2

/-- C10: in `GetpwInternal` (field order passwd, dir, name, gecos, shell) and in
`Posix_Getmntent` (field order fsname, dir, type, opts), if field `k` is the
first present string field whose universal-text copy cannot be allocated, the
call returns `NULL` with `errno = ENOMEM`; the numeric fields of the static
record hold the new native values, every string field before `k` holds the
new copy of its conversion (null for an absent field), field `k` and all later
string fields are null, and no string of the previous call is referenced any
more: every non-null string field is a block allocated by this call, and every
string the record held before has been released. -/
theorem nonreentrant_partial_on_ENOMEM (conv : Bytes → Option Bytes)
    (pw : Passwd Bytes) (st : PwStatic) (k : Nat)
    (m : Mntent Bytes) (stm : MntStatic) (km : Nat)
    (hfail : ∃ src, (allocOrder pw)[k]? = some src ∧ guardFails conv src)
    (hok : ∀ (i : Nat) (src : Option Bytes), i < k → (allocOrder pw)[i]? = some src →
      ¬ guardFails conv src)
    (hfailm : ∃ src, (mntOrder m)[km]? = some src ∧ guardFails conv src)
    (hokm : ∀ (i : Nat) (src : Option Bytes), i < km → (mntOrder m)[i]? = some src →
      ¬ guardFails conv src) :
    ((GetpwInternal conv (some pw) st).1 = none
      ∧ (GetpwInternal conv (some pw) st).2.errno = ENOMEM
      ∧ (GetpwInternal conv (some pw) st).2.spw.pw_uid = pw.pw_uid
      ∧ (GetpwInternal conv (some pw) st).2.spw.pw_gid = pw.pw_gid
      ∧ (∀ (i : Nat) (src : Option Bytes), i < k → (allocOrder pw)[i]? = some src →
          ∃ v, (allocOrder (GetpwInternal conv (some pw) st).2.spw)[i]? = some v
            ∧ (GetpwInternal conv (some pw) st).2.heap.str v = src.bind conv)
      ∧ (∀ i, k ≤ i → i < 5 →
          (allocOrder (GetpwInternal conv (some pw) st).2.spw)[i]? = some none)
      ∧ (∀ a ∈ ptrsOf (allocOrder (GetpwInternal conv (some pw) st).2.spw),
          st.heap.blocks.length ≤ a)
      ∧ (∀ a ∈ ptrsOf (allocOrder st.spw),
          a ∈ (GetpwInternal conv (some pw) st).2.heap.freed))
    ∧ ((Posix_Getmntent conv (some m) stm).1 = none
      ∧ (Posix_Getmntent conv (some m) stm).2.errno = ENOMEM
      ∧ (Posix_Getmntent conv (some m) stm).2.sm.mnt_freq = m.mnt_freq
      ∧ (Posix_Getmntent conv (some m) stm).2.sm.mnt_passno = m.mnt_passno
      ∧ (∀ (i : Nat) (src : Option Bytes), i < km → (mntOrder m)[i]? = some src →
          ∃ v, (mntOrder (Posix_Getmntent conv (some m) stm).2.sm)[i]? = some v
            ∧ (Posix_Getmntent conv (some m) stm).2.heap.str v = src.bind conv)
      ∧ (∀ i, km ≤ i → i < 4 →
          (mntOrder (Posix_Getmntent conv (some m) stm).2.sm)[i]? = some none)
      ∧ (∀ a ∈ ptrsOf (mntOrder (Posix_Getmntent conv (some m) stm).2.sm),
          stm.heap.blocks.length ≤ a)
      ∧ (∀ a ∈ ptrsOf (mntOrder stm.sm),
          a ∈ (Posix_Getmntent conv (some m) stm).2.heap.freed)) := by
  constructor
  · obtain ⟨q1, q2, q3, q4, q5, q6⟩ := GetpwInternal_eq_allocList conv pw st
    obtain ⟨p1, p2, p3, p4, p5, p6⟩ :=
      allocList_partial conv (allocOrder pw) ((allocOrder st.spw).foldl free st.heap) k hfail hok
    have hlen : (allocOrder pw).length = 5 := rfl
    rw [hlen] at p2 p4
    have hne : ¬ (allocList conv (allocOrder pw) ((allocOrder st.spw).foldl free st.heap)).1 = 5 := by
      omega
    rw [foldl_free_blocks] at p5
    refine ⟨by rw [q1, if_neg hne], by rw [q4, if_neg hne], q5, q6, ?_, ?_, ?_, ?_⟩
    · rw [q2, q3]; exact p3
    · rw [q2]; exact p4
    · rw [q2]; exact p5
    · intro a ha
      rw [q3, p6]
      exact (foldl_free_freed _ _).2 a ha
  · obtain ⟨q1, q2, q3, q4, q5, q6⟩ := Posix_Getmntent_eq_allocList conv m stm
    obtain ⟨p1, p2, p3, p4, p5, p6⟩ :=
      allocList_partial conv (mntOrder m) ((mntOrder stm.sm).foldl free stm.heap) km hfailm hokm
    have hlen : (mntOrder m).length = 4 := rfl
    rw [hlen] at p2 p4
    have hne : ¬ (allocList conv (mntOrder m) ((mntOrder stm.sm).foldl free stm.heap)).1 = 4 := by
      omega
    rw [foldl_free_blocks] at p5
    refine ⟨by rw [q1, if_neg hne], by rw [q4, if_neg hne], q5, q6, ?_, ?_, ?_, ?_⟩
    · rw [q2, q3]; exact p3
    · rw [q2]; exact p4
    · rw [q2]; exact p5
    · intro a ha
      rw [q3, p6]
      exact (foldl_free_freed _ _).2 a ha

/-- Witness of C10: after a successful lookup of "root", a lookup whose native
name is "bad" fails at the third field (passwd and dir are converted first);
a mount entry whose type is "bad" fails at its third field. -/
theorem nonreentrant_partial_on_ENOMEM_witness :
    (GetpwInternal convExceptBad (some pwBadName)
        (GetpwInternal convExceptBad (some pwRoot) PwStatic.init).2).1 = none
    ∧ (GetpwInternal convExceptBad (some pwBadName)
        (GetpwInternal convExceptBad (some pwRoot) PwStatic.init).2).2.errno = ENOMEM
    ∧ (Posix_Getmntent convExceptBad (some mntBadType) MntStatic.init).1 = none
    ∧ (Posix_Getmntent convExceptBad (some mntBadType) MntStatic.init).2.errno = ENOMEM :=
  have hbad : guardFails convExceptBad (some [98, 97, 100]) := ⟨_, rfl, rfl⟩
  have hpw : ∀ (i : Nat) (src : Option Bytes), i < 2 → (allocOrder pwBadName)[i]? = some src →
      ¬ guardFails convExceptBad src := by
    intro i src hi hsrc
    rintro ⟨s, rfl, hs⟩
    have h2 : i = 0 ∨ i = 1 := by omega
    rcases h2 with rfl | rfl
    · simp only [allocOrder, pwBadName, List.getElem?_cons_zero, Option.some.injEq] at hsrc
      subst hsrc
      revert hs; decide
    · simp only [allocOrder, pwBadName, List.getElem?_cons_succ, List.getElem?_cons_zero,
        Option.some.injEq] at hsrc
      subst hsrc
      revert hs; decide
  have hm : ∀ (i : Nat) (src : Option Bytes), i < 2 → (mntOrder mntBadType)[i]? = some src →
      ¬ guardFails convExceptBad src := by
    intro i src hi hsrc
    rintro ⟨s, rfl, hs⟩
    have h2 : i = 0 ∨ i = 1 := by omega
    rcases h2 with rfl | rfl
    · simp only [mntOrder, mntBadType, List.getElem?_cons_zero, Option.some.injEq] at hsrc
      subst hsrc
      revert hs; decide
    · simp only [mntOrder, mntBadType, List.getElem?_cons_succ, List.getElem?_cons_zero,
        Option.some.injEq] at hsrc
      subst hsrc
      revert hs; decide
  have key := nonreentrant_partial_on_ENOMEM convExceptBad pwBadName
    (GetpwInternal convExceptBad (some pwRoot) PwStatic.init).2 2 mntBadType MntStatic.init 2
    ⟨_, rfl, hbad⟩ hpw ⟨_, rfl, hbad⟩ hm
  ⟨key.1.1, key.1.2.1, key.2.1, key.2.2.1⟩

/-- Witness of C9: in a fresh process `Posix_Getpwnam("root")` succeeds and
returns `&spw`; a following `Posix_Getpwnam("bad")` (the identity codec
converts every string) succeeds too, returns `&spw` again, and has released
the strings of the first lookup; so does a following `Posix_Getpwuid(0)`. -/
theorem GetpwInternal_scratch_reuse_witness :
    ((PwCall.byName [114, 111, 111, 116]).run some some getpwnamExample getpwuidExample
        PwStatic.init).1 = some StaticRef.spw
    ∧ ((PwCall.byName [98, 97, 100]).run some some getpwnamExample getpwuidExample
        (runPwCalls some some getpwnamExample getpwuidExample
          [PwCall.byName [114, 111, 111, 116]] PwStatic.init)).1 = some StaticRef.spw
    ∧ (∀ a ∈ ptrsOf (allocOrder (runPwCalls some some getpwnamExample getpwuidExample
          [PwCall.byName [114, 111, 111, 116]] PwStatic.init).spw),
        a ∈ ((PwCall.byName [98, 97, 100]).run some some getpwnamExample getpwuidExample
          (runPwCalls some some getpwnamExample getpwuidExample
            [PwCall.byName [114, 111, 111, 116]] PwStatic.init)).2.heap.freed)
    ∧ ((PwCall.byUid 0).run some some getpwnamExample getpwuidExample
        (runPwCalls some some getpwnamExample getpwuidExample
          [PwCall.byName [114, 111, 111, 116], PwCall.byName [98, 97, 100]]
          PwStatic.init)).1 = some StaticRef.spw :=
  have hconv : ∀ pw : Passwd Bytes, ∀ src ∈ allocOrder pw, ¬ guardFails some src :=
    fun _ _ _ hg => by obtain ⟨_, _, hc⟩ := hg; cases hc
  have k1 := GetpwInternal_scratch_reuse some some getpwnamExample getpwuidExample
    [] (PwCall.byName [114, 111, 111, 116]) pwRoot (by decide) (hconv pwRoot)
  have k2 := GetpwInternal_scratch_reuse some some getpwnamExample getpwuidExample
    [PwCall.byName [114, 111, 111, 116]] (PwCall.byName [98, 97, 100]) pwBadName
    (by decide) (hconv pwBadName)
  have k3 := GetpwInternal_scratch_reuse some some getpwnamExample getpwuidExample
    [PwCall.byName [114, 111, 111, 116], PwCall.byName [98, 97, 100]] (PwCall.byUid 0) pwRoot
    (by decide) (hconv pwRoot)
  ⟨k1.1, k2.1, k2.2.2.2.2.1, k3.1⟩

/-- Witness of C8: the vectors built for zero, one and three arguments. -/
theorem Posix_Execl_vector_witness :
    (execlOf some osAccepts true [47, 98] [] Proc.init).2.log
        = [Syscall.sysExecv (some [47, 98]) (some [none])]
    ∧ (execlOf some osAccepts true [47, 98] [[97]] Proc.init).2.log
        = [Syscall.sysExecv (some [47, 98]) (some [some [97], none])]
    ∧ (execlOf some osAccepts true [47, 98] [[97], [98], [99]] Proc.init).2.log
        = [Syscall.sysExecv (some [47, 98]) (some [some [97], some [98], some [99], none])] :=
  ⟨(execlOf_log some osAccepts [47, 98] [] Proc.init).1,
   (execlOf_log some osAccepts [47, 98] [[97]] Proc.init).1,
   (execlOf_log some osAccepts [47, 98] [[97], [98], [99]] Proc.init).1⟩

/-! ## C11 -/

/-- C11: for every native account record and every prior content of the
static record, when every present string field converts `GetpwInternal`
returns `&spw` with `pw_uid` and `pw_gid` copied, every string field holding
the universal-text conversion of the native field when that is present, and
null when it is absent (nothing of an earlier call survives); when the native
lookup reports not-found (`pw` null) it returns null and leaves the state
unchanged. -/
theorem GetpwInternal_success_fields (conv : Bytes → Option Bytes) (pw : Passwd Bytes)
    (st : PwStatic) (hall : ∀ src ∈ allocOrder pw, ¬ guardFails conv src) :
    (GetpwInternal conv (some pw) st).1 = some StaticRef.spw
    ∧ (GetpwInternal conv (some pw) st).2.spw.pw_uid = pw.pw_uid
    ∧ (GetpwInternal conv (some pw) st).2.spw.pw_gid = pw.pw_gid
    ∧ (∀ (i : Nat) (src : Option Bytes), (allocOrder pw)[i]? = some src →
        ∃ v, (allocOrder (GetpwInternal conv (some pw) st).2.spw)[i]? = some v
          ∧ (GetpwInternal conv (some pw) st).2.heap.str v = src.bind conv
          ∧ (∀ s, src = some s → ∃ a u, v = some a ∧ conv s = some u
              ∧ (GetpwInternal conv (some pw) st).2.heap.str v = some u)
          ∧ (src = none → v = none))
    ∧ GetpwInternal conv none st = (none, st) := by
  obtain ⟨q1, q2, q3, -, q5, q6⟩ := GetpwInternal_eq_allocList conv pw st
  obtain ⟨-, s2, -, s4, s5, -, -⟩ :=
    allocList_spec conv (allocOrder pw) ((allocOrder st.spw).foldl free st.heap)
  have hlen : (allocOrder pw).length = 5 := rfl
  have h5 : (allocList conv (allocOrder pw) ((allocOrder st.spw).foldl free st.heap)).1 = 5 := by
    by_contra hc
    obtain ⟨src, hsrc, hg⟩ := s4 (by omega)
    exact hall src (List.getElem?_mem hsrc) hg
  refine ⟨by rw [q1, if_pos h5], q5, q6, ?_, rfl⟩
  intro i src hi
  have hi5 : i < 5 := by
    by_contra hc
    rw [List.getElem?_eq_none (by omega)] at hi
    cases hi
  obtain ⟨hng, v, hv, hs, -⟩ := s5 i src (by omega) hi
  refine ⟨v, by rw [q2]; exact hv, by rw [q3]; exact hs, ?_, ?_⟩
  · rintro s rfl
    cases hc : conv s with
    | none => exact absurd ⟨s, rfl, hc⟩ hng
    | some u =>
      rw [Option.some_bind, hc] at hs
      cases v with
      | none => simp [Heap.str] at hs
      | some a => exact ⟨a, u, rfl, rfl, by rw [q3]; exact hs⟩
  · rintro rfl
    cases v with
    | none => rfl
    | some a => simp [Heap.str] at hs

/-- Witness of C11: the record of "root" converts with the identity codec. -/
theorem GetpwInternal_success_fields_witness :
    (GetpwInternal some (some pwRoot) PwStatic.init).1 = some StaticRef.spw
    ∧ (GetpwInternal some (some pwRoot) PwStatic.init).2.spw.pw_uid = pwRoot.pw_uid :=
  have key := GetpwInternal_success_fields some pwRoot PwStatic.init
    (fun _ _ hg => by obtain ⟨_, _, hc⟩ := hg; cases hc)
  ⟨key.1, key.2.1⟩

/-! ## C12 -/

theorem convertStrings_eq_allocList (conv : Bytes → Option Bytes) (pw : Passwd CharPtr)
    (buf : Bytes) (h0 : Heap) :
    (convertStrings conv pw buf h0).1
        = decide ((allocList conv (nativeStrings pw buf) h0).1 = 5)
      ∧ (convertStrings conv pw buf h0).2.1.toList = (allocList conv (nativeStrings pw buf) h0).2.1
      ∧ (convertStrings conv pw buf h0).2.2 = (allocList conv (nativeStrings pw buf) h0).2.2 := by
  unfold convertStrings nativeStrings strFields
  simp only [List.map_cons, List.map_nil]
  cases e1 : allocGuard conv (pw.pw_name.map (deref buf)) h0 with
  | none => simp [allocList, e1, Locals.toList]
  | some r1 =>
  obtain ⟨v1, h1⟩ := r1
  cases e2 : allocGuard conv (pw.pw_passwd.map (deref buf)) h1 with
  | none => simp [allocList, e1, e2, Locals.toList]
  | some r2 =>
  obtain ⟨v2, h2⟩ := r2
  cases e3 : allocGuard conv (pw.pw_gecos.map (deref buf)) h2 with
  | none => simp [allocList, e1, e2, e3, Locals.toList]
  | some r3 =>
  obtain ⟨v3, h3⟩ := r3
  cases e4 : allocGuard conv (pw.pw_dir.map (deref buf)) h3 with
  | none => simp [allocList, e1, e2, e3, e4, Locals.toList]
  | some r4 =>
  obtain ⟨v4, h4⟩ := r4
  cases e5 : allocGuard conv (pw.pw_shell.map (deref buf)) h4 with
  | none => simp [allocList, e1, e2, e3, e4, e5, Locals.toList]
  | some r5 =>
  obtain ⟨v5, h5⟩ := r5
  simp [allocList, e1, e2, e3, e4, e5, Locals.toList]

theorem ext_length_le {h1 h2 : Heap} (e : h1.Ext h2) : h1.blocks.length ≤ h2.blocks.length := by
  obtain ⟨⟨ex, hex⟩, -⟩ := e
  rw [hex, List.length_append]; omega

/-- The pointers handed out by the allocation guards are the addresses of the
blocks allocated, in order. -/
theorem allocList_ptrs (conv : Bytes → Option Bytes) :
    ∀ (srcs : List (Option Bytes)) (h : Heap),
      ptrsOf (allocList conv srcs h).2.1
        = List.range' h.blocks.length
            ((allocList conv srcs h).2.2.blocks.length - h.blocks.length) := by
  intro srcs
  induction srcs with
  | nil => intro h; simp [allocList, ptrsOf]
  | cons src rest ih =>
    intro h
    cases e : allocGuard conv src h with
    | none => simp [allocList, e, ptrsOf]
    | some r =>
      obtain ⟨v, h1⟩ := r
      obtain ⟨-, -, -, hnew, hnone⟩ := allocGuard_some e
      have hle := ext_length_le (allocList_spec conv rest h1).1
      simp only [allocList, e]
      cases v with
      | none =>
        have := hnone rfl
        subst this
        have e2 : ptrsOf (none :: (allocList conv rest h1).2.1)
            = ptrsOf (allocList conv rest h1).2.1 := by simp [ptrsOf]
        rw [e2, ih]
      | some a =>
        obtain ⟨ha, hl⟩ := hnew a rfl
        have e2 : ptrsOf (some a :: (allocList conv rest h1).2.1)
            = a :: ptrsOf (allocList conv rest h1).2.1 := by simp [ptrsOf]
        rw [e2, ih, hl, ← ha]
        have e3 : (allocList conv rest h1).2.2.blocks.length - a
            = ((allocList conv rest h1).2.2.blocks.length - (a + 1)) + 1 := by omega
        rw [e3, List.range'_succ]

theorem foldl_free_count : ∀ (fs : List (Option Nat)) (h : Heap) (a : Nat),
    (fs.foldl free h).freed.count a = (ptrsOf fs).count a + h.freed.count a := by
  intro fs
  induction fs with
  | nil => intro h a; simp [ptrsOf]
  | cons f r ih =>
    intro h a
    rw [List.foldl_cons, ih]
    cases f with
    | none => simp [ptrsOf, free]
    | some b =>
      simp only [ptrsOf, free, List.filterMap_cons, id, List.count_cons]
      omega

theorem freeLocals_count (h : Heap) (l : Locals) (a : Nat) :
    (freeLocals h l).freed.count a = (ptrsOf l.toList).count a + h.freed.count a := by
  have e : freeLocals h l = [l.passwd, l.dir, l.pwname, l.gecos, l.shell].foldl free h := rfl
  rw [e, foldl_free_count]
  have c : ∀ (x : Option Nat) (xs : List (Option Nat)),
      (ptrsOf (x :: xs)).count a = (ptrsOf [x]).count a + (ptrsOf xs).count a := by
    intro x xs
    rw [← List.count_append, ← ptrsOf_append]; rfl
  have c5 : ∀ x1 x2 x3 x4 x5 : Option Nat,
      (ptrsOf [x1, x2, x3, x4, x5]).count a
        = (ptrsOf [x1]).count a + ((ptrsOf [x2]).count a + ((ptrsOf [x3]).count a
          + ((ptrsOf [x4]).count a + (ptrsOf [x5]).count a))) := by
    intro x1 x2 x3 x4 x5
    rw [c x1 [x2, x3, x4, x5], c x2 [x3, x4, x5], c x3 [x4, x5], c x4 [x5]]
  simp only [Locals.toList]
  rw [c5, c5]
  omega

theorem freeLocals_blocks (h : Heap) (l : Locals) : (freeLocals h l).blocks = h.blocks := by
  simp only [freeLocals, free_blocks]

/-- C12: if the conversion of a present string field fails, `GetpwInternal_r`
returns `ENOMEM` with nothing packed: the record and the caller's buffer are as
the native lookup left them. Every transient universal-text copy made before
the failure (the blocks allocated by the call) has been released exactly once,
and no other block has been released. -/
theorem GetpwInternal_r_conversion_failure (conv : Bytes → Option Bytes)
    (pw : Passwd CharPtr) (buf : Bytes) (size : Nat) (heap : Heap)
    (hfail : ∃ q, some q ∈ strFields pw ∧ conv (deref buf q) = none) :
    ∃ h1, GetpwInternal_r conv (some pw) buf size heap
        = some { ret := ENOMEM, ppw := some pw, buf := buf, heap := h1 }
      ∧ heap.blocks.length ≤ h1.blocks.length
      ∧ (∀ a, heap.blocks.length ≤ a → a < h1.blocks.length →
          h1.freeCount a = heap.freeCount a + 1)
      ∧ (∀ a, ¬ (heap.blocks.length ≤ a ∧ a < h1.blocks.length) →
          h1.freeCount a = heap.freeCount a) := by
  obtain ⟨c1, c2, c3⟩ := convertStrings_eq_allocList conv pw buf heap
  obtain ⟨s1, -, -, -, s5, -, -⟩ := allocList_spec conv (nativeStrings pw buf) heap
  have hne : ¬ (allocList conv (nativeStrings pw buf) heap).1 = 5 := by
    intro h5
    obtain ⟨q, hq, hc⟩ := hfail
    obtain ⟨i, hi⟩ := List.mem_iff_getElem?.1 hq
    have hi5 : i < 5 := by
      by_contra hcon
      have hl : (strFields pw).length = 5 := rfl
      rw [List.getElem?_eq_none (by omega)] at hi
      cases hi
    have hsrc : (nativeStrings pw buf)[i]? = some (some (deref buf q)) := by
      simp [nativeStrings, List.getElem?_map, hi]
    exact (s5 i _ (by omega) hsrc).1 ⟨_, rfl, hc⟩
  have hfalse : (convertStrings conv pw buf heap).1 = false := by
    rw [c1]; exact decide_eq_false hne
  have hptr := allocList_ptrs conv (nativeStrings pw buf) heap
  rw [← c2, ← c3] at hptr
  have hle : heap.blocks.length ≤ (convertStrings conv pw buf heap).2.2.blocks.length := by
    rw [c3]; exact ext_length_le s1
  have hfr : (convertStrings conv pw buf heap).2.2.freed = heap.freed := by
    rw [c3]; exact s1.2
  refine ⟨freeLocals (convertStrings conv pw buf heap).2.2 (convertStrings conv pw buf heap).2.1,
    ?_, ?_, ?_, ?_⟩
  · simp [GetpwInternal_r, hfalse]
  · rw [freeLocals_blocks]; exact hle
  · intro a h1 h2
    rw [freeLocals_blocks] at h2
    simp only [Heap.freeCount]
    rw [freeLocals_count, hptr, hfr]
    have : List.count a (List.range' heap.blocks.length
        ((convertStrings conv pw buf heap).2.2.blocks.length - heap.blocks.length)) = 1 := by
      apply List.count_eq_one_of_mem (List.nodup_range' _ _)
      rw [List.mem_range'_1]; omega
    omega
  · intro a hna
    rw [freeLocals_blocks] at hna
    simp only [Heap.freeCount]
    rw [freeLocals_count, hptr, hfr]
    have : List.count a (List.range' heap.blocks.length
        ((convertStrings conv pw buf heap).2.2.blocks.length - heap.blocks.length)) = 0 := by
      apply List.count_eq_zero_of_not_mem
      rw [List.mem_range'_1]; omega
    omega

/-- Witness of C12: in the example the shell is "bad"; the four copies made
before it (blocks 0 to 3) are each released once. -/
theorem GetpwInternal_r_conversion_failure_witness :
    (∃ q, some q ∈ strFields pwExample ∧ convExceptBad (deref bufBadShell q) = none)
    ∧ ∃ h1, GetpwInternal_r convExceptBad (some pwExample) bufBadShell 12 Heap.empty
        = some { ret := ENOMEM, ppw := some pwExample, buf := bufBadShell, heap := h1 }
      ∧ Heap.empty.blocks.length ≤ h1.blocks.length
      ∧ (∀ a, Heap.empty.blocks.length ≤ a → a < h1.blocks.length →
          h1.freeCount a = Heap.empty.freeCount a + 1)
      ∧ (∀ a, ¬ (Heap.empty.blocks.length ≤ a ∧ a < h1.blocks.length) →
          h1.freeCount a = Heap.empty.freeCount a) :=
  ⟨⟨CharPtr.inBuf 8, by decide, by decide⟩,
   GetpwInternal_r_conversion_failure convExceptBad pwExample bufBadShell 12 Heap.empty
     ⟨CharPtr.inBuf 8, by decide, by decide⟩⟩

/-! ## C16 -/

theorem cstr_of_window (l u : Bytes) (h : l.take (strlen u + 1) = cstr u ++ [0]) :
    cstr l = cstr u := by
  have e : l = cstr u ++ 0 :: l.drop (strlen u + 1) := by
    have := List.take_append_drop (strlen u + 1) l
    rw [h, List.append_assoc, List.singleton_append] at this
    exact this.symm
  rw [e, cstr_append_zero]

theorem cstr_eq_self (u : Bytes) (h : 0 ∉ u) : cstr u = u := by
  unfold cstr
  rw [List.takeWhile_eq_self_iff]
  intro b hb
  have : b ≠ 0 := fun hz => h (hz ▸ hb)
  simpa using this

theorem ERANGE_ne_zero : ERANGE ≠ 0 := by decide

theorem ENOMEM_ne_zero : ENOMEM ≠ 0 := by decide

/-- C16: when `GetpwInternal_r` returns 0 (the buffer holding at least `size`
bytes), the numeric fields are untouched, an absent string field stays null,
and every present string field, in the order name, passwd, gecos, dir, shell,
has been converted and packed: its pointer is `buf + off` where `off` is the
sum of (length + 1) of the present fields before it (0 for the first), the
copy lies inside the first `size` bytes, and the NUL-terminated string read at
`off` in the final buffer is the field's converted value, whatever the buffer
held before. -/
theorem GetpwInternal_r_packed_layout (conv : Bytes → Option Bytes) (pw : Passwd CharPtr)
    (buf : Bytes) (size : Nat) (heap : Heap) (hs : size ≤ buf.length)
    (h0 : (GetpwInternal_r conv (some pw) buf size heap).map Result_r.ret = some 0) :
    ∃ r pw1, GetpwInternal_r conv (some pw) buf size heap = some r ∧ r.ppw = some pw1
      ∧ pw1.pw_uid = pw.pw_uid ∧ pw1.pw_gid = pw.pw_gid
      ∧ r.buf.length = buf.length
      ∧ ∀ (i : Nat) (fld0 : Option CharPtr), (strFields pw)[i]? = some fld0 →
          ∃ fld1, (strFields pw1)[i]? = some fld1
            ∧ (fld0 = none → fld1 = none)
            ∧ (∀ q, fld0 = some q → ∃ u, conv (deref buf q) = some u
                ∧ fld1 = some (CharPtr.inBuf
                    (offsetOf ((strFields pw).map (convField conv buf)) i))
                ∧ offsetOf ((strFields pw).map (convField conv buf)) i + strlen u + 1 ≤ size
                ∧ deref r.buf (CharPtr.inBuf
                    (offsetOf ((strFields pw).map (convField conv buf)) i)) = cstr u
                ∧ (0 ∉ u → deref r.buf (CharPtr.inBuf
                    (offsetOf ((strFields pw).map (convField conv buf)) i)) = u)) := by
  rcases hcs : convertStrings conv pw buf heap with ⟨ok, l, h⟩
  simp only [GetpwInternal_r, hcs, Option.map_some', Option.some.injEq] at h0
  cases ok with
  | false => simp only [Bool.false_eq_true, if_false] at h0; exact absurd h0 ENOMEM_ne_zero
  | true =>
    simp only [if_true] at h0
    obtain ⟨q1, q2, q3, q4, q5⟩ := packStrings_eq_packList size h l pw buf
    have hin := packInput_eq hcs
    obtain ⟨i1, -, i3, -, i5, i6⟩ :=
      packList_spec size (packInput h l pw) buf 0 hs (Nat.zero_le _)
    have hmap : (packInput h l pw).map Prod.fst = (strFields pw).map (convField conv buf) := by
      rw [hin, List.map_map]; rfl
    rw [hmap] at i5 i6
    have hk : (packList size (packInput h l pw) buf 0).1 = 5 := by
      by_contra hc
      rw [q1, if_neg hc] at h0
      exact ERANGE_ne_zero h0
    obtain ⟨c1, -, -⟩ := convertStrings_eq_allocList conv pw buf heap
    obtain ⟨-, -, -, -, s5, -, -⟩ := allocList_spec conv (nativeStrings pw buf) heap
    have ha5 : (allocList conv (nativeStrings pw buf) heap).1 = 5 := by
      rw [hcs] at c1
      exact of_decide_eq_true c1.symm
    refine ⟨⟨(packStrings size h l pw buf).1, some (packStrings size h l pw buf).2.1,
        (packStrings size h l pw buf).2.2, freeLocals h l⟩, (packStrings size h l pw buf).2.1,
      by simp only [GetpwInternal_r, hcs, if_true], rfl, q4, q5, by rw [q3]; exact i1, ?_⟩
    intro i fld0 hi
    have hi5 : i < 5 := by
      by_contra hcon
      have hl : (strFields pw).length = 5 := rfl
      rw [List.getElem?_eq_none (by omega)] at hi
      cases hi
    have hx : (packInput h l pw)[i]? = some (convField conv buf fld0, fld0) := by
      rw [hin, List.getElem?_map, hi]; rfl
    obtain ⟨f1, hf1, hif⟩ := i6 i _ _ hx
    rw [hk, if_pos hi5, Nat.zero_add] at hif
    refine ⟨f1, by rw [q2]; exact hf1, ?_, ?_⟩
    · rintro rfl
      exact hif
    · rintro q rfl
      have hsrc : (nativeStrings pw buf)[i]? = some (some (deref buf q)) := by
        simp [nativeStrings, List.getElem?_map, hi]
      have hng := (s5 i _ (by omega) hsrc).1
      cases hc : conv (deref buf q) with
      | none => exact absurd ⟨_, rfl, hc⟩ hng
      | some u =>
        have hcf : convField conv buf (some q) = some u := by
          simp [convField, hc]
        rw [hcf] at hif
        obtain ⟨hf, hw⟩ := hif
        have hd : deref (packStrings size h l pw buf).2.2
            (CharPtr.inBuf (offsetOf ((strFields pw).map (convField conv buf)) i)) = cstr u := by
          rw [q3]
          exact cstr_of_window _ u hw
        have hoff : offsetOf ((strFields pw).map (convField conv buf)) i + strlen u + 1
            ≤ size := by
          have h6 : offsetOf ((strFields pw).map (convField conv buf)) (i + 1)
              ≤ offsetOf ((strFields pw).map (convField conv buf)) 5 := by
            simp only [offsetOf]
            have hsplit : List.take 5 ((strFields pw).map (convField conv buf))
                = List.take (i + 1) ((strFields pw).map (convField conv buf))
                  ++ (List.take 5 ((strFields pw).map (convField conv buf))).drop (i + 1) := by
              have := List.take_append_drop (i + 1)
                (List.take 5 ((strFields pw).map (convField conv buf)))
              rw [List.take_take, Nat.min_eq_left (by omega)] at this
              exact this.symm
            rw [hsplit, List.map_append, List.sum_append]
            omega
          have h7 : offsetOf ((strFields pw).map (convField conv buf)) (i + 1)
              = offsetOf ((strFields pw).map (convField conv buf)) i + (strlen u + 1) := by
            simp only [offsetOf]
            have hget : ((strFields pw).map (convField conv buf))[i]? = some (some u) := by
              rw [List.getElem?_map, hi]; simp [hcf]
            rw [List.take_succ, hget]
            simp [fieldLen]
          rw [hk, Nat.zero_add] at i5
          omega
        exact ⟨u, rfl, hf, hoff, hd, fun hz => by rw [hd, cstr_eq_self u hz]⟩

/-- Witness of C16: the example call with an 11-byte budget returns 0. -/
theorem GetpwInternal_r_packed_layout_witness :
    (11 ≤ bufExample.length
      ∧ (GetpwInternal_r latin1ToUtf8 (some pwExample) bufExample 11 Heap.empty).map
          Result_r.ret = some 0)
    ∧ ∃ r pw1, GetpwInternal_r latin1ToUtf8 (some pwExample) bufExample 11 Heap.empty = some r
        ∧ r.ppw = some pw1 ∧ pw1.pw_uid = pwExample.pw_uid ∧ pw1.pw_gid = pwExample.pw_gid
        ∧ r.buf.length = bufExample.length
        ∧ ∀ (i : Nat) (fld0 : Option CharPtr), (strFields pwExample)[i]? = some fld0 →
          ∃ fld1, (strFields pw1)[i]? = some fld1
            ∧ (fld0 = none → fld1 = none)
            ∧ (∀ q, fld0 = some q → ∃ u, latin1ToUtf8 (deref bufExample q) = some u
                ∧ fld1 = some (CharPtr.inBuf
                    (offsetOf ((strFields pwExample).map (convField latin1ToUtf8 bufExample)) i))
                ∧ offsetOf ((strFields pwExample).map (convField latin1ToUtf8 bufExample)) i
                    + strlen u + 1 ≤ 11
                ∧ deref r.buf (CharPtr.inBuf
                    (offsetOf ((strFields pwExample).map (convField latin1ToUtf8 bufExample)) i))
                  = cstr u
                ∧ (0 ∉ u → deref r.buf (CharPtr.inBuf
                    (offsetOf ((strFields pwExample).map (convField latin1ToUtf8 bufExample)) i))
                  = u)) :=
  ⟨⟨by decide, by decide⟩,
   GetpwInternal_r_packed_layout latin1ToUtf8 pwExample bufExample 11 Heap.empty
     (by decide) (by decide)⟩

/-! ## C14 -/

theorem toNat_emod_intOfMode (m : Nat) (hm : m < 2 ^ 32) :
    (intOfMode m % 2 ^ 32).toNat = m := by
  have e1 : (2 : Int) ^ 32 = 4294967296 := by norm_num
  have e2 : (2 : Nat) ^ 32 = 4294967296 := by norm_num
  have e3 : (2 : Nat) ^ 31 = 2147483648 := by norm_num
  unfold intOfMode
  rw [e1, e2, e3]
  rw [e2] at hm
  split <;> omega

/-- C14: `Posix_Open` calls the native `open` once with the converted path and
the flags unchanged. When `O_CREAT` is not set in `flags` the mode is 0 and
the variadic list is not read (the call is the same for every list, the empty
one included). When `O_CREAT` is set the mode is the first variadic argument,
read as an `int` and converted to `mode_t`: a `mode_t` value `m` passed by the
caller arrives as `m`. Hence `Posix_Creat(p, m)` calls `open` with flags
`O_CREAT | O_WRONLY | O_TRUNC` and mode `m`. -/
theorem Posix_Open_mode (enc : Bytes → Option Bytes) (os : OS) (pathName : Bytes)
    (flags : Nat) (va : List Int) (st : Proc) :
    (flags &&& O_CREAT = 0 →
      (Posix_Open enc os pathName flags va st).map observe
        = some (nativeDirect os (Syscall.sysOpen (enc pathName) flags 0) st))
    ∧ (flags &&& O_CREAT ≠ 0 → ∀ (a : Int) (rest : List Int), va = a :: rest →
        (Posix_Open enc os pathName flags va st).map observe
          = some (nativeDirect os
              (Syscall.sysOpen (enc pathName) flags (a % 2 ^ 32).toNat) st)
        ∧ (0 ≤ a → a < 2 ^ 32 → ((a % 2 ^ 32).toNat : Int) = a))
    ∧ (flags &&& O_CREAT ≠ 0 → ∀ (m : Nat) (rest : List Int), m < 2 ^ 32 →
        va = intOfMode m :: rest →
        (Posix_Open enc os pathName flags va st).map observe
          = some (nativeDirect os (Syscall.sysOpen (enc pathName) flags m) st))
    ∧ (∀ m : Nat, m < 2 ^ 32 →
        (Posix_Creat enc os pathName m st).map observe
          = some (nativeDirect os
              (Syscall.sysOpen (enc pathName) (O_CREAT ||| O_WRONLY ||| O_TRUNC) m) st)) := by
  have key : ∀ (fl : Nat) (a : Int) (rest : List Int), fl &&& O_CREAT ≠ 0 →
      (Posix_Open enc os pathName fl (a :: rest) st).map observe
        = some (nativeDirect os (Syscall.sysOpen (enc pathName) fl (a % 2 ^ 32).toNat) st) := by
    intro fl a rest hf
    simp [Posix_Open, hf, invoke, observe, nativeDirect, Unicode_GetAllocBytes_str]
  refine ⟨?_, ?_, ?_, ?_⟩
  · intro hf
    simp [Posix_Open, hf, invoke, observe, nativeDirect, Unicode_GetAllocBytes_str]
  · rintro hf a rest rfl
    refine ⟨key flags a rest hf, fun h0 h1 => ?_⟩
    have e1 : (2 : Int) ^ 32 = 4294967296 := by norm_num
    rw [e1] at h1 ⊢
    omega
  · rintro hf m rest hm rfl
    rw [key flags _ rest hf, toNat_emod_intOfMode m hm]
  · intro m hm
    have := key (O_CREAT ||| O_WRONLY ||| O_TRUNC) (intOfMode m) [] (by decide)
    rw [toNat_emod_intOfMode m hm] at this
    exact this

/-- Witness of C14: `Posix_Creat("/x", 0644)` and an `open` without `O_CREAT`
given a stray variadic argument. -/
theorem Posix_Open_mode_witness :
    (Posix_Creat some osAccepts [47, 120] 420 Proc.init).map observe
        = some (0, 0, [Syscall.sysOpen (some [47, 120]) 577 420])
    ∧ (Posix_Open some osAccepts [47, 120] 1 [493] Proc.init).map observe
        = some (0, 0, [Syscall.sysOpen (some [47, 120]) 1 0]) :=
  ⟨(Posix_Open_mode some osAccepts [47, 120] 0 [] Proc.init).2.2.2 420 (by decide),
   (Posix_Open_mode some osAccepts [47, 120] 1 [493] Proc.init).1 (by decide)⟩

/-! ## C15 -/

/-- C15: for arguments that convert, `Posix_Rename`, `Posix_Link` and
`Posix_Symlink` are observationally the native `rename`, `link` and `symlink`
called once with the converted strings in the same positions: same return
value, same `errno`, same native call. This holds although `Posix_Rename`
converts its second argument first and the other two their first. -/
theorem two_path_wrappers_equiv (enc : Bytes → Option Bytes) (os : OS)
    (pathName1 pathName2 native1 native2 : Bytes) (st : Proc)
    (h1 : enc pathName1 = some native1) (h2 : enc pathName2 = some native2) :
    observe (Posix_Rename enc os pathName1 pathName2 st)
        = nativeDirect os (Syscall.sysRename (some native1) (some native2)) st
    ∧ observe (Posix_Link enc os pathName1 pathName2 st)
        = nativeDirect os (Syscall.sysLink (some native1) (some native2)) st
    ∧ observe (Posix_Symlink enc os pathName1 pathName2 st)
        = nativeDirect os (Syscall.sysSymlink (some native1) (some native2)) st := by
  have hto : (Unicode_GetAllocBytes enc (Unicode_GetAllocBytes enc st.heap pathName2).2
        pathName1).2.str (Unicode_GetAllocBytes enc st.heap pathName2).1 = some native2 := by
    rw [(Unicode_GetAllocBytes_ext enc _ pathName1).1.str
      (Unicode_GetAllocBytes_ext enc st.heap pathName2).2, Unicode_GetAllocBytes_str, h2]
  have hfrom : (Unicode_GetAllocBytes enc (Unicode_GetAllocBytes enc st.heap pathName1).2
        pathName2).2.str (Unicode_GetAllocBytes enc st.heap pathName1).1 = some native1 := by
    rw [(Unicode_GetAllocBytes_ext enc _ pathName2).1.str
      (Unicode_GetAllocBytes_ext enc st.heap pathName1).2, Unicode_GetAllocBytes_str, h1]
  refine ⟨?_, ?_, ?_⟩
  · simp [Posix_Rename, invoke, observe, nativeDirect, Unicode_GetAllocBytes_str, hto, h1]
  · simp [Posix_Link, invoke, observe, nativeDirect, Unicode_GetAllocBytes_str, hfrom, h2]
  · simp [Posix_Symlink, invoke, observe, nativeDirect, Unicode_GetAllocBytes_str, hfrom, h2]

/-- Witness of C15: the three wrappers on "/a" and "/b" with the identity
codec. -/
theorem two_path_wrappers_equiv_witness :
    observe (Posix_Rename some osChecksNull [47, 97] [47, 98] Proc.init)
        = nativeDirect osChecksNull (Syscall.sysRename (some [47, 97]) (some [47, 98]))
            Proc.init
    ∧ observe (Posix_Link some osChecksNull [47, 97] [47, 98] Proc.init)
        = nativeDirect osChecksNull (Syscall.sysLink (some [47, 97]) (some [47, 98])) Proc.init
    ∧ observe (Posix_Symlink some osChecksNull [47, 97] [47, 98] Proc.init)
        = nativeDirect osChecksNull (Syscall.sysSymlink (some [47, 97]) (some [47, 98]))
            Proc.init :=
  two_path_wrappers_equiv some osChecksNull [47, 97] [47, 98] [47, 97] [47, 98] Proc.init
    rfl rfl

/-! ## C18 -/

theorem fillArray_eq_fillArgv (enc : Bytes → Option Bytes) (av : List (Option Bytes)) :
    ∀ (n i : Nat) (argv : List (Option Nat)) (h : Heap),
      fillArray enc av n i argv h = fillArgv enc n i (av.drop i) argv h := by
  intro n
  induction n with
  | zero => intro i argv h; rfl
  | succ n ih =>
    intro i argv h
    simp only [fillArray, fillArgv, List.head?_drop, List.tail_drop]
    exact ih _ _ _

/-- C18: for every path and every list of `n ≥ 0` universal-text arguments,
`Posix_Execv` given the non-null array of the arguments closed by `NULL` does
exactly what `Posix_Execl` does given the same arguments closed by `NULL`:
the same return value and the same final state, native calls included. When
the vector is allocated both pass the converted path and the vector of the
converted arguments closed by a null entry to `execv`. `Posix_Execv` given a
null array passes a null vector. -/
theorem Posix_Execv_eq_Execl (enc : Bytes → Option Bytes) (os : OS) (argvOk : Bool)
    (pathName : Bytes) (args : List Bytes) (st : Proc) :
    Posix_Execv enc os argvOk pathName (some (args.map some ++ [none])) st
        = execlOf enc os argvOk pathName args st
    ∧ (Posix_Execv enc os true pathName (some (args.map some ++ [none])) st).2.log
        = Syscall.sysExecv (enc pathName) (some (args.map enc ++ [none])) :: st.log
    ∧ (execlOf enc os true pathName args st).2.log
        = Syscall.sysExecv (enc pathName) (some (args.map enc ++ [none])) :: st.log
    ∧ observe (Posix_Execv enc os argvOk pathName none st)
        = nativeDirect os (Syscall.sysExecv (enc pathName) none) st := by
  have heq : ∀ ok, Posix_Execv enc os ok pathName (some (args.map some ++ [none])) st
      = execlOf enc os ok pathName args st := by
    intro ok
    cases args with
    | nil =>
      simp [Posix_Execv, execlOf, Posix_Execl, countArgs, fillArray]
    | cons a0 rest =>
      have hc : countArgs (rest.map some ++ [none]) 1 = rest.length + 1 := by
        rw [countArgs_spec]; omega
      have hc0 : countArgs (some a0 :: (rest.map some ++ [none])) 0 = rest.length + 1 := hc
      have hfill : ∀ (argv : List (Option Nat)) (h : Heap),
          fillArray enc (some a0 :: (rest.map some ++ [none])) (rest.length + 1) 0 argv h
            = fillArgv enc rest.length 1 (rest.map some ++ [none])
                (argv.set 0 (Unicode_GetAllocBytesOpt enc h (some a0)).1)
                (Unicode_GetAllocBytesOpt enc h (some a0)).2 := by
        intro argv h
        have e := fillArray_eq_fillArgv enc (some a0 :: (rest.map some ++ [none])) rest.length 1
          (argv.set 0 (Unicode_GetAllocBytesOpt enc h (some a0)).1)
          (Unicode_GetAllocBytesOpt enc h (some a0)).2
        rw [List.drop_succ_cons, List.drop_zero] at e
        rw [← e]
        simp [fillArray]
      simp only [Posix_Execv, execlOf, Posix_Execl, List.map_cons, List.cons_append, hc0, hc,
        hfill, Nat.add_sub_cancel, gt_iff_lt, Nat.zero_lt_succ, if_true]
  refine ⟨heq argvOk, ?_, (execlOf_log enc os pathName args st).1, ?_⟩
  · rw [heq true]; exact (execlOf_log enc os pathName args st).1
  · simp [Posix_Execv, invoke, observe, nativeDirect, Unicode_GetAllocBytes_str]

/-- Witness of C18: three arguments, with the vector allocated. -/
theorem Posix_Execv_eq_Execl_witness :
    Posix_Execv some osAccepts true [47, 98] (some [some [97], some [98], some [99], none])
        Proc.init
      = Posix_Execl some osAccepts true [47, 98] (some [97]) [some [98], some [99], none]
          Proc.init :=
  (Posix_Execv_eq_Execl some osAccepts true [47, 98] [[97], [98], [99]] Proc.init).1

/-! ## C13 -/

theorem cstr_take_nul (w : Bytes) (n : Nat) (rest : Bytes) :
    cstr (w.take n ++ 0 :: rest) = cstr (w.take n) := by
  induction w generalizing n with
  | nil => simp [cstr]
  | cons b t ih =>
    cases n with
    | zero => simp [cstr]
    | succ k =>
      by_cases hb : b = 0
      · subst hb; simp [cstr]
      · simp only [cstr] at ih ⊢
        simp [List.takeWhile_cons, hb, ih]

theorem Posix_ReadLink_eq (enc conv : Bytes → Option Bytes) (os : OS)
    (written pathName : Bytes) (st : Proc) :
    Posix_ReadLink enc conv os written pathName st
      = if ¬ (os st.log (Syscall.sysReadlink (enc pathName) PATH_MAX)).ret < (PATH_MAX : Int)
        then .error Fault.panic
        else if (os st.log (Syscall.sysReadlink (enc pathName) PATH_MAX)).ret = -1
        then .ok (none,
          { heap := free (Unicode_GetAllocBytes enc st.heap pathName).2
              (Unicode_GetAllocBytes enc st.heap pathName).1,
            errno := ((os st.log (Syscall.sysReadlink (enc pathName) PATH_MAX)).errno).getD
              st.errno,
            log := Syscall.sysReadlink (enc pathName) PATH_MAX :: st.log })
        else if 0 ≤ (os st.log (Syscall.sysReadlink (enc pathName) PATH_MAX)).ret
        then .ok ((Unicode_Alloc conv (free (Unicode_GetAllocBytes enc st.heap pathName).2
              (Unicode_GetAllocBytes enc st.heap pathName).1)
            (cstr (written.take
                (os st.log (Syscall.sysReadlink (enc pathName) PATH_MAX)).ret.toNat
              ++ 0 :: written.drop
                ((os st.log (Syscall.sysReadlink (enc pathName) PATH_MAX)).ret.toNat + 1)))).1,
          { heap := (Unicode_Alloc conv (free (Unicode_GetAllocBytes enc st.heap pathName).2
              (Unicode_GetAllocBytes enc st.heap pathName).1)
            (cstr (written.take
                (os st.log (Syscall.sysReadlink (enc pathName) PATH_MAX)).ret.toNat
              ++ 0 :: written.drop
                ((os st.log (Syscall.sysReadlink (enc pathName) PATH_MAX)).ret.toNat + 1)))).2,
            errno := ((os st.log (Syscall.sysReadlink (enc pathName) PATH_MAX)).errno).getD
              st.errno,
            log := Syscall.sysReadlink (enc pathName) PATH_MAX :: st.log })
        else .error Fault.outOfBounds := by
  simp only [Posix_ReadLink, invoke, Unicode_GetAllocBytes_str, ASSERT_NOT_IMPLEMENTED]
  generalize (os st.log (Syscall.sysReadlink (enc pathName) PATH_MAX)).ret = b
  simp only [PATH_MAX, Nat.cast_ofNat]
  by_cases h1 : b < 4096
  · by_cases h2 : b = -1
    · subst h2; simp
    · by_cases h3 : 0 ≤ b
      · simp [h1, h2, h3]
      · simp [h1, h2, h3]
  · simp [h1]

/-- C13: when the native `readlink` fails (returns -1), `Posix_ReadLink` returns
null and allocates no universal-text value: the heap holds no block beyond the
transient native path, which is released. When `readlink` returns a count `n`
with `0 ≤ n < PATH_MAX`, the result is the universal-text conversion of the
string formed by the first `n` bytes of the array (a NUL is placed at index
`n` before the conversion); these are exactly the first `n` bytes when none of
them is NUL, as is the case for the target of a symbolic link. -/
theorem Posix_ReadLink_result (enc conv : Bytes → Option Bytes) (os : OS)
    (written pathName : Bytes) (st : Proc) :
    ((os st.log (Syscall.sysReadlink (enc pathName) PATH_MAX)).ret = -1 →
      ∃ pr, Posix_ReadLink enc conv os written pathName st = .ok (none, pr)
        ∧ pr.heap = free (Unicode_GetAllocBytes enc st.heap pathName).2
            (Unicode_GetAllocBytes enc st.heap pathName).1)
    ∧ (∀ n : Nat, n < PATH_MAX →
        (os st.log (Syscall.sysReadlink (enc pathName) PATH_MAX)).ret = (n : Int) →
        ∃ v pr, Posix_ReadLink enc conv os written pathName st = .ok (v, pr)
          ∧ pr.heap.str v = conv (cstr (written.take n))
          ∧ (0 ∉ written.take n → pr.heap.str v = conv (written.take n))) := by
  constructor
  · intro hret
    rw [Posix_ReadLink_eq, hret, if_neg (by simp [PATH_MAX]), if_pos rfl]
    exact ⟨_, rfl, rfl⟩
  · intro n hn hret
    have hlt : (n : Int) < (PATH_MAX : Int) := by exact_mod_cast hn
    have hne : ¬ (n : Int) = -1 := by omega
    have h0 : (0 : Int) ≤ (n : Int) := Int.natCast_nonneg n
    rw [Posix_ReadLink_eq, hret, if_neg (not_not.2 hlt), if_neg hne, if_pos h0,
      Int.toNat_natCast]
    refine ⟨_, _, rfl, ?_, ?_⟩
    · rw [Unicode_Alloc_str, cstr_take_nul]
    · intro hz
      rw [Unicode_Alloc_str, cstr_take_nul, cstr_eq_self _ hz]

/-- Witness of C13: `readlink` writes "/ab" (3 bytes) into an array holding
stack garbage, and a failing `readlink`. -/
theorem Posix_ReadLink_result_witness :
    (∃ v pr, Posix_ReadLink some some (osReadlink 3) [47, 97, 98, 7, 7] [108] Proc.init
          = .ok (v, pr)
        ∧ pr.heap.str v = some (cstr (List.take 3 [47, 97, 98, 7, 7]))
        ∧ (0 ∉ List.take 3 [47, 97, 98, 7, 7] →
            pr.heap.str v = some (List.take 3 [47, 97, 98, 7, 7])))
    ∧ ∃ pr, Posix_ReadLink some some (osReadlink (-1)) [7, 7] [108] Proc.init = .ok (none, pr)
        ∧ pr.heap = free (Unicode_GetAllocBytes some Proc.init.heap [108]).2
            (Unicode_GetAllocBytes some Proc.init.heap [108]).1 :=
  ⟨(Posix_ReadLink_result some some (osReadlink 3) [47, 97, 98, 7, 7] [108] Proc.init).2 3
      (by decide) rfl,
   (Posix_ReadLink_result some some (osReadlink (-1)) [7, 7] [108] Proc.init).1 rfl⟩

/-! ## C19 -/

/-- C19: for every value the native `readlink` can return for an array of
`PATH_MAX` bytes (-1, or a count from 0 to `PATH_MAX`; the proof needs only
that it is at least -1), `Posix_ReadLink` never writes the terminator outside
the array: the value -1 skips the write and the call returns null, the value
`PATH_MAX` is stopped by the assertion `bytes < sizeof link` before the write,
and for every other value the write `link[bytes] = 0` happens with
`0 ≤ bytes < PATH_MAX` and the call returns. -/
theorem Posix_ReadLink_terminator_in_bounds (enc conv : Bytes → Option Bytes) (os : OS)
    (written pathName : Bytes) (st : Proc)
    (hlo : -1 ≤ (os st.log (Syscall.sysReadlink (enc pathName) PATH_MAX)).ret) :
    Posix_ReadLink enc conv os written pathName st ≠ .error Fault.outOfBounds
    ∧ ((PATH_MAX : Int) ≤ (os st.log (Syscall.sysReadlink (enc pathName) PATH_MAX)).ret →
        Posix_ReadLink enc conv os written pathName st = .error Fault.panic)
    ∧ ((os st.log (Syscall.sysReadlink (enc pathName) PATH_MAX)).ret = -1 →
        ∃ pr, Posix_ReadLink enc conv os written pathName st = .ok (none, pr))
    ∧ (0 ≤ (os st.log (Syscall.sysReadlink (enc pathName) PATH_MAX)).ret →
        (os st.log (Syscall.sysReadlink (enc pathName) PATH_MAX)).ret < (PATH_MAX : Int) →
        ∃ v pr, Posix_ReadLink enc conv os written pathName st = .ok (v, pr)) := by
  rw [Posix_ReadLink_eq]
  generalize (os st.log (Syscall.sysReadlink (enc pathName) PATH_MAX)).ret = bytes
    at hlo ⊢
  refine ⟨?_, ?_, ?_, ?_⟩
  · split
    · intro h; cases h
    · split
      · intro h; cases h
      · split
        · intro h; cases h
        · omega
  · intro he
    rw [if_pos (by omega)]
  · intro he
    rw [if_neg (by rw [he]; simp [PATH_MAX]), if_pos he]
    exact ⟨_, rfl⟩
  · intro h0 h1
    rw [if_neg (not_not.2 h1), if_neg (by omega), if_pos h0]
    exact ⟨_, _, rfl⟩

/-- Witness of C19: a link target that fills the whole array is stopped by the
assertion, not by an out-of-bounds write. -/
theorem Posix_ReadLink_terminator_in_bounds_witness :
    Posix_ReadLink some some (osReadlink 4096) [47, 97] [108] Proc.init
        ≠ .error Fault.outOfBounds
    ∧ Posix_ReadLink some some (osReadlink 4096) [47, 97] [108] Proc.init
        = .error Fault.panic :=
  have key := Posix_ReadLink_terminator_in_bounds some some (osReadlink 4096) [47, 97] [108]
    Proc.init (by decide)
  ⟨key.1, key.2.1 (by decide)⟩

/-! ## C17 -/

theorem strlen_of_no_nul (u : Bytes) (h : 0 ∉ u) : strlen u = u.length := by
  unfold strlen
  rw [cstr_eq_self u h]

theorem cstr_append_nul (u rest : Bytes) (h : 0 ∉ u) : cstr (u ++ 0 :: rest) = u := by
  have e := cstr_append_zero u rest
  rw [cstr_eq_self u h] at e
  exact e

theorem latin1_replicate_length (n : Nat) :
    ((List.replicate n 233).flatMap
      (fun b => if b < 128 then [b] else [192 + b / 64, 128 + b % 64])).length = 2 * n := by
  induction n with
  | zero => rfl
  | succ k ih =>
    rw [List.replicate_succ, List.flatMap_cons, List.length_append, ih]
    simp
    omega

theorem latin1_replicate_no_nul (n : Nat) :
    0 ∉ (List.replicate n 233).flatMap
      (fun b => if b < 128 then [b] else [192 + b / 64, 128 + b % 64]) := by
  induction n with
  | zero => simp
  | succ k ih =>
    rw [List.replicate_succ, List.flatMap_cons, List.mem_append]
    intro h
    rcases h with h | h
    · simp at h
    · exact ih h

theorem deref_bufBig : deref bufBig (CharPtr.inBuf 0) = bigName := by
  show cstr (List.drop 0 (bigName ++ [0])) = bigName
  rw [List.drop_zero]
  apply cstr_append_nul
  intro h
  have := List.eq_of_mem_replicate h
  omega

theorem toInt32_wrap : toInt32 ((2147483648 : Nat) + 1) = -2147483647 := by
  unfold toInt32
  norm_num

theorem packFieldInt_wrap (buf u : Bytes) (size : Int) (fld : Option CharPtr)
    (h0 : 0 ∉ u) (hl : u.length = 2147483648) (hs : 0 ≤ size) :
    packFieldInt size (some u) fld buf 0 = .error PackStop.memFault := by
  have hlen : toInt32 ((strlen u : Int) + 1) = -2147483647 := by
    rw [strlen_of_no_nul u h0, hl]
    exact toInt32_wrap
  unfold packFieldInt
  simp only []
  rw [hlen, if_neg (by push_cast; omega), if_pos (by omega)]

theorem packMntStrings_wrap (size : Int) (h : Heap) (l : MntLocals) (m : Mntent CharPtr)
    (buf u : Bytes) (hstr : h.str l.fsname = some u)
    (h0 : 0 ∉ u) (hl : u.length = 2147483648) (hs : 0 ≤ size) :
    packMntStrings size h l m buf = none := by
  unfold packMntStrings
  rw [hstr, packFieldInt_wrap buf u size _ h0 hl hs]

/-- With a converted `mnt_fsname` of 2^31 bytes the `int` length is negative,
the range test does not fire and `memcpy` is reached with that length. -/
theorem Posix_Getmntent_r_int_wrap (conv : Bytes → Option Bytes) (buf u : Bytes) (size : Int)
    (hc : conv (deref buf (CharPtr.inBuf 0)) = some u)
    (h0 : 0 ∉ u) (hl : u.length = 2147483648) (hs : 0 ≤ size) :
    Posix_Getmntent_r conv true
      { mnt_fsname := some (CharPtr.inBuf 0), mnt_dir := none, mnt_type := none,
        mnt_opts := none, mnt_freq := 0, mnt_passno := 0 } buf size Heap.empty 0 = none := by
  have hconv : convertMntStrings conv
      { mnt_fsname := some (CharPtr.inBuf 0), mnt_dir := none, mnt_type := none,
        mnt_opts := none, mnt_freq := 0, mnt_passno := 0 } buf Heap.empty
      = (true, ⟨some 0, none, none, none⟩, { blocks := [u], freed := [] }) := by
    simp [convertMntStrings, allocGuard, Unicode_Alloc, Heap.malloc, Heap.empty, hc]
  have hstr : ({ blocks := [u], freed := [] } : Heap).str (some 0) = some u := by
    simp [Heap.str]
  have hpack := packMntStrings_wrap size { blocks := [u], freed := [] }
      ⟨some 0, none, none, none⟩
      { mnt_fsname := some (CharPtr.inBuf 0), mnt_dir := none, mnt_type := none,
        mnt_opts := none, mnt_freq := 0, mnt_passno := 0 } buf u hstr h0 hl hs
  simp only [Posix_Getmntent_r, hconv, hpack, if_true, Option.map_none']

/-- With a converted `pw_name` of 2^31 bytes `GetpwInternal_r`, whose lengths
are `size_t`, reports `ERANGE` for every smaller buffer size. -/
theorem GetpwInternal_r_big (conv : Bytes → Option Bytes) (buf u : Bytes) (size : Nat)
    (hc : conv (deref buf (CharPtr.inBuf 0)) = some u)
    (h0 : 0 ∉ u) (hl : u.length = 2147483648) (hs : size ≤ 2147483648) :
    (GetpwInternal_r conv
      (some { pw_name := some (CharPtr.inBuf 0), pw_passwd := none, pw_uid := 0, pw_gid := 0,
              pw_gecos := none, pw_dir := none, pw_shell := none }) buf size Heap.empty).map
      Result_r.ret = some ERANGE := by
  have hall : AllConvert conv
      { pw_name := some (CharPtr.inBuf 0), pw_passwd := none, pw_uid := 0, pw_gid := 0,
        pw_gecos := none, pw_dir := none, pw_shell := none } buf := by
    intro q hq
    simp at hq
    subst hq
    rw [hc]
    rfl
  rw [GetpwInternal_r_ret conv _ buf size Heap.empty hall]
  have hsize : packedSize conv
      { pw_name := some (CharPtr.inBuf 0), pw_passwd := none, pw_uid := 0, pw_gid := 0,
        pw_gecos := none, pw_dir := none, pw_shell := none } buf = 2147483649 := by
    simp only [packedSize, convField, Option.map_some', Option.map_none', Option.some_bind,
      Option.none_bind, hc, fieldLen, strlen_of_no_nul u h0, hl]
  rw [hsize, if_neg (by omega)]

/-- C17 (failing input): a mount entry whose `mnt_fsname` is a native string
of 2^30 Latin-1 e-acute bytes at the start of a buffer of 2^30 + 1 bytes, with
a Latin-1 to UTF-8 codec, so that the converted string has 2^31 bytes. In
`Posix_Getmntent_r` the length `strlen(fsname) + 1 = 2^31 + 1` is stored in an
`int` and becomes negative, the test `p + len > buf + size` does not fire, and
`memcpy` is called with that length: the call faults. `GetpwInternal_r`,
whose lengths are `size_t`, returns `ERANGE` for the same string, buffer and
size. -/
theorem Posix_Getmntent_r_int_length_fault :
    Posix_Getmntent_r latin1ToUtf8 true mntBig bufBig 1073741825 Heap.empty 0 = none
    ∧ (GetpwInternal_r latin1ToUtf8 (some pwBig) bufBig 1073741825 Heap.empty).map
        Result_r.ret = some ERANGE :=
  have hc : latin1ToUtf8 (deref bufBig (CharPtr.inBuf 0)) = some (bigName.flatMap
      (fun b => if b < 128 then [b] else [192 + b / 64, 128 + b % 64])) :=
    congrArg latin1ToUtf8 deref_bufBig
  ⟨Posix_Getmntent_r_int_wrap latin1ToUtf8 bufBig _ 1073741825 hc
     (latin1_replicate_no_nul 1073741824) (latin1_replicate_length 1073741824) (by decide),
   GetpwInternal_r_big latin1ToUtf8 bufBig _ 1073741825 hc
     (latin1_replicate_no_nul 1073741824) (latin1_replicate_length 1073741824) (by decide)⟩

/-! ### Agreement of the two reentrant adapters below the `int` range -/

theorem toInt32_small (n : Nat) (h : n < 2147483648) : toInt32 (n : Int) = n := by
  unfold toInt32
  omega

theorem packFieldInt_eq_packField (size : Nat) (s : Option Bytes) (fld : Option CharPtr)
    (buf : Bytes) (p : Nat) (hb : ∀ u, s = some u → strlen u + 1 < 2147483648) :
    packFieldInt size s fld buf p
      = match packField size s fld buf p with
        | none => .error PackStop.gotoExit
        | some x => .ok x := by
  cases s with
  | none => rfl
  | some u =>
    have hlen : toInt32 ((strlen u : Int) + 1) = ((strlen u + 1 : Nat) : Int) := by
      have := toInt32_small (strlen u + 1) (hb u rfl)
      rw [← this]
      push_cast
      rfl
    simp only [packFieldInt, packField, hlen]
    by_cases h : p + (strlen u + 1) > size
    · rw [if_pos h, if_pos (by omega)]
    · rw [if_neg h, if_neg (by omega), if_neg (by omega)]
      simp

theorem packFieldSize_eq_packField (size : Nat) (s : Option Bytes) (fld : Option CharPtr)
    (buf : Bytes) (p : Nat) :
    packFieldSize size s fld buf p
      = match packField size s fld buf p with
        | none => .error PackStop.gotoExit
        | some x => .ok x := by
  cases s with
  | none => rfl
  | some u =>
    simp only [packFieldSize, packField]
    by_cases h : p + (strlen u + 1) > size
    · rw [if_pos h, if_pos (by omega)]
    · rw [if_neg h, if_neg (by omega)]

theorem convertStrings_mntAsPasswd (conv : Bytes → Option Bytes) (m : Mntent CharPtr)
    (buf : Bytes) (h0 : Heap) :
    convertStrings conv (mntAsPasswd m) buf h0
      = ((convertMntStrings conv m buf h0).1,
         ⟨(convertMntStrings conv m buf h0).2.1.fsname, (convertMntStrings conv m buf h0).2.1.dir,
          (convertMntStrings conv m buf h0).2.1.type, (convertMntStrings conv m buf h0).2.1.opts,
          none⟩,
         (convertMntStrings conv m buf h0).2.2) := by
  simp only [convertStrings, convertMntStrings, mntAsPasswd]
  cases e1 : allocGuard conv (m.mnt_fsname.map (deref buf)) h0 with
  | none => rfl
  | some r1 =>
    obtain ⟨v1, h1⟩ := r1
    simp only
    cases e2 : allocGuard conv (m.mnt_dir.map (deref buf)) h1 with
    | none => rfl
    | some r2 =>
      obtain ⟨v2, h2⟩ := r2
      simp only
      cases e3 : allocGuard conv (m.mnt_type.map (deref buf)) h2 with
      | none => rfl
      | some r3 =>
        obtain ⟨v3, h3⟩ := r3
        simp only
        cases e4 : allocGuard conv (m.mnt_opts.map (deref buf)) h3 with
        | none => rfl
        | some r4 =>
          obtain ⟨v4, h4⟩ := r4
          rfl

theorem packMntStrings_eq_packStrings (size : Nat) (h : Heap) (l : MntLocals)
    (m : Mntent CharPtr) (buf : Bytes)
    (b1 : ∀ u, h.str l.fsname = some u → strlen u + 1 < 2147483648)
    (b2 : ∀ u, h.str l.dir = some u → strlen u + 1 < 2147483648)
    (b3 : ∀ u, h.str l.type = some u → strlen u + 1 < 2147483648) :
    ∃ m1, packMntStrings size h l m buf
        = some ((packStrings size h ⟨l.fsname, l.dir, l.type, l.opts, none⟩
                  (mntAsPasswd m) buf).1, m1,
                (packStrings size h ⟨l.fsname, l.dir, l.type, l.opts, none⟩
                  (mntAsPasswd m) buf).2.2)
      ∧ (packStrings size h ⟨l.fsname, l.dir, l.type, l.opts, none⟩
                  (mntAsPasswd m) buf).2.1 = mntAsPasswd m1 := by
  simp only [packMntStrings, packStrings, mntAsPasswd]
  rw [packFieldInt_eq_packField size _ _ _ _ b1]
  cases e1 : packField size (h.str l.fsname) m.mnt_fsname buf 0 with
  | none => exact ⟨m, rfl, rfl⟩
  | some r1 =>
    obtain ⟨f1, buf1, p1⟩ := r1
    simp only
    rw [packFieldInt_eq_packField size _ _ _ _ b2]
    cases e2 : packField size (h.str l.dir) m.mnt_dir buf1 p1 with
    | none => exact ⟨_, rfl, rfl⟩
    | some r2 =>
      obtain ⟨f2, buf2, p2⟩ := r2
      simp only
      rw [packFieldInt_eq_packField size _ _ _ _ b3]
      cases e3 : packField size (h.str l.type) m.mnt_type buf2 p2 with
      | none => exact ⟨_, rfl, rfl⟩
      | some r3 =>
        obtain ⟨f3, buf3, p3⟩ := r3
        simp only
        rw [packFieldSize_eq_packField size]
        cases e4 : packField size (h.str l.opts) m.mnt_opts buf3 p3 with
        | none => exact ⟨_, rfl, rfl⟩
        | some r4 =>
          obtain ⟨f4, buf4, p4⟩ := r4
          exact ⟨_, rfl, rfl⟩

/-- Below the `int` range the two adapters agree: when the converted
`mnt_fsname`, `mnt_dir` and `mnt_type` each need fewer than 2^31 bytes,
`Posix_Getmntent_r` returns, and on the account record with the same strings
`GetpwInternal_r` leaves the same field pointers, buffer and heap blocks; its
status is 0 exactly when `Posix_Getmntent_r` returns `m` (with `errno`
untouched), and otherwise is the value `Posix_Getmntent_r` stores in `errno`
while returning null. -/
theorem Posix_Getmntent_r_agrees_below_int_range (conv : Bytes → Option Bytes)
    (m : Mntent CharPtr) (buf : Bytes) (size : Nat) (heap : Heap) (errno : Int)
    (hb : ∀ fld ∈ [m.mnt_fsname, m.mnt_dir, m.mnt_type], ∀ u,
      convField conv buf fld = some u → strlen u + 1 < 2147483648) :
    ∃ r rp, Posix_Getmntent_r conv true m buf size heap errno = some r
      ∧ GetpwInternal_r conv (some (mntAsPasswd m)) buf size heap = some rp
      ∧ rp.ppw = some (mntAsPasswd r.m)
      ∧ rp.buf = r.buf
      ∧ rp.heap.blocks = r.heap.blocks
      ∧ (rp.ret = 0 → r.ret = some r.m ∧ r.errno = errno)
      ∧ (rp.ret ≠ 0 → r.ret = none ∧ r.errno = rp.ret) := by
  have hcs := convertStrings_mntAsPasswd conv m buf heap
  rcases hc : convertMntStrings conv m buf heap with ⟨ok, l, h⟩
  rw [hc] at hcs
  simp only at hcs
  cases ok with
  | false =>
    simp only [Posix_Getmntent_r, GetpwInternal_r, hc, hcs, if_true, Bool.false_eq_true,
      if_false, Option.map_some', ne_eq, ENOMEM_ne_zero, not_false_eq_true]
    refine ⟨_, _, rfl, rfl, rfl, rfl, ?_, ?_, ?_⟩
    · simp only [freeLocals, free_blocks]
    · intro h0; exact absurd h0 ENOMEM_ne_zero
    · intro _; exact ⟨rfl, rfl⟩
  | true =>
    obtain ⟨-, s1, s2, s3, -, -⟩ := convertStrings_true hcs
    simp only [mntAsPasswd] at s1 s2 s3
    obtain ⟨m1, e1, e2⟩ := packMntStrings_eq_packStrings size h l m buf
      (fun u hu => hb m.mnt_fsname (by simp) u (by rw [← s1]; exact hu))
      (fun u hu => hb m.mnt_dir (by simp) u (by rw [← s2]; exact hu))
      (fun u hu => hb m.mnt_type (by simp) u (by rw [← s3]; exact hu))
    rcases hp : packStrings size h ⟨l.fsname, l.dir, l.type, l.opts, none⟩ (mntAsPasswd m) buf
      with ⟨ret, pw1, b1⟩
    rw [hp] at e1 e2
    simp only at e1 e2
    subst e2
    simp only [Posix_Getmntent_r, GetpwInternal_r, hc, hcs, hp, e1, if_true, Option.map_some']
    by_cases hz : ret = 0
    · subst hz
      refine ⟨_, _, rfl, rfl, rfl, rfl, ?_, ?_, ?_⟩
      · simp only [freeLocals, free_blocks, ne_eq, not_true_eq_false, if_false]
      · intro _; exact ⟨rfl, rfl⟩
      · intro h0; exact absurd rfl h0
    · refine ⟨_, _, rfl, rfl, ?_, ?_, ?_, ?_, ?_⟩
      · rw [if_pos hz]
      · rw [if_pos hz]
      · rw [if_pos hz]; simp only [freeLocals, free_blocks]
      · intro h0; exact absurd h0 hz
      · intro _; rw [if_pos hz]; exact ⟨rfl, rfl⟩

end PosixPosix
